import Mathlib

/-!
# Raw denoise (`src/iop/rawdenoise.c`): wavelet decomposition with per-band soft thresholding

Shallow embedding of the numeric core of the module.

* C `int` values are `Int`; `/` and `%` on them are the truncating `Int.tdiv` and `Int.tmod`.
* `float` values are elements of a linearly ordered field `α` (exact arithmetic): the
  definitions run on `ℚ`, the theorems hold in particular for `ℝ`.
* A `float *` is a function `Int → α` from element offsets to values; a store is a
  functional update.  Pointers declared `restrict` are separate functions.
* Loops test their condition before every iteration and carry an iteration bound that is
  always large enough.
* Freshly allocated memory and uninitialised locals have arbitrary contents `uninit`.
-/

namespace Rawdenoise

/-! ## C helpers -/

/-- Modelled from the spec: the `MAX` macro of the host headers (not part of `rawdenoise.c`),
`((a) > (b)) ? (a) : (b)`, the larger of its two arguments. -/
def MAX {β : Type} [LinearOrder β] (a b : β) : β := if a > b then a else b

/-- Modelled from the spec: the `MIN` macro of the host headers (not part of `rawdenoise.c`),
`((a) < (b)) ? (a) : (b)`, the smaller of its two arguments. -/
def MIN {β : Type} [LinearOrder β] (a b : β) : β := if a < b then a else b

/-- The C library `abs` on `int`. -/
def c_abs (x : Int) : Int := if x < 0 then -x else x

/-- Store `v` at offset `a` of the buffer `p`: `p[a] = v`. -/
def store {β : Type} (p : Int → β) (a : Int) (v : β) : Int → β :=
  fun k => if k = a then v else p k

/-- Copy of `n` elements, `memcpy(dst, src, n * sizeof(float))`. -/
def memcpy {β : Type} (dst src : Int → β) (n : Int) : Int → β :=
  fun k => if 0 ≤ k ∧ k < n then src k else dst k

/-- Fill of `n` elements with zero, `memset(p, 0, n * sizeof(float))`. -/
def memset0 {β : Type} [Zero β] (p : Int → β) (n : Int) : Int → β :=
  fun k => if 0 ≤ k ∧ k < n then 0 else p k

/-- A counted loop `for(i = i0; i < hi; i += step) body`: the test `i < hi` is made before
every iteration; the first argument bounds the number of iterations. -/
def forStep {σ : Type} (hi step : Int) (body : Int → σ → σ) : Nat → Int → σ → σ
  | 0, _, s => s
  | n + 1, i, s => if i < hi then forStep hi step body n (i + step) (body i s) else s

/-- The loop `for(int i = lo; i < hi; i++) body`; `hi - lo` iterations are enough. -/
def forLoop {σ : Type} (lo hi : Int) (body : Int → σ → σ) (s : σ) : σ :=
  forStep hi 1 body (hi - lo).toNat lo s

/-- The loop `for(int i = lo; i < hi; i += 2) body`; `hi - lo` iterations are enough. -/
def forLoop2 {σ : Type} (lo hi : Int) (body : Int → σ → σ) (s : σ) : σ :=
  forStep hi 2 body (hi - lo).toNat lo s

/-- A loop `for(; cond; body)` on an explicit state; the first argument bounds the number of
iterations. -/
def whileLoop {σ : Type} (cond : σ → Bool) (body : σ → σ) : Nat → σ → σ
  | 0, s => s
  | n + 1, s => if cond s then whileLoop cond body n (body s) else s

/-! ## Row scheduler -/

/-- The function `rowid_to_row` (lines 213-228). -/
def rowid_to_row (rowid height scale : Int) : Int :=
  if height ≤ scale then rowid
  else
    let per_pass := Int.tdiv (height + scale - 1) scale
    let long_passes := Int.tmod height scale
    if long_passes = 0 ∨ rowid < long_passes * per_pass then
      Int.tdiv rowid per_pass + scale * Int.tmod rowid per_pass
    else
      let rowid2 := rowid - long_passes * per_pass
      long_passes + Int.tdiv rowid2 (per_pass - 1) + scale * Int.tmod rowid2 (per_pass - 1)

/-- Left inverse of the scheduler: the position at which `row` is visited. -/
def row_to_rowid (row height scale : Int) : Int :=
  if height ≤ scale then row
  else
    let per_pass := (height + scale - 1) / scale
    let long_passes := height % scale
    if long_passes = 0 ∨ row % scale < long_passes then
      (row % scale) * per_pass + row / scale
    else
      long_passes * per_pass + (row % scale - long_passes) * (per_pass - 1) + row / scale

/-! ## Hat transform -/

/-- Local state of `hat_transform`: the counter `i`, the three read pointers as offsets from
`base`, the output line `temp`, and a record of the offsets read from `base` and of the
indices of `temp` stored to (most recent first). -/
structure HatState (α : Type) where
  /-- Loop counter. -/
  i : Int
  /-- Offset of `basep0` from `base`. -/
  basep0 : Int
  /-- Offset of `basep1` from `base`. -/
  basep1 : Int
  /-- Offset of `basep2` from `base`. -/
  basep2 : Int
  /-- The output line. -/
  temp : Int → α
  /-- Offsets of `base` read so far. -/
  reads : List Int
  /-- Indices of `temp` stored so far. -/
  writes : List Int

/-- The function `hat_transform` (lines 150-173).  `temp` and `base` are distinct arrays. -/
def hat_transform {α : Type} [LinearOrderedField α] (temp base : Int → α)
    (stride size scale : Int) : HatState α :=
  let stxsc := stride * scale
  let s0 : HatState α :=
    { i := 0, basep0 := 0, basep1 := stxsc, basep2 := stxsc, temp := temp, reads := [],
      writes := [] }
  let s1 := whileLoop (fun s => decide (s.i < scale))
    (fun s =>
      { i := s.i + 1, basep0 := s.basep0 + stride, basep1 := s.basep1 - stride,
        basep2 := s.basep2 + stride,
        temp := store s.temp s.i
          ((base s.basep0 + base s.basep0 + base s.basep1 + base s.basep2) * 0.25),
        reads := s.basep2 :: s.basep1 :: s.basep0 :: s.reads,
        writes := s.i :: s.writes })
    (scale - s0.i).toNat s0
  let s2 := whileLoop (fun s => decide (s.i < size - scale))
    (fun s =>
      { s with
        i := s.i + 1, basep0 := s.basep0 + stride,
        temp := store s.temp s.i
          ((base s.basep0 * 2 + base (s.basep0 - stxsc) + base (s.basep0 + stxsc)) * 0.25),
        reads := (s.basep0 + stxsc) :: (s.basep0 - stxsc) :: s.basep0 :: s.reads,
        writes := s.i :: s.writes })
    (size - scale - s1.i).toNat s1
  let s2' : HatState α := { s2 with basep1 := s2.basep0 - stxsc, basep2 := stride * (size - 2) }
  whileLoop (fun s => decide (s.i < size))
    (fun s =>
      { i := s.i + 1, basep0 := s.basep0 + stride, basep1 := s.basep1 + stride,
        basep2 := s.basep2 - stride,
        temp := store s.temp s.i
          ((base s.basep0 + base s.basep0 + base s.basep1 + base s.basep2) * 0.25),
        reads := s.basep2 :: s.basep1 :: s.basep0 :: s.reads,
        writes := s.i :: s.writes })
    (size - s2'.i).toNat s2'

/-- The mirror-reflected right neighbour index `r(i)` of the hat filter. -/
def hat_right (size scale i : Int) : Int :=
  if i + scale < size then i + scale else 2 * (size - 1) - (i + scale)

/-! ## Noise profile -/

/-- Number of bands, `DT_IOP_RAWDENOISE_BANDS`. -/
def DT_IOP_RAWDENOISE_BANDS : Int := 5

/-- Channel group `DT_RAWDENOISE_ALL`. -/
def DT_RAWDENOISE_ALL : Int := 0

/-- Channel group `DT_RAWDENOISE_R`. -/
def DT_RAWDENOISE_R : Int := 1

/-- Channel group `DT_RAWDENOISE_G`. -/
def DT_RAWDENOISE_G : Int := 2

/-- Channel group `DT_RAWDENOISE_B`. -/
def DT_RAWDENOISE_B : Int := 3

/-- The fields of `dt_iop_rawdenoise_data_t` read by the numeric core: the committed threshold
and the resolved band multipliers `force[group][band]`. -/
structure dt_iop_rawdenoise_data_t (α : Type) where
  /-- Committed threshold. -/
  threshold : α
  /-- Resolved multipliers. -/
  force : Int → Int → α

/-- The constant table `noise_all` (lines 181 and 488). -/
def noise_all_init {α : Type} [LinearOrderedField α] : Int → α :=
  fun i => ([0.8002, 0.2735, 0.1202, 0.0585, 0.0291, 0.0152, 0.0080, 0.0044] : List α).getD
    i.toNat 0

/-- The function `compute_channel_noise` (lines 177-210). -/
def compute_channel_noise {α : Type} [LinearOrderedField α] (noise : Int → α) (color : Int)
    (data : dt_iop_rawdenoise_data_t α) : Int → α :=
  forLoop 0 DT_IOP_RAWDENOISE_BANDS (fun i noise =>
    let chan_threshold_exp_4 :=
      if color = 0 then data.force DT_RAWDENOISE_R (DT_IOP_RAWDENOISE_BANDS - i - 1)
      else if color = 2 then data.force DT_RAWDENOISE_B (DT_IOP_RAWDENOISE_BANDS - i - 1)
      else data.force DT_RAWDENOISE_G (DT_IOP_RAWDENOISE_BANDS - i - 1)
    let chan_threshold_exp_4 := chan_threshold_exp_4 * chan_threshold_exp_4
    let chan_threshold_exp_4 := chan_threshold_exp_4 * chan_threshold_exp_4
    let all_threshold_exp_4 := data.force DT_RAWDENOISE_ALL (DT_IOP_RAWDENOISE_BANDS - i - 1)
    let all_threshold_exp_4 := all_threshold_exp_4 * all_threshold_exp_4
    let all_threshold_exp_4 := all_threshold_exp_4 * all_threshold_exp_4
    let noise := store noise i
      (noise_all_init i * all_threshold_exp_4 * chan_threshold_exp_4 * 16 * 16)
    store noise i (noise i * data.threshold)) noise

/-- The first loop of `wavelet_denoise_xtrans` (lines 488-497): the table `noise_all` after
the 'all' multipliers have been folded in. -/
def xtrans_noise_all {α : Type} [LinearOrderedField α] (data : dt_iop_rawdenoise_data_t α) :
    Int → α :=
  forLoop 0 DT_IOP_RAWDENOISE_BANDS (fun i noise_all =>
    let threshold_exp_4 := data.force DT_RAWDENOISE_ALL (DT_IOP_RAWDENOISE_BANDS - i - 1)
    let threshold_exp_4 := threshold_exp_4 * threshold_exp_4
    let threshold_exp_4 := threshold_exp_4 * threshold_exp_4
    store noise_all i (noise_all i * threshold_exp_4 * 16)) noise_all_init

/-- The per-colour loop of `wavelet_denoise_xtrans` (lines 506-525) filling `noise`. -/
def xtrans_noise {α : Type} [LinearOrderedField α] (noise : Int → α) (c : Int)
    (data : dt_iop_rawdenoise_data_t α) : Int → α :=
  forLoop 0 DT_IOP_RAWDENOISE_BANDS (fun i noise =>
    let threshold_exp_4 :=
      if c = 0 then data.force DT_RAWDENOISE_R (DT_IOP_RAWDENOISE_BANDS - i - 1)
      else if c = 2 then data.force DT_RAWDENOISE_B (DT_IOP_RAWDENOISE_BANDS - i - 1)
      else data.force DT_RAWDENOISE_G (DT_IOP_RAWDENOISE_BANDS - i - 1)
    let threshold_exp_4 := threshold_exp_4 * threshold_exp_4
    let threshold_exp_4 := threshold_exp_4 * threshold_exp_4
    store noise i (xtrans_noise_all data i * threshold_exp_4 * 16)) noise

/-- The soft threshold applied at level `lev` of the X-Trans path (line 582),
`thold = threshold * noise[lev]`. -/
def xtrans_thold {α : Type} [LinearOrderedField α] (noise : Int → α) (c : Int)
    (data : dt_iop_rawdenoise_data_t α) (lev : Int) : α :=
  data.threshold * xtrans_noise noise c data lev

/-! ## Bayer decomposer -/

/-- Rows touched by one iteration of the row loop of `dwt_denoise_vert_1ch`: the centre row
and the rows whose data `above` and `below` point to. -/
structure VertAccess where
  /-- Centre row, also the row of `out` written. -/
  row : Int
  /-- Row read as `above`. -/
  above : Int
  /-- Row read as `below`. -/
  below : Int
deriving DecidableEq

/-- Result of `dwt_denoise_vert_1ch`: the buffer `out` and the rows touched, most recent
first. -/
structure VertResult (α : Type) where
  /-- The buffer `out`. -/
  out : Int → α
  /-- Rows touched by each iteration. -/
  rows : List VertAccess

/-- The function `dwt_denoise_vert_1ch` (lines 232-264). -/
def dwt_denoise_vert_1ch {α : Type} [LinearOrderedField α] (out in_ : Int → α)
    (height width lev : Int) : VertResult α :=
  let vscale := MIN ((1 : Int) <<< lev) height
  forLoop 0 height (fun rowid r =>
    let row := rowid_to_row rowid height vscale
    let rowstart := row * width
    let below_row :=
      if row + vscale < height then row + vscale else 2 * (height - 1) - (row + vscale)
    let center := rowstart
    let above := c_abs (row - vscale) * width
    let below := below_row * width
    let outrow := rowstart
    { out := forLoop 0 width (fun col out =>
        store out (outrow + col)
          (2 * in_ (center + col) + in_ (above + col) + in_ (below + col))) r.out,
      rows := { row := row, above := c_abs (row - vscale), below := below_row } :: r.rows })
    { out := out, rows := [] }

/-- One update of the residue accumulator in `dwt_denoise_horiz_1ch`. -/
structure AccumUpdate (α : Type) where
  /-- Row of the pixel. -/
  row : Int
  /-- Column of the pixel. -/
  col : Int
  /-- The smoothed value `hat`, the new coarse value of the pixel. -/
  hat : α
  /-- The difference `diff` between the previous coarse value and `hat`. -/
  diff : α
  /-- The amount added to the accumulator. -/
  excess : α

/-- Buffers written by `dwt_denoise_horiz_1ch` (`in` and `accum`), and the accumulator
updates made, most recent first. -/
structure HorizState (α : Type) where
  /-- The buffer `in` (called `details` in the body). -/
  details : Int → α
  /-- The buffer `accum`. -/
  accum : Int → α
  /-- Accumulator updates. -/
  log : List (AccumUpdate α)

/-- The expression added to the accumulator (lines 305, 321, 337),
`MAX(diff - thold, 0.0f) + MIN(diff + thold, 0.0f)`. -/
def soft_excess {α : Type} [LinearOrderedField α] (diff thold : α) : α :=
  MAX (diff - thold) 0 + MIN (diff + thold) 0

/-- The statements shared by the three column loops of `dwt_denoise_horiz_1ch` once `hat` is
known: `diff = details[col] - hat; details[col] = hat; accum_row[col] += ...`. -/
def horiz_pixel {α : Type} [LinearOrderedField α] (rowindex row col : Int) (hat thold : α)
    (s : HorizState α) : HorizState α :=
  let diff := s.details (rowindex + col) - hat
  { details := store s.details (rowindex + col) hat,
    accum := store s.accum (rowindex + col) (s.accum (rowindex + col) + soft_excess diff thold),
    log := { row := row, col := col, hat := hat, diff := diff,
             excess := soft_excess diff thold } :: s.log }

/-- The function `dwt_denoise_horiz_1ch` (lines 268-348). -/
def dwt_denoise_horiz_1ch {α : Type} [LinearOrderedField α] (out in_ accum : Int → α)
    (height width lev : Int) (thold : α) (last : Int) : HorizState α :=
  let hscale := MIN ((1 : Int) <<< lev) width
  forLoop 0 height (fun row s =>
    let rowindex := row * width
    let coarse := fun k => out (rowindex + k)
    let s := forLoop 0 hscale (fun col s =>
      let hat := (2 * coarse col + coarse (hscale - col) + coarse (col + hscale)) / 16
      horiz_pixel rowindex row col hat thold s) s
    let s := forLoop hscale (width - hscale) (fun col s =>
      let hat := (2 * coarse col + coarse (col - hscale) + coarse (col + hscale)) / 16
      horiz_pixel rowindex row col hat thold s) s
    let s := forLoop (width - hscale) width (fun col s =>
      let right := coarse (2 * width - 2 - (col + hscale))
      let hat := (2 * coarse col + coarse (col - hscale) + right) / 16
      horiz_pixel rowindex row col hat thold s) s
    if last ≠ 0 then
      forLoop 0 width (fun col s =>
        { s with details := store s.details (rowindex + col)
                   (s.details (rowindex + col) + s.accum (rowindex + col)) }) s
    else s)
    { details := in_, accum := accum, log := [] }

/-- State of `dwt_denoise`: the plane `img`, the accumulator `details`, the scratch plane
`interm`, and the accumulator updates of every level so far (level `l` at position `l`). -/
structure DwtState (α : Type) where
  /-- The plane being denoised. -/
  img : Int → α
  /-- The residue accumulator. -/
  details : Int → α
  /-- Intermediate plane written by the vertical pass. -/
  interm : Int → α
  /-- Accumulator updates, one list per level. -/
  logs : List (List (AccumUpdate α))

/-- The function `dwt_denoise` (lines 351-372).  The allocation of `2 * width * height`
elements has contents `uninit`; its first half becomes `details`, its second `interm`. -/
def dwt_denoise {α : Type} [LinearOrderedField α] (img : Int → α) (width height bands : Int)
    (noise : Int → α) (uninit : Int → α) : DwtState α :=
  let details := memset0 uninit (width * height)
  let interm := fun k => uninit (width * height + k)
  forLoop 0 bands (fun lev s =>
    let last : Int := if lev + 1 = bands then 1 else 0
    let v := dwt_denoise_vert_1ch s.interm s.img height width lev
    let h := dwt_denoise_horiz_1ch v.out s.img s.details height width lev (noise lev) last
    { img := h.details, details := h.accum, interm := v.out, logs := s.logs ++ [h.log] })
    { img := img, details := details, interm := interm, logs := [] }

/-- The fields of `dt_iop_roi_t` (declared in the host headers) used here. -/
structure dt_iop_roi_t where
  /-- Horizontal position of the region. -/
  x : Int
  /-- Vertical position of the region. -/
  y : Int
  /-- Width of the region. -/
  width : Int
  /-- Height of the region. -/
  height : Int

/-- The body of the loop over the four planes `c` of `wavelet_denoise` (lines 383-431), on
the pair of buffers `(fimg, out)`: collect plane `c` with the square root applied, denoise it,
square it and write it back. -/
def wavelet_denoise_plane {α : Type} [LinearOrderedField α] (sqrtf : α → α)
    (FC : Int → Int → Nat → Int) (in_ : Int → α) (roi : dt_iop_roi_t)
    (data : dt_iop_rawdenoise_data_t α) (filters : Nat) (uninit : Int → α) (c : Int)
    (st : (Int → α) × (Int → α)) : (Int → α) × (Int → α) :=
  let color := FC (Int.tmod c 2) (Int.tdiv c 2) filters
  let noise := compute_channel_noise uninit color data
  let halfwidth :=
    Int.tdiv roi.width 2 + Int.land (Int.land roi.width (~~~(c >>> (1 : Nat)))) 1
  let halfheight := Int.tdiv roi.height 2 + Int.land (Int.land roi.height (~~~c)) 1
  let fimg := forLoop2 (Int.land c 1) roi.height (fun row fimg =>
    let fimgp := Int.tdiv row 2 * halfwidth
    let offset := (Int.land c 2) >>> (1 : Nat)
    let inp := row * roi.width + offset
    let senselwidth := Int.tdiv (roi.width - offset + 1) 2
    forLoop 0 senselwidth (fun col fimg =>
      store fimg (fimgp + col) (sqrtf (MAX 0 (in_ (inp + 2 * col))))) fimg) st.1
  let fimg := (dwt_denoise fimg halfwidth halfheight DT_IOP_RAWDENOISE_BANDS noise uninit).img
  let out := forLoop2 (Int.land c 1) roi.height (fun row out =>
    let fimgp := Int.tdiv row 2 * halfwidth
    let offset := (Int.land c 2) >>> (1 : Nat)
    let outp := row * roi.width + offset
    let senselwidth := Int.tdiv (roi.width - offset + 1) 2
    forLoop 0 senselwidth (fun col out =>
      let d := fimg (fimgp + col)
      store out (outp + 2 * col) (d * d)) out) st.2
  (fimg, out)

/-- The function `wavelet_denoise` (lines 374-432).  The host macro `FC(row, col, filters)`,
which gives the colour of a Bayer position, and the C library `sqrtf` are parameters. -/
def wavelet_denoise {α : Type} [LinearOrderedField α] (sqrtf : α → α)
    (FC : Int → Int → Nat → Int) (in_ out : Int → α) (roi : dt_iop_roi_t)
    (data : dt_iop_rawdenoise_data_t α) (filters : Nat) (uninit : Int → α) : Int → α :=
  let fimg := uninit
  let nc : Int := 4
  (forLoop 0 nc (wavelet_denoise_plane sqrtf FC in_ roi data filters uninit) (fimg, out)).2

/-- The expression `halfwidth` of `wavelet_denoise` (line 388) for the plane `c`. -/
def halfwidth (roi : dt_iop_roi_t) (c : Int) : Int :=
  Int.tdiv roi.width 2 + Int.land (Int.land roi.width (~~~(c >>> (1 : Nat)))) 1

/-- The expression `halfheight` of `wavelet_denoise` (line 389) for the plane `c`. -/
def halfheight (roi : dt_iop_roi_t) (c : Int) : Int :=
  Int.tdiv roi.height 2 + Int.land (Int.land roi.height (~~~c)) 1

/-- The loop nest that the collect loop (lines 399-407) and the distribute loop (lines 420-431)
of `wavelet_denoise` share: same loop headers, same `fimgp`, `offset`, `senselwidth`, and the
same mosaic pointer (`inp`, `outp`).  The statement of the inner loop is the parameter `body`;
it receives the offset of `fimgp[col]` in `fimg` and the offset of `inp[2*col]` (`outp[2*col]`)
in the mosaic. -/
def bayer_rows {σ : Type} (c : Int) (roi : dt_iop_roi_t) (halfwidth : Int)
    (body : Int → Int → σ → σ) (s : σ) : σ :=
  forLoop2 (Int.land c 1) roi.height (fun row s =>
    let fimgp := Int.tdiv row 2 * halfwidth
    let offset := (Int.land c 2) >>> (1 : Nat)
    let inp := row * roi.width + offset
    let senselwidth := Int.tdiv (roi.width - offset + 1) 2
    forLoop 0 senselwidth (fun col s => body (fimgp + col) (inp + 2 * col) s) s) s

/-- The pairs (offset in `fimg`, offset in the mosaic) that the loop nest of plane `c` visits,
most recent first. -/
def bayer_accesses (c : Int) (roi : dt_iop_roi_t) : List (Int × Int) :=
  bayer_rows c roi (halfwidth roi c) (fun p m l => (p, m) :: l) []

/-! ## X-Trans decomposer -/

/-- The C library `fabsf`. -/
def fabsf {α : Type} [LinearOrderedField α] (x : α) : α := if x < 0 then -x else x

/-- The C library `fmaxf`. -/
def fmaxf {α : Type} [LinearOrderedField α] (x y : α) : α := if x < y then y else x

/-- The C library `copysignf`: the magnitude of `x` with the sign of `y`. -/
def copysignf {α : Type} [LinearOrderedField α] (x y : α) : α :=
  if y < 0 then -(fabsf x) else fabsf x

/-- Store `v` at each of the offsets `as` of `p`. -/
def stores {β : Type} (p : Int → β) (as : List Int) (v : β) : Int → β :=
  as.foldl (fun p a => store p a v) p

/-- A call `hat_transform(fimg + temp, fimg + base, stride, size, scale)` on two lines of the
same buffer `fimg`, which do not overlap. -/
def hat_transform_at {α : Type} [LinearOrderedField α] (fimg : Int → α) (temp base : Int)
    (stride size scale : Int) : Int → α :=
  let r := hat_transform (fun k => fimg (temp + k)) (fun k => fimg (base + k)) stride size scale
  fun a => r.temp (a - temp)

/-- Arguments `stride`, `size` and `scale` of one call of `hat_transform`. -/
structure HatCall where
  /-- Distance between consecutive elements of the line. -/
  stride : Int
  /-- Number of elements of the line. -/
  size : Int
  /-- Offset of the two outer taps of the filter. -/
  scale : Int
deriving DecidableEq

/-- The buffer `fimg` of `wavelet_denoise_xtrans` together with the record of the calls of
`hat_transform` made so far, most recent first. -/
structure XTransBuf (α : Type) where
  /-- The buffer of four planes. -/
  fimg : Int → α
  /-- Calls of `hat_transform`. -/
  calls : List HatCall

/-- The call `hat_transform(fimg + temp, fimg + base, stride, size, scale)`, recorded. -/
def hat_call {α : Type} [LinearOrderedField α] (b : XTransBuf α) (temp base : Int)
    (stride size scale : Int) : XTransBuf α :=
  { fimg := hat_transform_at b.fimg temp base stride size scale,
    calls := { stride := stride, size := size, scale := scale } :: b.calls }

/-- The two filter loops of one level of `wavelet_denoise_xtrans` (lines 563-580): "filter
horizontally and transpose" from the plane at `pass1` to the plane at `pass2`, then "filter
vertically and transpose back" from `pass2` to `pass3`. -/
def xtrans_hat_passes {α : Type} [LinearOrderedField α] (b : XTransBuf α)
    (pass1 pass2 pass3 width height lev : Int) : XTransBuf α :=
  let b := forLoop 0 width (fun col b =>
    hat_call b (pass2 + col * height) (pass1 + col) width height ((1 : Int) <<< lev)) b
  forLoop 0 height (fun row b =>
    hat_call b (pass3 + row * width) (pass2 + row) height width ((1 : Int) <<< lev)) b

/-- The function `wavelet_denoise_xtrans` (lines 481-619) with the record of its calls of
`hat_transform`: the final `fimg` with the calls, and the buffer `out`.  The host function
`FCxtrans(row, col, roi, xtrans)`, which gives the colour of an X-Trans position, and the C
library `sqrt` are parameters. -/
def wavelet_denoise_xtrans_run {α : Type} [LinearOrderedField α] (sqrtf : α → α)
    (FCxtrans : Int → Int → dt_iop_roi_t → (Int → Int → Int) → Int) (in_ out : Int → α)
    (roi : dt_iop_roi_t) (data : dt_iop_rawdenoise_data_t α) (xtrans : Int → Int → Int)
    (uninit : Int → α) : XTransBuf α × (Int → α) :=
  let width := roi.width
  let height := roi.height
  let size := width * height
  let fimg := uninit
  forLoop 0 3 (fun c (st : XTransBuf α × (Int → α)) =>
    let fimg := memset0 st.1.fimg size
    let c1 : Int := if c ≠ 1 then 1 else 0
    let fimg := forLoop c1 (height - 1) (fun row fimg =>
      forLoop c1 (width - 1) (fun col fimg =>
        let inp := row * width + col
        let fimgp := size + row * width + col
        if FCxtrans row col roi xtrans = c then
          let d := sqrtf (MAX 0 (in_ inp))
          let fimg := store fimg fimgp d
          if c = 1 then stores fimg [fimgp + width, fimgp + 1] d
          else
            stores fimg
              [fimgp + (width + 1), fimgp + width, fimgp + (width - 1), fimgp + 1, fimgp + -1,
                fimgp + (-width + 1), fimgp + -width, fimgp + (-width - 1)] d
        else fimg) fimg) fimg
    let lv := forLoop 0 5 (fun lev (fl : XTransBuf α × Int) =>
      let pass1 := size * ((Int.land lev 1) * 2 + 1)
      let pass2 := 2 * size
      let pass3 := 4 * size - pass1
      let b := xtrans_hat_passes fl.1 pass1 pass2 pass3 width height lev
      let thold := xtrans_thold uninit c data lev
      let fimg := forLoop 0 size (fun i fimg =>
        let diff := fimg (i + pass1) - fimg (i + pass3)
        store fimg i (fimg i + copysignf (fmaxf (fabsf diff - thold) 0) diff)) b.fimg
      ({ fimg := fimg, calls := b.calls }, pass3)) ({ fimg := fimg, calls := st.1.calls }, 0)
    let fimg := lv.1.fimg
    let lastpass := lv.2
    let out := forLoop 0 height (fun row out =>
      forLoop 0 width (fun col out =>
        if FCxtrans row col roi xtrans = c then
          let d := fimg (row * width + col) + fimg (row * width + col + lastpass)
          store out (row * width + col) (d * d)
        else out) out) st.2
    (lv.1, out)) ({ fimg := fimg, calls := [] }, out)

/-- The function `wavelet_denoise_xtrans` (lines 481-619): the buffer `out` it leaves. -/
def wavelet_denoise_xtrans {α : Type} [LinearOrderedField α] (sqrtf : α → α)
    (FCxtrans : Int → Int → dt_iop_roi_t → (Int → Int → Int) → Int) (in_ out : Int → α)
    (roi : dt_iop_roi_t) (data : dt_iop_rawdenoise_data_t α) (xtrans : Int → Int → Int)
    (uninit : Int → α) : Int → α :=
  (wavelet_denoise_xtrans_run sqrtf FCxtrans in_ out roi data xtrans uninit).2

/-! ## Driver -/

/-- Which branch of `process` ran. -/
inductive Dispatch where
  /-- The `memcpy` bypass. -/
  | copy
  /-- The call of `wavelet_denoise`. -/
  | bayer
  /-- The call of `wavelet_denoise_xtrans`. -/
  | xtrans
deriving DecidableEq

/-- The function `process` (lines 621-642): the branch taken and the output buffer.  `d` is
`piece->data`, `filters` and `xtrans` are the fields of `piece->pipe->dsc`. -/
def process {α : Type} [LinearOrderedField α] (sqrtf : α → α) (FC : Int → Int → Nat → Int)
    (FCxtrans : Int → Int → dt_iop_roi_t → (Int → Int → Int) → Int)
    (d : dt_iop_rawdenoise_data_t α) (filters : Nat) (xtrans : Int → Int → Int)
    (ivoid ovoid : Int → α) (roi_in : dt_iop_roi_t) (uninit : Int → α) :
    Dispatch × (Int → α) :=
  let width := roi_in.width
  let height := roi_in.height
  if ¬ (d.threshold > 0) then
    (Dispatch.copy, memcpy ovoid ivoid (width * height))
  else
    if filters ≠ 9 then
      (Dispatch.bayer, wavelet_denoise sqrtf FC ivoid ovoid roi_in d filters uninit)
    else
      (Dispatch.xtrans,
        wavelet_denoise_xtrans sqrtf FCxtrans ivoid ovoid roi_in d xtrans uninit)

/-! ## Parameter migration -/

/-- Number of channel groups, `DT_RAWDENOISE_NONE`. -/
def DT_RAWDENOISE_NONE : Int := 4

/-- The record `dt_iop_rawdenoise_params_t` (lines 53-58). -/
structure dt_iop_rawdenoise_params_t (α : Type) where
  /-- Noise threshold. -/
  threshold : α
  /-- Abscissae of the curve nodes, `x[group][band]`. -/
  x : Int → Int → α
  /-- Ordinates of the curve nodes, `y[group][band]`. -/
  y : Int → Int → α

/-- Version 1 of the parameter record: it ends after `threshold` (comment at lines 95-102). -/
structure dt_iop_rawdenoise_params_v1_t (α : Type) where
  /-- Noise threshold. -/
  threshold : α

/-- Store `v` in the entry `[ch][k]` of a two-dimensional array. -/
def store2 {β : Type} (p : Int → Int → β) (ch k : Int) (v : β) : Int → Int → β :=
  fun a b => if a = ch ∧ b = k then v else p a b

/-- The function `legacy_params` (lines 90-117): the value returned and the record
`new_params` afterwards. -/
def legacy_params {α : Type} [LinearOrderedField α] (old_params : dt_iop_rawdenoise_params_v1_t α)
    (old_version : Int) (new_params : dt_iop_rawdenoise_params_t α) (new_version : Int) :
    Int × dt_iop_rawdenoise_params_t α :=
  if old_version = 1 ∧ new_version = 2 then
    let o := old_params
    let n := new_params
    let n := { n with threshold := o.threshold }
    let n := forLoop 0 DT_IOP_RAWDENOISE_BANDS (fun k n =>
      forLoop 0 DT_RAWDENOISE_NONE (fun ch n =>
        let n := { n with x := store2 n.x ch k ((k : α) / ((DT_IOP_RAWDENOISE_BANDS : α) - 1.0)) }
        { n with y := store2 n.y ch k 0.5 }) n) n
    (0, n)
  else (1, new_params)

/-! ## Curve control points -/

/-- The pipeline piece as `commit_params` and `init_pipe` see it: `piece->data` with its
`threshold` and `force` table, the four curves `d->curve[ch]`, and `piece->enabled`.  `κ` is
the host type `dt_draw_curve_t`. -/
structure dt_dev_pixelpipe_iop_t (κ α : Type) where
  /-- The fields `threshold` and `force` of `piece->data`. -/
  data : dt_iop_rawdenoise_data_t α
  /-- The field `curve` of `piece->data`. -/
  curve : Int → κ
  /-- The field `piece->enabled`. -/
  enabled : Int

/-- The function `commit_params` (lines 672-692).  The host functions
`dt_draw_curve_set_point(curve, num, x, y)`, `dt_draw_curve_calc_values(curve, min, max, res,
NULL, y)` (the array `y` it fills) and the value of `dt_image_is_raw(&pipe->image)` are
parameters. -/
def commit_params {κ α : Type} [LinearOrderedField α]
    (dt_draw_curve_set_point : κ → Int → α → α → κ)
    (dt_draw_curve_calc_values : κ → α → α → Int → Int → α) (dt_image_is_raw : Bool)
    (p : dt_iop_rawdenoise_params_t α) (piece : dt_dev_pixelpipe_iop_t κ α) :
    dt_dev_pixelpipe_iop_t κ α :=
  let piece := { piece with data := { piece.data with threshold := p.threshold } }
  let piece := forLoop 0 DT_RAWDENOISE_NONE (fun ch piece =>
    let c := dt_draw_curve_set_point (piece.curve ch) 0
      (p.x ch (DT_IOP_RAWDENOISE_BANDS - 2) - 1) (p.y ch 0)
    let c := forLoop 0 DT_IOP_RAWDENOISE_BANDS (fun k c =>
      dt_draw_curve_set_point c k (p.x ch k) (p.y ch k)) c
    let c := dt_draw_curve_set_point c (DT_IOP_RAWDENOISE_BANDS + 1) (p.x ch 1 + 1)
      (p.y ch (DT_IOP_RAWDENOISE_BANDS - 1))
    { piece with
      curve := store piece.curve ch c,
      data := { piece.data with
        force := store piece.data.force ch
          (dt_draw_curve_calc_values c 0 1 DT_IOP_RAWDENOISE_BANDS) } }) piece
  if ¬ (dt_image_is_raw = true) then { piece with enabled := 0 } else piece

/-- The function `init_pipe` (lines 694-706): the four curves it creates.  The host functions
`dt_draw_curve_new(min, max, type)` and `dt_draw_curve_add_point(curve, x, y)` and the constant
`CATMULL_ROM` are parameters; `curve` is the array `d->curve` of the fresh allocation. -/
def init_pipe {κ α : Type} [LinearOrderedField α] (dt_draw_curve_new : α → α → Int → κ)
    (dt_draw_curve_add_point : κ → α → α → κ) (CATMULL_ROM : Int)
    (default_params : dt_iop_rawdenoise_params_t α) (curve : Int → κ) : Int → κ :=
  forLoop 0 DT_RAWDENOISE_NONE (fun ch curve =>
    store curve ch
      (forLoop 0 DT_IOP_RAWDENOISE_BANDS (fun k c =>
        dt_draw_curve_add_point c (default_params.x ch k) (default_params.y ch k))
        (dt_draw_curve_new 0 1 CATMULL_ROM))) curve

/-- The statements of `rawdenoise_draw` that load the control points of the channel `ch`
(`c->channel`) into the editor curve `c->transition_curve` (lines 741-746); the rest of the
function draws.  The host function `dt_draw_curve_set_point` is a parameter. -/
def rawdenoise_draw {κ α : Type} [LinearOrderedField α]
    (dt_draw_curve_set_point : κ → Int → α → α → κ) (p : dt_iop_rawdenoise_params_t α)
    (ch : Int) (transition_curve : κ) : κ :=
  let c := dt_draw_curve_set_point transition_curve 0
    (p.x ch (DT_IOP_RAWDENOISE_BANDS - 2) - 1) (p.y ch 0)
  let c := forLoop 0 DT_IOP_RAWDENOISE_BANDS (fun k c =>
    dt_draw_curve_set_point c (k + 1) (p.x ch k) (p.y ch k)) c
  dt_draw_curve_set_point c (DT_IOP_RAWDENOISE_BANDS + 1) (p.x ch 1 + 1)
    (p.y ch (DT_IOP_RAWDENOISE_BANDS - 1))

/-! ## Specification-side definitions -/

/-- The Bayer noise profile in the words of the specification:
`base[i] * threshold * 256 * allMult[4-i]^4 * channelMult[4-i]^4`, with `channelMult` the
multipliers of R for colour 0, of B for colour 2 and of G for every other colour. -/
def bayer_noise_formula {α : Type} [LinearOrderedField α] (data : dt_iop_rawdenoise_data_t α)
    (color i : Int) : α :=
  let base : Int → α :=
    fun i => ([0.8002, 0.2735, 0.1202, 0.0585, 0.0291] : List α).getD i.toNat 0
  let allMult := data.force DT_RAWDENOISE_ALL
  let channelMult :=
    if color = 0 then data.force DT_RAWDENOISE_R
    else if color = 2 then data.force DT_RAWDENOISE_B
    else data.force DT_RAWDENOISE_G
  base i * data.threshold * 256 * allMult (4 - i) ^ 4 * channelMult (4 - i) ^ 4

/-- The value the specification gives `temp[i]`: the triangular filter
`(in[l(i)] + 2*in[i] + in[r(i)]) / 4` with `in[k] = base[k*stride]`, `l(i) = |i - scale|` and
`r(i)` the mirror-reflected right neighbour. -/
def hat_formula {α : Type} [LinearOrderedField α] (base : Int → α) (stride size scale i : Int) :
    α :=
  (base (|i - scale| * stride) + 2 * base (i * stride)
    + base (hat_right size scale i * stride)) / 4

/-- The part of the loop invariant of `hat_transform` shared by its three loops. -/
def HatInv {α : Type} [LinearOrderedField α] (temp base : Int → α) (stride size scale : Int)
    (s : HatState α) : Prop :=
  0 ≤ s.i ∧ s.basep0 = s.i * stride ∧
  (∀ j, 0 ≤ j → j < s.i → s.temp j = hat_formula base stride size scale j) ∧
  (∀ j, ¬ (0 ≤ j ∧ j < s.i) → s.temp j = temp j) ∧
  s.writes = ((List.range s.i.toNat).map Int.ofNat).reverse ∧
  (∀ r ∈ s.reads, ∃ k, 0 ≤ k ∧ k < size ∧ r = k * stride)

/-- The `width` by `height` plane stored row-major in `p` has the value `v` everywhere. -/
def PlaneConst {α : Type} (p : Int → α) (width height : Int) (v : α) : Prop :=
  ∀ r c, 0 ≤ r → r < height → 0 ≤ c → c < width → p (r * width + c) = v

/-- Every accumulator update of the log has `diff = 0` and adds `0`. -/
def LogZero {α : Type} [Zero α] (log : List (AccumUpdate α)) : Prop :=
  ∀ e ∈ log, e.diff = 0 ∧ e.excess = 0

/-- Relation between the accumulator updates of the same pixel in two runs of the
decomposition, the second with the larger band threshold: same pixel, same coarse value and
`diff`, and the retained detail of the second run is no larger in absolute value than that of
the first, which is no larger than `|diff|`. -/
def UpdateShrinks {α : Type} [LinearOrderedField α] (e e' : AccumUpdate α) : Prop :=
  e'.row = e.row ∧ e'.col = e.col ∧ e'.hat = e.hat ∧ e'.diff = e.diff ∧
    |e'.excess| ≤ |e.excess| ∧ |e.excess| ≤ |e.diff|

/-- Retained detail-band energy of one level: the sum of the squared amounts added to the
accumulator. -/
def retained_energy {α : Type} [LinearOrderedField α] (log : List (AccumUpdate α)) : α :=
  (log.map (fun e => e.excess ^ 2)).sum

/-- Detail-band energy of the input at one level: the sum of the squared differences. -/
def detail_energy {α : Type} [LinearOrderedField α] (log : List (AccumUpdate α)) : α :=
  (log.map (fun e => e.diff ^ 2)).sum

/-- Relation kept by two runs of `dwt_denoise_horiz_1ch` on the same planes with thresholds
`T ≤ T'`: the buffers `in` agree (from offset `lo` on when the level is the last one), and the
accumulator updates correspond pairwise. -/
def HorizSim {α : Type} [LinearOrderedField α] (last lo : Int) (s s' : HorizState α) : Prop :=
  (∀ k, (last = 0 ∨ lo ≤ k) → s.details k = s'.details k) ∧
    List.Forall₂ UpdateShrinks s.log s'.log

/-- Relation kept by two runs of `dwt_denoise` on the same plane with band thresholds
`noise ≤ noise'`, before level `j`: while a level remains the planes `img` and `interm` are
equal, and the accumulator updates of the levels done correspond pairwise. -/
def DwtSim {α : Type} [LinearOrderedField α] (j : Int) (st st' : DwtState α) : Prop :=
  (j < 5 → st.img = st'.img ∧ st.interm = st'.interm) ∧
    List.Forall₂ (List.Forall₂ UpdateShrinks) st.logs st'.logs ∧
    st.logs.length = j.toNat

/-- The log contains an accumulator update for every pixel of the `width` by `height`
plane. -/
def LogCovers {α : Type} (log : List (AccumUpdate α)) (width height : Int) : Prop :=
  ∀ r c, 0 ≤ r → r < height → 0 ≤ c → c < width → ∃ e ∈ log, e.row = r ∧ e.col = c

/-- Number of rows of the pass that visits the rows `offset, offset + scale, ...`: the first
`height mod scale` passes have one more row than the others. -/
def pass_len (height scale offset : Int) : Int :=
  height / scale + (if offset < height % scale then 1 else 0)

/-- Position in the visiting order at which the pass with the given `offset` starts: the
total length of the passes before it. -/
def pass_start (height scale offset : Int) : Int :=
  offset * (height / scale) + min offset (height % scale)

/-- The X-Trans noise tables in the words of the specification: the 'all'-only table
`base[i] * allMult[4-i]^4 * 16` and the per-colour table built from it. -/
def xtrans_noise_all_formula {α : Type} [LinearOrderedField α]
    (data : dt_iop_rawdenoise_data_t α) (i : Int) : α :=
  let base : Int → α :=
    fun i => ([0.8002, 0.2735, 0.1202, 0.0585, 0.0291] : List α).getD i.toNat 0
  base i * data.force DT_RAWDENOISE_ALL (4 - i) ^ 4 * 16

/-- The vertical pass of `dwt_denoise_vert_1ch` with the rows visited in the order
`order 0, order 1, ...` instead of the order of `rowid_to_row`. -/
def dwt_denoise_vert_1ch_order {α : Type} [LinearOrderedField α] (order : Int → Int)
    (out in_ : Int → α) (height width lev : Int) : VertResult α :=
  let vscale := MIN ((1 : Int) <<< lev) height
  forLoop 0 height (fun rowid r =>
    let row := order rowid
    let rowstart := row * width
    let below_row :=
      if row + vscale < height then row + vscale else 2 * (height - 1) - (row + vscale)
    let center := rowstart
    let above := c_abs (row - vscale) * width
    let below := below_row * width
    let outrow := rowstart
    { out := forLoop 0 width (fun col out =>
        store out (outrow + col)
          (2 * in_ (center + col) + in_ (above + col) + in_ (below + col))) r.out,
      rows := { row := row, above := c_abs (row - vscale), below := below_row } :: r.rows })
    { out := out, rows := [] }

/-- The value the vertical pass stores at offset `k` of `out`, as a function of `k` only. -/
def vert_value {α : Type} [LinearOrderedField α] (in_ : Int → α) (height width vscale k : Int) :
    α :=
  2 * in_ k + in_ (c_abs (k / width - vscale) * width + k % width)
    + in_ ((if k / width + vscale < height then k / width + vscale
        else 2 * (height - 1) - (k / width + vscale)) * width + k % width)

/-- The smoothed value `hat` of the pixel `(row, col)` in the horizontal pass at spacing
`hscale`, with both neighbours mirror-reflected into the row and the divisor 16. -/
def horiz_hat {α : Type} [LinearOrderedField α] (out : Int → α) (width hscale row col : Int) :
    α :=
  (2 * out (row * width + col) + out (row * width + |col - hscale|)
    + out (row * width + hat_right width hscale col)) / 16

/-- Separable smoothing with `hat_transform`: the pixel `(r, c)` after the normalised hat
transform has been applied along every column of the row-major plane `img` (stride `width`,
length `height`) and then along every row of the result (stride 1, length `width`). -/
def separable_hat {α : Type} [LinearOrderedField α] (img : Int → α)
    (width height scale r c : Int) : α :=
  (hat_transform (fun _ => 0)
    (fun p => (hat_transform (fun _ => 0) (fun k => img (p + k)) width height scale).temp r)
    1 width scale).temp c

/-- Sum of the band thresholds of the levels `0 .. j - 1`. -/
def threshold_sum {α : Type} [LinearOrderedField α] (noise : Int → α) (j : Int) : α :=
  ((List.range j.toNat).map (fun l : Nat => noise l)).sum

/-! # Theorems -/

/-! ## Row scheduler -/

theorem ediv_emod_of_decomp {a b q r : Int} (hb : 0 < b) (h : a = r + b * q) (h0 : 0 ≤ r)
    (h1 : r < b) : a / b = q ∧ a % b = r :=
  (Int.ediv_emod_unique hb).2 ⟨h.symm, h0, h1⟩

theorem lt_of_mul_lt_mul_pos {p a s x : Int} (hp : 0 < p) (h1 : p * a ≤ x) (h2 : x < s * p) :
    a < s := by
  by_contra hc
  have : s ≤ a := not_lt.1 hc
  nlinarith

/-- Decomposition of the plane height used by the scheduler. -/
theorem sched_decomp (height scale : Int) (hs : 1 ≤ scale) (hh : scale < height) :
    ∃ Q L : Int, height = L + scale * Q ∧ 0 ≤ L ∧ L < scale ∧ 1 ≤ Q ∧
      height % scale = L ∧ Int.tmod height scale = L ∧
      (height + scale - 1) / scale = Q + (if L = 0 then 0 else 1) ∧
      Int.tdiv (height + scale - 1) scale = Q + (if L = 0 then 0 else 1) := by
  have hpos : 0 < scale := by omega
  refine ⟨height / scale, height % scale, (Int.emod_add_ediv height scale).symm,
    Int.emod_nonneg _ (by omega), Int.emod_lt_of_pos _ hpos, ?_, rfl, ?_, ?_, ?_⟩
  · have h1 := Int.emod_add_ediv height scale
    have h3 := Int.emod_lt_of_pos height hpos
    by_contra hc
    have : height / scale ≤ 0 := by omega
    nlinarith
  · exact Int.tmod_eq_emod (by omega) (by omega)
  · have h1 := Int.emod_add_ediv height scale
    have h2 := Int.emod_nonneg height (by omega : scale ≠ 0)
    have h3 := Int.emod_lt_of_pos height hpos
    split_ifs with h
    · exact (ediv_emod_of_decomp (r := scale - 1) hpos (by rw [h] at h1; linarith) (by omega)
        (by omega)).1
    · exact (ediv_emod_of_decomp (r := height % scale - 1) hpos (by linarith) (by omega)
        (by omega)).1
  · rw [Int.tdiv_eq_ediv (by omega) (by omega)]
    have h1 := Int.emod_add_ediv height scale
    have h2 := Int.emod_nonneg height (by omega : scale ≠ 0)
    have h3 := Int.emod_lt_of_pos height hpos
    split_ifs with h
    · exact (ediv_emod_of_decomp (r := scale - 1) hpos (by rw [h] at h1; linarith) (by omega)
        (by omega)).1
    · exact (ediv_emod_of_decomp (r := height % scale - 1) hpos (by linarith) (by omega)
        (by omega)).1

/-- Every scheduled row is a row of the plane, and `row_to_rowid` recovers its position. -/
theorem rowid_to_row_spec (rowid height scale : Int) (hs : 1 ≤ scale)
    (h0 : 0 ≤ rowid) (h1 : rowid < height) :
    0 ≤ rowid_to_row rowid height scale ∧ rowid_to_row rowid height scale < height ∧
      row_to_rowid (rowid_to_row rowid height scale) height scale = rowid := by
  by_cases hle : height ≤ scale
  · simp [rowid_to_row, row_to_rowid, hle, h0, h1]
  have hpos : 0 < scale := by omega
  obtain ⟨Q, L, hdec, hL0, hL1, hQ, hmod, htmod, hP, htP⟩ :=
    sched_decomp height scale hs (by omega)
  simp only [rowid_to_row, row_to_rowid, if_neg hle, htmod, htP, hmod, hP]
  by_cases hL : L = 0
  · -- every pass has `Q` rows
    subst hL
    simp only [if_true, add_zero, true_or]
    have hq : 0 < Q := by omega
    rw [Int.tdiv_eq_ediv h0 (by omega), Int.tmod_eq_emod h0 (by omega)]
    have e1 := Int.emod_add_ediv rowid Q
    have e2 := Int.emod_nonneg rowid (by omega : Q ≠ 0)
    have e3 := Int.emod_lt_of_pos rowid hq
    have e4 : 0 ≤ rowid / Q := Int.ediv_nonneg h0 (by omega)
    have e5 : rowid / Q < scale :=
      lt_of_mul_lt_mul_pos hq (x := rowid) (by linarith) (by linarith)
    obtain ⟨d1, d2⟩ := ediv_emod_of_decomp (a := rowid / Q + scale * (rowid % Q)) hpos rfl e4 e5
    rw [d1, d2]
    refine ⟨by positivity, by nlinarith, by linarith⟩
  · simp only [if_neg hL]
    have hq : 0 < Q + 1 := by omega
    by_cases hlong : rowid < L * (Q + 1)
    · rw [if_pos (Or.inr hlong)]
      rw [Int.tdiv_eq_ediv h0 (by omega), Int.tmod_eq_emod h0 (by omega)]
      have e1 := Int.emod_add_ediv rowid (Q + 1)
      have e2 := Int.emod_nonneg rowid (by omega : Q + 1 ≠ 0)
      have e3 := Int.emod_lt_of_pos rowid hq
      have e4 : 0 ≤ rowid / (Q + 1) := Int.ediv_nonneg h0 (by omega)
      have e5 : rowid / (Q + 1) < L :=
        lt_of_mul_lt_mul_pos hq (x := rowid) (by linarith) (by linarith)
      obtain ⟨d1, d2⟩ := ediv_emod_of_decomp (a := rowid / (Q + 1) + scale * (rowid % (Q + 1)))
        hpos rfl e4 (by omega)
      rw [d1, d2, if_pos (Or.inr e5)]
      refine ⟨by positivity, by nlinarith, by linarith⟩
    · rw [if_neg (by tauto : ¬ (L = 0 ∨ rowid < L * (Q + 1))), add_sub_cancel_right]
      have hr2 : 0 ≤ rowid - L * (Q + 1) := by linarith [not_lt.1 hlong]
      have hq' : 0 < Q := by omega
      rw [Int.tdiv_eq_ediv hr2 (by omega), Int.tmod_eq_emod hr2 (by omega)]
      have e1 := Int.emod_add_ediv (rowid - L * (Q + 1)) Q
      have e2 := Int.emod_nonneg (rowid - L * (Q + 1)) (by omega : Q ≠ 0)
      have e3 := Int.emod_lt_of_pos (rowid - L * (Q + 1)) hq'
      have e4 : 0 ≤ (rowid - L * (Q + 1)) / Q := Int.ediv_nonneg hr2 (by omega)
      have e5 : (rowid - L * (Q + 1)) / Q < scale - L :=
        lt_of_mul_lt_mul_pos hq' (x := rowid - L * (Q + 1)) (by linarith) (by nlinarith)
      obtain ⟨d1, d2⟩ := ediv_emod_of_decomp
        (a := L + (rowid - L * (Q + 1)) / Q + scale * ((rowid - L * (Q + 1)) % Q))
        hpos rfl (by omega) (by omega)
      rw [d1, d2, if_neg (by omega : ¬ (L = 0 ∨ L + (rowid - L * (Q + 1)) / Q < L))]
      refine ⟨by positivity, by nlinarith, by linarith⟩

theorem rowid_to_row_inj (height scale : Int) (hs : 1 ≤ scale) (r1 r2 : Int)
    (h1 : 0 ≤ r1 ∧ r1 < height) (h2 : 0 ≤ r2 ∧ r2 < height)
    (h : rowid_to_row r1 height scale = rowid_to_row r2 height scale) : r1 = r2 := by
  have e1 := (rowid_to_row_spec r1 height scale hs h1.1 h1.2).2.2
  have e2 := (rowid_to_row_spec r2 height scale hs h2.1 h2.2).2.2
  rw [← e1, ← e2, h]

theorem rowid_to_row_surj (height scale : Int) (hs : 1 ≤ scale) (row : Int)
    (h0 : 0 ≤ row) (h1 : row < height) :
    ∃ rowid, 0 ≤ rowid ∧ rowid < height ∧ rowid_to_row rowid height scale = row := by
  have key := Finset.surj_on_of_inj_on_of_card_le
    (s := Finset.Ico (0 : Int) height) (t := Finset.Ico (0 : Int) height)
    (fun rowid _ => rowid_to_row rowid height scale)
    (fun a ha => by
      have ha' := Finset.mem_Ico.1 ha
      have := rowid_to_row_spec a height scale hs ha'.1 ha'.2
      exact Finset.mem_Ico.2 ⟨this.1, this.2.1⟩)
    (fun a b ha hb hab =>
      rowid_to_row_inj height scale hs a b (Finset.mem_Ico.1 ha) (Finset.mem_Ico.1 hb) hab)
    le_rfl row (Finset.mem_Ico.2 ⟨h0, h1⟩)
  obtain ⟨a, ha, hra⟩ := key
  have ha' := Finset.mem_Ico.1 ha
  exact ⟨a, ha'.1, ha'.2, hra.symm⟩

/-- C2. Scheduler bijection: for every `height ≥ 1` and `scale ≥ 1` the map
`rowid ↦ rowid_to_row rowid height scale` sends `[0, height)` into `[0, height)`, no two
positions give the same row, and every row of `[0, height)` is reached: it is a permutation
of `[0, height)`. -/
theorem rowid_to_row_permutation (height scale : Int) (_hh : 1 ≤ height) (hs : 1 ≤ scale) :
    (∀ rowid, 0 ≤ rowid → rowid < height →
        0 ≤ rowid_to_row rowid height scale ∧ rowid_to_row rowid height scale < height) ∧
    (∀ r1 r2, 0 ≤ r1 → r1 < height → 0 ≤ r2 → r2 < height →
        rowid_to_row r1 height scale = rowid_to_row r2 height scale → r1 = r2) ∧
    (∀ row, 0 ≤ row → row < height →
        ∃ rowid, 0 ≤ rowid ∧ rowid < height ∧ rowid_to_row rowid height scale = row) :=
  ⟨fun rowid h0 h1 => ⟨(rowid_to_row_spec rowid height scale hs h0 h1).1,
      (rowid_to_row_spec rowid height scale hs h0 h1).2.1⟩,
    fun r1 r2 a1 b1 a2 b2 h => rowid_to_row_inj height scale hs r1 r2 ⟨a1, b1⟩ ⟨a2, b2⟩ h,
    fun row h0 h1 => rowid_to_row_surj height scale hs row h0 h1⟩

/-- Instance of the scheduler bijection for a plane of 11 rows at scale 4. -/
theorem rowid_to_row_permutation_witness :
    (∀ rowid, 0 ≤ rowid → rowid < 11 →
        0 ≤ rowid_to_row rowid 11 4 ∧ rowid_to_row rowid 11 4 < 11) ∧
    (∀ r1 r2, 0 ≤ r1 → r1 < 11 → 0 ≤ r2 → r2 < 11 →
        rowid_to_row r1 11 4 = rowid_to_row r2 11 4 → r1 = r2) ∧
    (∀ row, 0 ≤ row → row < 11 →
        ∃ rowid, 0 ≤ rowid ∧ rowid < 11 ∧ rowid_to_row rowid 11 4 = row) :=
  rowid_to_row_permutation 11 4 (by decide) (by decide)

/-! ## Loops -/

theorem forStep_induct {σ : Type} (hi step : Int) (hs : 0 < step) (body : Int → σ → σ)
    (P : Int → σ → Prop) (hstep : ∀ i s, i < hi → P i s → P (i + step) (body i s)) :
    ∀ (n : Nat) (i : Int) (s : σ), hi - i ≤ n → P i s →
      ∃ j, hi ≤ j ∧ P j (forStep hi step body n i s) := by
  intro n
  induction n with
  | zero =>
    intro i s hn hP
    exact ⟨i, by simpa using hn, hP⟩
  | succ n ih =>
    intro i s hn hP
    by_cases hlt : i < hi
    · simp only [forStep, if_pos hlt]
      exact ih (i + step) (body i s) (by push_cast at hn; omega) (hstep i s hlt hP)
    · simp only [forStep, if_neg hlt]
      exact ⟨i, not_lt.1 hlt, hP⟩

/-- Invariant rule for `for(i = lo; i < hi; i++)`. -/
theorem forLoop_induct {σ : Type} (lo hi : Int) (body : Int → σ → σ) (P : Int → σ → Prop)
    (s : σ) (h0 : P lo s) (hstep : ∀ i s, lo ≤ i → i < hi → P i s → P (i + 1) (body i s)) :
    ∃ j, hi ≤ j ∧ P j (forLoop lo hi body s) := by
  obtain ⟨j, hj, _, hP⟩ := forStep_induct hi 1 one_pos body (fun i s => lo ≤ i ∧ P i s)
    (fun i s hlt h => ⟨by omega, hstep i s h.1 hlt h.2⟩) (hi - lo).toNat lo s
    (by omega) ⟨le_rfl, h0⟩
  exact ⟨j, hj, hP⟩

/-- Invariant rule for `for(i = lo; i < hi; i += 2)`. -/
theorem forLoop2_induct {σ : Type} (lo hi : Int) (body : Int → σ → σ) (P : Int → σ → Prop)
    (s : σ) (h0 : P lo s) (hstep : ∀ i s, lo ≤ i → i < hi → P i s → P (i + 2) (body i s)) :
    ∃ j, hi ≤ j ∧ P j (forLoop2 lo hi body s) := by
  obtain ⟨j, hj, _, hP⟩ := forStep_induct hi 2 two_pos body (fun i s => lo ≤ i ∧ P i s)
    (fun i s hlt h => ⟨by omega, hstep i s h.1 hlt h.2⟩) (hi - lo).toNat lo s
    (by omega) ⟨le_rfl, h0⟩
  exact ⟨j, hj, hP⟩

/-- A property kept by every iteration holds after the loop. -/
theorem forLoop_preserves {σ : Type} (lo hi : Int) (body : Int → σ → σ) (P : σ → Prop)
    (s : σ) (h0 : P s) (hstep : ∀ i s, lo ≤ i → i < hi → P s → P (body i s)) :
    P (forLoop lo hi body s) := by
  obtain ⟨_, _, hP⟩ := forLoop_induct lo hi body (fun _ s => P s) s h0 hstep
  exact hP

theorem forLoop2_preserves {σ : Type} (lo hi : Int) (body : Int → σ → σ) (P : σ → Prop)
    (s : σ) (h0 : P s) (hstep : ∀ i s, lo ≤ i → i < hi → P s → P (body i s)) :
    P (forLoop2 lo hi body s) := by
  obtain ⟨_, _, hP⟩ := forLoop2_induct lo hi body (fun _ s => P s) s h0 hstep
  exact hP

theorem store_same {β : Type} (p : Int → β) (a : Int) (v : β) : store p a v a = v := by
  simp [store]

theorem store_other {β : Type} (p : Int → β) (a k : Int) (v : β) (h : k ≠ a) :
    store p a v k = p k := by
  simp [store, h]

/-! ## Driver -/

/-- C1. Bypass identity: when the committed threshold is not strictly greater than 0, `process`
takes the `memcpy` branch (neither decomposer runs) and the output buffer equals the input
buffer on every one of the `width * height` samples, whatever the geometry, the CFA
descriptor and the band multipliers. -/
theorem process_bypass_identity {α : Type} [LinearOrderedField α] (sqrtf : α → α)
    (FC : Int → Int → Nat → Int)
    (FCxtrans : Int → Int → dt_iop_roi_t → (Int → Int → Int) → Int)
    (d : dt_iop_rawdenoise_data_t α) (filters : Nat) (xtrans : Int → Int → Int)
    (ivoid ovoid : Int → α) (roi_in : dt_iop_roi_t) (uninit : Int → α)
    (h : ¬ (d.threshold > 0)) :
    (process sqrtf FC FCxtrans d filters xtrans ivoid ovoid roi_in uninit).1 = Dispatch.copy ∧
    ∀ k, 0 ≤ k → k < roi_in.width * roi_in.height →
      (process sqrtf FC FCxtrans d filters xtrans ivoid ovoid roi_in uninit).2 k = ivoid k := by
  simp only [process, if_pos h, memcpy, true_and]
  intro k h0 h1
  rw [if_pos ⟨h0, h1⟩]

/-- Bypass at threshold 0 on a 6 x 4 Bayer frame (`filters = 0x94949494`). -/
theorem process_bypass_identity_witness :
    (process (fun x : ℚ => x) (fun _ _ _ => 0) (fun _ _ _ _ => 0)
        { threshold := 0, force := fun _ _ => 1 } 2492765332 (fun _ _ => 0)
        (fun k => (k : ℚ)) (fun _ => 0) { x := 0, y := 0, width := 6, height := 4 }
        (fun _ => 0)).1 = Dispatch.copy ∧
    ∀ k, 0 ≤ k → k < (6 : Int) * 4 →
      (process (fun x : ℚ => x) (fun _ _ _ => 0) (fun _ _ _ _ => 0)
        { threshold := 0, force := fun _ _ => 1 } 2492765332 (fun _ _ => 0)
        (fun k => (k : ℚ)) (fun _ => 0) { x := 0, y := 0, width := 6, height := 4 }
        (fun _ => 0)).2 k = (k : ℚ) :=
  process_bypass_identity _ _ _ _ _ _ _ _ _ _ (by norm_num)


/-! ## Noise profile -/

/-- Closed form of the table filled by `compute_channel_noise`. -/
theorem compute_channel_noise_apply {α : Type} [LinearOrderedField α] (noise : Int → α)
    (color : Int) (data : dt_iop_rawdenoise_data_t α) (i : Int) (h0 : 0 ≤ i) (h1 : i < 5) :
    compute_channel_noise noise color data i =
      noise_all_init i * data.force DT_RAWDENOISE_ALL (4 - i) ^ 4 *
        (if color = 0 then data.force DT_RAWDENOISE_R (4 - i)
          else if color = 2 then data.force DT_RAWDENOISE_B (4 - i)
          else data.force DT_RAWDENOISE_G (4 - i)) ^ 4 * 256 * data.threshold := by
  have hi : i = 0 ∨ i = 1 ∨ i = 2 ∨ i = 3 ∨ i = 4 := by omega
  rcases hi with rfl | rfl | rfl | rfl | rfl <;>
  · simp only [compute_channel_noise, forLoop, forStep, DT_IOP_RAWDENOISE_BANDS]
    simp [store]
    split_ifs <;> ring

/-- Closed form of the soft threshold of the X-Trans path. -/
theorem xtrans_thold_apply {α : Type} [LinearOrderedField α] (noise : Int → α)
    (c : Int) (data : dt_iop_rawdenoise_data_t α) (i : Int) (h0 : 0 ≤ i) (h1 : i < 5) :
    xtrans_thold noise c data i =
      noise_all_init i * data.force DT_RAWDENOISE_ALL (4 - i) ^ 4 *
        (if c = 0 then data.force DT_RAWDENOISE_R (4 - i)
          else if c = 2 then data.force DT_RAWDENOISE_B (4 - i)
          else data.force DT_RAWDENOISE_G (4 - i)) ^ 4 * 256 * data.threshold := by
  have hi : i = 0 ∨ i = 1 ∨ i = 2 ∨ i = 3 ∨ i = 4 := by omega
  rcases hi with rfl | rfl | rfl | rfl | rfl <;>
  · simp only [xtrans_thold, xtrans_noise, xtrans_noise_all, forLoop, forStep,
      DT_IOP_RAWDENOISE_BANDS]
    simp [store]
    split_ifs <;> ring

/-- C5. Bayer noise profile: for every colour code, threshold and multiplier table, and every
band `i` in `0..4`, `compute_channel_noise` sets
`noise[i] = base[i] * threshold * 256 * allMult[4-i]^4 * channelMult[4-i]^4`, the multipliers
being taken at the reversed band index `4 - i`, with the channel group R for colour 0, B for
colour 2 and G otherwise. -/
theorem compute_channel_noise_formula {α : Type} [LinearOrderedField α] (noise : Int → α)
    (color : Int) (data : dt_iop_rawdenoise_data_t α) (i : Int) (h0 : 0 ≤ i) (h1 : i < 5) :
    compute_channel_noise noise color data i = bayer_noise_formula data color i := by
  have hi : i = 0 ∨ i = 1 ∨ i = 2 ∨ i = 3 ∨ i = 4 := by omega
  rcases hi with rfl | rfl | rfl | rfl | rfl <;>
  · simp only [compute_channel_noise, bayer_noise_formula, forLoop, forStep,
      DT_IOP_RAWDENOISE_BANDS, noise_all_init]
    simp [store]
    split_ifs <;> ring

/-- The finest Bayer band of a red plane at threshold 1/100 and neutral multipliers 1/2. -/
theorem compute_channel_noise_formula_witness :
    (0 : Int) ≤ 0 ∧ (0 : Int) < 5 ∧
    compute_channel_noise (fun _ => (0 : ℚ)) 0
        { threshold := 1 / 100, force := fun _ _ => 1 / 2 } 0 =
      bayer_noise_formula { threshold := 1 / 100, force := fun _ _ => (1 / 2 : ℚ) } 0 0 :=
  ⟨by decide, by decide, compute_channel_noise_formula _ _ _ 0 (by decide) (by decide)⟩

/-- C6 (as amended). In exact arithmetic the two noise profiles are the same function of the
threshold and the multipliers: for every band `i` in `0..4` and every colour, the Bayer band
threshold `noise[i]` of `compute_channel_noise` equals the X-Trans soft threshold
`threshold * noise[i]` of `wavelet_denoise_xtrans`; the two paths differ only in the order of
the multiplications. -/
theorem noise_profiles_agree {α : Type} [LinearOrderedField α] (noise noise' : Int → α)
    (c : Int) (data : dt_iop_rawdenoise_data_t α) (i : Int) (h0 : 0 ≤ i) (h1 : i < 5) :
    compute_channel_noise noise c data i = xtrans_thold noise' c data i := by
  rw [compute_channel_noise_apply noise c data i h0 h1,
    xtrans_thold_apply noise' c data i h0 h1]

/-- The two profiles on the coarsest band of a blue plane. -/
theorem noise_profiles_agree_witness :
    (0 : Int) ≤ 4 ∧ (4 : Int) < 5 ∧
    compute_channel_noise (fun _ => (0 : ℚ)) 2
        { threshold := 1 / 100, force := fun g b => (g + b + 1) / 8 } 4 =
      xtrans_thold (fun _ => (0 : ℚ)) 2
        { threshold := 1 / 100, force := fun g b => (g + b + 1) / 8 } 4 :=
  ⟨by decide, by decide, noise_profiles_agree _ _ _ _ 4 (by decide) (by decide)⟩

/-- C6 (as stated) fails: over the reals there is no band, colour, threshold and multiplier
table on which the Bayer band threshold and the X-Trans soft threshold differ. -/
theorem noise_profiles_not_different :
    ¬ ∃ (i c : Int) (data : dt_iop_rawdenoise_data_t ℝ) (noise noise' : Int → ℝ),
      0 ≤ i ∧ i < 5 ∧ compute_channel_noise noise c data i ≠ xtrans_thold noise' c data i := by
  rintro ⟨i, c, data, noise, noise', h0, h1, hne⟩
  exact hne (by
    rw [compute_channel_noise_apply noise c data i h0 h1,
      xtrans_thold_apply noise' c data i h0 h1])


/-! ## Soft threshold -/

theorem soft_excess_eq {α : Type} [LinearOrderedField α] (diff thold : α) (h : 0 ≤ thold) :
    soft_excess diff thold =
      if thold < diff then diff - thold else if diff < -thold then diff + thold else 0 := by
  simp only [soft_excess, MAX, MIN]
  split_ifs <;> linarith

theorem copysignf_soft_eq {α : Type} [LinearOrderedField α] (diff thold : α) (h : 0 ≤ thold) :
    copysignf (fmaxf (fabsf diff - thold) 0) diff =
      if thold < diff then diff - thold else if diff < -thold then diff + thold else 0 := by
  by_cases hd : diff < 0
  · have e1 : fabsf diff = -diff := by simp [fabsf, hd]
    rw [e1, if_neg (by linarith)]
    by_cases ht : diff < -thold
    · have e2 : fmaxf (-diff - thold) 0 = -diff - thold := by
        simp only [fmaxf]; rw [if_neg (by linarith)]
      have e3 : fabsf (-diff - thold) = -diff - thold := by
        simp only [fabsf]; rw [if_neg (by linarith)]
      rw [e2, copysignf, if_pos hd, e3, if_pos ht]; ring
    · have e2 : fmaxf (-diff - thold) 0 = 0 := by
        simp only [fmaxf]; split_ifs <;> linarith
      rw [e2, copysignf, if_pos hd, if_neg ht]; simp [fabsf]
  · have e1 : fabsf diff = diff := by simp [fabsf, hd]
    rw [e1, copysignf, if_neg hd, if_neg (by linarith : ¬ diff < -thold)]
    by_cases ht : thold < diff
    · have e2 : fmaxf (diff - thold) 0 = diff - thold := by
        simp only [fmaxf]; rw [if_neg (by linarith)]
      rw [e2, if_pos ht]; simp only [fabsf]; rw [if_neg (by linarith)]
    · have e2 : fmaxf (diff - thold) 0 = 0 := by
        simp only [fmaxf]; split_ifs <;> linarith
      rw [e2, if_neg ht]; simp [fabsf]

theorem sign_soft_eq {α : Type} [LinearOrderedField α] (diff thold : α) (h : 0 ≤ thold) :
    (SignType.sign diff : α) * max (|diff| - thold) 0 =
      if thold < diff then diff - thold else if diff < -thold then diff + thold else 0 := by
  rcases lt_trichotomy diff 0 with hd | hd | hd
  · rw [sign_neg hd, abs_of_neg hd, if_neg (by linarith)]
    rcases le_or_lt (-diff - thold) 0 with hm | hm
    · rw [max_eq_right hm, if_neg (by linarith)]; simp
    · rw [max_eq_left hm.le, if_pos (by linarith)]; simp; ring
  · subst hd
    rw [if_neg (by linarith), if_neg (by linarith)]; simp
  · rw [sign_pos hd, abs_of_pos hd]
    rcases le_or_lt (diff - thold) 0 with hm | hm
    · rw [max_eq_right hm, if_neg (by linarith), if_neg (by linarith)]; simp
    · rw [max_eq_left hm.le, if_pos (by linarith)]; simp

/-- C7. Soft-threshold rule: for every `diff` and every `thold ≥ 0` the Bayer expression
`MAX(diff - thold, 0) + MIN(diff + thold, 0)` is `diff` shrunk toward zero by `thold` and
clamped at zero, `sign(diff) * max(|diff| - thold, 0)`; it equals the X-Trans expression
`copysignf(fmaxf(fabsf(diff) - thold, 0), diff)` and the commented-out conditional
`diff < 0 ? MIN(diff + thold, 0) : MAX(diff - thold, 0)`. -/
theorem soft_threshold_rule {α : Type} [LinearOrderedField α] (diff thold : α)
    (h : 0 ≤ thold) :
    soft_excess diff thold = (SignType.sign diff : α) * max (|diff| - thold) 0 ∧
    soft_excess diff thold = copysignf (fmaxf (fabsf diff - thold) 0) diff ∧
    soft_excess diff thold =
      (if diff < 0 then MIN (diff + thold) 0 else MAX (diff - thold) 0) := by
  refine ⟨?_, ?_, ?_⟩
  · rw [soft_excess_eq diff thold h, sign_soft_eq diff thold h]
  · rw [soft_excess_eq diff thold h, copysignf_soft_eq diff thold h]
  · simp only [soft_excess, MAX, MIN]
    split_ifs <;> linarith

/-- The rule at `diff = -3`, `thold = 1`. -/
theorem soft_threshold_rule_witness :
    (0 : ℚ) ≤ 1 ∧
    soft_excess (-3 : ℚ) 1 = (SignType.sign (-3 : ℚ) : ℚ) * max (|(-3 : ℚ)| - 1) 0 ∧
    soft_excess (-3 : ℚ) 1 = copysignf (fmaxf (fabsf (-3 : ℚ) - 1) 0) (-3) ∧
    soft_excess (-3 : ℚ) 1 =
      (if (-3 : ℚ) < 0 then MIN ((-3 : ℚ) + 1) 0 else MAX ((-3 : ℚ) - 1) 0) :=
  ⟨by norm_num, soft_threshold_rule (-3) 1 (by norm_num)⟩


/-! ## Hat transform -/

theorem whileLoop_induct {σ : Type} (cond : σ → Bool) (body : σ → σ) (ctr : σ → Int)
    (hi : Int) (P : σ → Prop) (hcond : ∀ s, cond s = decide (ctr s < hi))
    (hstep : ∀ s, P s → ctr s < hi → P (body s) ∧ ctr (body s) = ctr s + 1) :
    ∀ (n : Nat) (s : σ), hi - ctr s ≤ n → P s →
      P (whileLoop cond body n s) ∧ ctr (whileLoop cond body n s) = max (ctr s) hi := by
  intro n
  induction n with
  | zero =>
    intro s hn hP
    have : hi ≤ ctr s := by simpa using hn
    exact ⟨hP, by simp [whileLoop, this]⟩
  | succ n ih =>
    intro s hn hP
    by_cases hlt : ctr s < hi
    · have hc : cond s = true := by rw [hcond]; exact decide_eq_true hlt
      obtain ⟨hP', hctr⟩ := hstep s hP hlt
      obtain ⟨h1, h2⟩ := ih (body s) (by rw [hctr]; push_cast at hn; omega) hP'
      simp only [whileLoop, hc, if_true]
      refine ⟨h1, ?_⟩
      rw [h2, hctr, max_eq_right (by omega), max_eq_right hlt.le]
    · have hc : cond s = false := by rw [hcond]; exact decide_eq_false hlt
      have e : whileLoop cond body (n + 1) s = s := by simp [whileLoop, hc]
      rw [e]
      exact ⟨hP, by rw [max_eq_left (not_lt.1 hlt)]⟩

theorem hat_right_bounds (size scale i : Int) (hs : 1 ≤ scale) (h2 : 2 * scale ≤ size)
    (h0 : 0 ≤ i) (h1 : i < size) :
    0 ≤ |i - scale| ∧ |i - scale| < size ∧
      0 ≤ hat_right size scale i ∧ hat_right size scale i < size := by
  refine ⟨abs_nonneg _, ?_, ?_, ?_⟩
  · rw [abs_lt]; constructor <;> omega
  · unfold hat_right; split_ifs <;> omega
  · unfold hat_right; split_ifs <;> omega

theorem range_toNat_succ (i : Int) (h : 0 ≤ i) :
    ((List.range (i + 1).toNat).map Int.ofNat).reverse =
      i :: ((List.range i.toNat).map Int.ofNat).reverse := by
  have e : (i + 1).toNat = i.toNat + 1 := by omega
  rw [e, List.range_succ, List.map_append, List.reverse_append]
  simp [Int.toNat_of_nonneg h]

theorem hat_loop1 {α : Type} [LinearOrderedField α] (temp base : Int → α)
    (stride size scale : Int) (h2 : 2 * scale ≤ size) (s : HatState α)
    (hI : HatInv temp base stride size scale s)
    (hb : s.i ≤ scale ∧ s.basep1 = (scale - s.i) * stride ∧ s.basep2 = (scale + s.i) * stride) :
    let r := whileLoop (fun s : HatState α => decide (s.i < scale))
      (fun s =>
        { i := s.i + 1, basep0 := s.basep0 + stride, basep1 := s.basep1 - stride,
          basep2 := s.basep2 + stride,
          temp := store s.temp s.i
            ((base s.basep0 + base s.basep0 + base s.basep1 + base s.basep2) * 0.25),
          reads := s.basep2 :: s.basep1 :: s.basep0 :: s.reads,
          writes := s.i :: s.writes }) (scale - s.i).toNat s
    HatInv temp base stride size scale r ∧ r.i = scale := by
  intro r
  have key := whileLoop_induct (fun s : HatState α => decide (s.i < scale))
    (fun s =>
        { i := s.i + 1, basep0 := s.basep0 + stride, basep1 := s.basep1 - stride,
          basep2 := s.basep2 + stride,
          temp := store s.temp s.i
            ((base s.basep0 + base s.basep0 + base s.basep1 + base s.basep2) * 0.25),
          reads := s.basep2 :: s.basep1 :: s.basep0 :: s.reads,
          writes := s.i :: s.writes })
    (fun s => s.i) scale
    (fun s => HatInv temp base stride size scale s ∧ s.i ≤ scale ∧
      s.basep1 = (scale - s.i) * stride ∧ s.basep2 = (scale + s.i) * stride)
    (fun _ => rfl)
    (by
      rintro s ⟨⟨i0, p0, hval, hfr, hw, hr⟩, -, p1, p2⟩ hlt
      replace hlt : s.i < scale := hlt
      refine ⟨⟨⟨by simp only; omega, by simp only; rw [p0]; ring, ?_, ?_, ?_, ?_⟩,
        by simp only; omega, by simp only; rw [p1]; ring, by simp only; rw [p2]; ring⟩, rfl⟩
      · intro j hj0 hj1
        simp only at hj1 ⊢
        by_cases hji : j = s.i
        · subst hji
          rw [store_same, p0, p1, p2, hat_formula, hat_right, if_pos (by omega),
            abs_of_nonpos (by omega)]
          have e1 : -(s.i - scale) = scale - s.i := by ring
          have e2 : scale + s.i = s.i + scale := by ring
          rw [e1, e2]; norm_num; ring
        · rw [store_other _ _ _ _ hji]; exact hval j hj0 (by omega)
      · intro j hj
        simp only at hj ⊢
        rw [store_other _ _ _ _ (by omega)]; exact hfr j (by omega)
      · simp only; rw [hw]; exact (range_toNat_succ s.i i0).symm
      · intro r hr'
        simp only [List.mem_cons] at hr'
        rcases hr' with rfl | rfl | rfl | hr'
        · exact ⟨scale + s.i, by omega, by omega, p2⟩
        · exact ⟨scale - s.i, by omega, by omega, p1⟩
        · exact ⟨s.i, by omega, by omega, p0⟩
        · exact hr r hr')
    (scale - s.i).toNat s (by beta_reduce; omega) ⟨hI, hb⟩
  exact ⟨key.1.1, key.2.trans (max_eq_right hb.1)⟩

theorem hat_loop2 {α : Type} [LinearOrderedField α] (temp base : Int → α)
    (stride size scale : Int) (hs : 1 ≤ scale) (h2 : 2 * scale ≤ size) (s : HatState α)
    (hI : HatInv temp base stride size scale s) (hb : s.i = scale) :
    let r := whileLoop (fun s : HatState α => decide (s.i < size - scale))
      (fun s =>
        { s with
          i := s.i + 1, basep0 := s.basep0 + stride,
          temp := store s.temp s.i
            ((base s.basep0 * 2 + base (s.basep0 - stride * scale)
              + base (s.basep0 + stride * scale)) * 0.25),
          reads := (s.basep0 + stride * scale) :: (s.basep0 - stride * scale) :: s.basep0
            :: s.reads,
          writes := s.i :: s.writes }) (size - scale - s.i).toNat s
    HatInv temp base stride size scale r ∧ r.i = size - scale := by
  intro r
  have key := whileLoop_induct (fun s : HatState α => decide (s.i < size - scale))
    (fun s =>
        { s with
          i := s.i + 1, basep0 := s.basep0 + stride,
          temp := store s.temp s.i
            ((base s.basep0 * 2 + base (s.basep0 - stride * scale)
              + base (s.basep0 + stride * scale)) * 0.25),
          reads := (s.basep0 + stride * scale) :: (s.basep0 - stride * scale) :: s.basep0
            :: s.reads,
          writes := s.i :: s.writes })
    (fun s => s.i) (size - scale)
    (fun s => HatInv temp base stride size scale s ∧ scale ≤ s.i ∧ s.i ≤ size - scale)
    (fun _ => rfl)
    (by
      rintro s ⟨⟨i0, p0, hval, hfr, hw, hr⟩, hlo, -⟩ hlt
      replace hlt : s.i < size - scale := hlt
      refine ⟨⟨⟨by simp only; omega, by simp only; rw [p0]; ring, ?_, ?_, ?_, ?_⟩,
        by simp only; omega, by simp only; omega⟩, rfl⟩
      · intro j hj0 hj1
        simp only at hj1 ⊢
        by_cases hji : j = s.i
        · subst hji
          rw [store_same, p0, hat_formula, hat_right, if_pos (by omega),
            abs_of_nonneg (by omega)]
          have e1 : s.i * stride - stride * scale = (s.i - scale) * stride := by ring
          have e2 : s.i * stride + stride * scale = (s.i + scale) * stride := by ring
          rw [e1, e2]; norm_num; ring
        · rw [store_other _ _ _ _ hji]; exact hval j hj0 (by omega)
      · intro j hj
        simp only at hj ⊢
        rw [store_other _ _ _ _ (by omega)]; exact hfr j (by omega)
      · simp only; rw [hw]; exact (range_toNat_succ s.i i0).symm
      · intro r hr'
        simp only [List.mem_cons] at hr'
        rcases hr' with rfl | rfl | rfl | hr'
        · exact ⟨s.i + scale, by omega, by omega, by rw [p0]; ring⟩
        · exact ⟨s.i - scale, by omega, by omega, by rw [p0]; ring⟩
        · exact ⟨s.i, by omega, by omega, p0⟩
        · exact hr r hr')
    (size - scale - s.i).toNat s (by beta_reduce; omega) ⟨hI, by omega, by omega⟩
  exact ⟨key.1.1, key.2.trans (max_eq_right (show s.i ≤ size - scale by omega))⟩

theorem hat_loop3 {α : Type} [LinearOrderedField α] (temp base : Int → α)
    (stride size scale : Int) (hs : 1 ≤ scale) (h2 : 2 * scale ≤ size) (s : HatState α)
    (hI : HatInv temp base stride size scale s) (hb : s.i = size - scale) :
    let s' : HatState α :=
      { s with basep1 := s.basep0 - stride * scale, basep2 := stride * (size - 2) }
    let r := whileLoop (fun s : HatState α => decide (s.i < size))
      (fun s =>
        { i := s.i + 1, basep0 := s.basep0 + stride, basep1 := s.basep1 + stride,
          basep2 := s.basep2 - stride,
          temp := store s.temp s.i
            ((base s.basep0 + base s.basep0 + base s.basep1 + base s.basep2) * 0.25),
          reads := s.basep2 :: s.basep1 :: s.basep0 :: s.reads,
          writes := s.i :: s.writes }) (size - s'.i).toNat s'
    HatInv temp base stride size scale r ∧ r.i = size := by
  intro s' r
  have key := whileLoop_induct (fun s : HatState α => decide (s.i < size))
    (fun s =>
        { i := s.i + 1, basep0 := s.basep0 + stride, basep1 := s.basep1 + stride,
          basep2 := s.basep2 - stride,
          temp := store s.temp s.i
            ((base s.basep0 + base s.basep0 + base s.basep1 + base s.basep2) * 0.25),
          reads := s.basep2 :: s.basep1 :: s.basep0 :: s.reads,
          writes := s.i :: s.writes })
    (fun s => s.i) size
    (fun s => HatInv temp base stride size scale s ∧ size - scale ≤ s.i ∧ s.i ≤ size ∧
      s.basep1 = (s.i - scale) * stride ∧
      s.basep2 = (2 * (size - 1) - (s.i + scale)) * stride)
    (fun _ => rfl)
    (by
      rintro s ⟨⟨i0, p0, hval, hfr, hw, hr⟩, hlo, -, p1, p2⟩ hlt
      replace hlt : s.i < size := hlt
      refine ⟨⟨⟨by simp only; omega, by simp only; rw [p0]; ring, ?_, ?_, ?_, ?_⟩,
        by simp only; omega, by simp only; omega, by simp only; rw [p1]; ring,
        by simp only; rw [p2]; ring⟩, rfl⟩
      · intro j hj0 hj1
        simp only at hj1 ⊢
        by_cases hji : j = s.i
        · subst hji
          rw [store_same, p0, p1, p2, hat_formula, hat_right, if_neg (by omega),
            abs_of_nonneg (by omega)]
          norm_num; ring
        · rw [store_other _ _ _ _ hji]; exact hval j hj0 (by omega)
      · intro j hj
        simp only at hj ⊢
        rw [store_other _ _ _ _ (by omega)]; exact hfr j (by omega)
      · simp only; rw [hw]; exact (range_toNat_succ s.i i0).symm
      · intro r hr'
        simp only [List.mem_cons] at hr'
        rcases hr' with rfl | rfl | rfl | hr'
        · exact ⟨2 * (size - 1) - (s.i + scale), by omega, by omega, p2⟩
        · exact ⟨s.i - scale, by omega, by omega, p1⟩
        · exact ⟨s.i, by omega, by omega, p0⟩
        · exact hr r hr')
    (size - s'.i).toNat s' (by beta_reduce; omega)
    ⟨hI, by show size - scale ≤ s.i; omega, by show s.i ≤ size; omega,
      by show s.basep0 - stride * scale = (s.i - scale) * stride; rw [hI.2.1]; ring,
      by show stride * (size - 2) = (2 * (size - 1) - (s.i + scale)) * stride; rw [hb]; ring⟩
  exact ⟨key.1.1, key.2.trans (max_eq_right (show s.i ≤ size by omega))⟩

/-- The state in which `hat_transform` returns, for `1 ≤ scale` and `2 * scale ≤ size`. -/
theorem hat_transform_inv {α : Type} [LinearOrderedField α] (temp base : Int → α)
    (stride size scale : Int) (hs : 1 ≤ scale) (h2 : 2 * scale ≤ size) :
    HatInv temp base stride size scale (hat_transform temp base stride size scale) ∧
      (hat_transform temp base stride size scale).i = size := by
  have h1 := hat_loop1 temp base stride size scale h2
    { i := 0, basep0 := 0, basep1 := stride * scale, basep2 := stride * scale, temp := temp,
      reads := [], writes := [] }
    ⟨le_rfl, by simp, by intro j _ hj; simp only at hj; omega, fun _ _ => rfl, by simp,
      by simp⟩
    ⟨by simp only; omega, by simp only; ring, by simp only; ring⟩
  have h2' := hat_loop2 temp base stride size scale hs h2 _ h1.1 h1.2
  exact hat_loop3 temp base stride size scale hs h2 _ h2'.1 h2'.2

/-- C3. Hat transform as the mirror-reflected triangular filter: for `stride ≥ 1`,
`scale ≥ 1` and `2 * scale ≤ size`, every `i` in `[0, size)` gets
`temp[i] = (in[l(i)] + 2*in[i] + in[r(i)]) / 4` with `in[k] = base[k*stride]`,
`l(i) = |i - scale|` and `r(i) = hat_right size scale i`, both in `[0, size)`; every offset
read from `base` is `k * stride` for some `k` in `[0, size)`; and the indices of `temp`
stored are `0, 1, ..., size - 1`, each exactly once. -/
theorem hat_transform_mirror_filter {α : Type} [LinearOrderedField α] (temp base : Int → α)
    (stride size scale : Int) (_hstride : 1 ≤ stride) (hs : 1 ≤ scale)
    (h2 : 2 * scale ≤ size) :
    (∀ i, 0 ≤ i → i < size →
      (hat_transform temp base stride size scale).temp i =
          (base (|i - scale| * stride) + 2 * base (i * stride)
            + base (hat_right size scale i * stride)) / 4 ∧
        0 ≤ |i - scale| ∧ |i - scale| < size ∧
        0 ≤ hat_right size scale i ∧ hat_right size scale i < size) ∧
    (∀ r ∈ (hat_transform temp base stride size scale).reads,
      ∃ k, 0 ≤ k ∧ k < size ∧ r = k * stride) ∧
    (hat_transform temp base stride size scale).writes.reverse =
      (List.range size.toNat).map Int.ofNat := by
  obtain ⟨⟨_, _, hval, _, hw, hr⟩, hi⟩ := hat_transform_inv temp base stride size scale hs h2
  refine ⟨fun i h0 h1 => ⟨?_, hat_right_bounds size scale i hs h2 h0 h1⟩, hr, ?_⟩
  · rw [hval i h0 (by omega)]; rfl
  · rw [hw, hi, List.reverse_reverse]

/-- The line `[0, 10, 0, 10, 0]` filtered at `scale = 2` gives `[0, 10, 0, 10, 0]`. -/
theorem hat_transform_mirror_filter_witness :
    (hat_transform (fun _ => (0 : ℚ)) (fun k => if k = 1 ∨ k = 3 then 10 else 0) 1 5 2).temp 0
        = 0 ∧
    (hat_transform (fun _ => (0 : ℚ)) (fun k => if k = 1 ∨ k = 3 then 10 else 0) 1 5 2).temp 1
        = 10 ∧
    (hat_transform (fun _ => (0 : ℚ)) (fun k => if k = 1 ∨ k = 3 then 10 else 0) 1 5 2).temp 2
        = 0 ∧
    (hat_transform (fun _ => (0 : ℚ)) (fun k => if k = 1 ∨ k = 3 then 10 else 0) 1 5 2).temp 3
        = 10 ∧
    (hat_transform (fun _ => (0 : ℚ)) (fun k => if k = 1 ∨ k = 3 then 10 else 0) 1 5 2).temp 4
        = 0 := by
  have h := (hat_transform_mirror_filter (fun _ => (0 : ℚ))
    (fun k => if k = 1 ∨ k = 3 then 10 else 0) 1 5 2 (by decide) (by decide) (by decide)).1
  refine ⟨?_, ?_, ?_, ?_, ?_⟩
  · rw [(h 0 (by decide) (by decide)).1]; simp [hat_right]
  · rw [(h 1 (by decide) (by decide)).1]; simp [hat_right]; norm_num
  · rw [(h 2 (by decide) (by decide)).1]; simp [hat_right]
  · rw [(h 3 (by decide) (by decide)).1]; simp [hat_right]; norm_num
  · rw [(h 4 (by decide) (by decide)).1]; simp [hat_right]


/-! ## Bayer decomposer on small planes -/

/-- C4 (failing input). On a plane of height 3 at level 3 the vertical pass uses
`vscale = MIN(8, 3) = 3`; the iteration for row 0 reads row 3 as `above` and the iteration
for row 2 reads row -1 as `below`, both outside `[0, 3)`. -/
theorem dwt_denoise_vert_1ch_height3_lev3 :
    MIN ((1 : Int) <<< (3 : Int)) 3 = 3 ∧
    (dwt_denoise_vert_1ch (fun _ => (0 : ℚ)) (fun k => (k : ℚ)) 3 1 3).rows =
      [{ row := 2, above := 1, below := -1 }, { row := 1, above := 2, below := 0 },
        { row := 0, above := 3, below := 1 }] := by
  decide

/-- C9 (failing input). On a plane of width 3 and height 1 at level 1 (`hscale = 2`) the
left-edge loop visits columns 0 and 1 and the right-edge loop columns 1 and 2: the
accumulator entry of column 1 is updated twice in one call. -/
theorem dwt_denoise_horiz_1ch_width3_lev1 :
    MIN ((1 : Int) <<< (1 : Int)) 3 = 2 ∧
    ((dwt_denoise_horiz_1ch (fun k => (k : ℚ)) (fun k => (k : ℚ)) (fun _ => 0) 1 3 1 0 0).log.map
      (fun e => (e.row, e.col))).reverse = [(0, 0), (0, 1), (0, 1), (0, 2)] := by
  decide


/-! ## Store loops -/

theorem forStep_one_exact {σ : Type} (hi : Int) (body : Int → σ → σ) (P : Int → σ → Prop)
    (hstep : ∀ i s, i < hi → P i s → P (i + 1) (body i s)) :
    ∀ (n : Nat) (i : Int) (s : σ), hi - i ≤ n → P i s →
      P (max i hi) (forStep hi 1 body n i s) := by
  intro n
  induction n with
  | zero =>
    intro i s hn hP
    have : hi ≤ i := by simpa using hn
    simpa [forStep, max_eq_left this] using hP
  | succ n ih =>
    intro i s hn hP
    by_cases hlt : i < hi
    · simp only [forStep, if_pos hlt]
      have := ih (i + 1) (body i s) (by push_cast at hn; omega) (hstep i s hlt hP)
      have e1 : max (i + 1) hi = hi := max_eq_right (by omega)
      have e2 : max i hi = hi := max_eq_right hlt.le
      rw [e2]
      rw [e1] at this
      exact this
    · simp only [forStep, if_neg hlt]
      rwa [max_eq_left (not_lt.1 hlt)]

/-- Invariant rule for `for(i = lo; i < hi; i++)` with the exact exit value of `i`. -/
theorem forLoop_induct_exact {σ : Type} (lo hi : Int) (body : Int → σ → σ)
    (P : Int → σ → Prop) (s : σ) (h0 : P lo s)
    (hstep : ∀ i s, lo ≤ i → i < hi → P i s → P (i + 1) (body i s)) :
    P (max lo hi) (forLoop lo hi body s) := by
  have := forStep_one_exact hi body (fun i s => lo ≤ i ∧ P i s)
    (fun i s hlt h => ⟨by omega, hstep i s h.1 hlt h.2⟩) (hi - lo).toNat lo s
    (by omega) ⟨le_rfl, h0⟩
  exact this.2

/-- A loop storing `val col` at offset `a0 + col` for every `col` of `[lo, hi)`. -/
theorem forLoop_store {β : Type} (lo hi a0 : Int) (val : Int → β) (p : Int → β) (k : Int) :
    forLoop lo hi (fun col p => store p (a0 + col) (val col)) p k =
      if lo ≤ k - a0 ∧ k - a0 < hi then val (k - a0) else p k := by
  have := forLoop_induct_exact lo hi (fun col p => store p (a0 + col) (val col))
    (fun j q => ∀ k, q k = if lo ≤ k - a0 ∧ k - a0 < j then val (k - a0) else p k) p
    (by intro k; rw [if_neg (by omega)])
    (by
      intro i q h0 _ hq k
      beta_reduce
      by_cases hk : k = a0 + i
      · subst hk
        rw [store_same, if_pos (by omega)]; congr 1; omega
      · rw [store_other _ _ _ _ hk, hq k]
        by_cases hc : lo ≤ k - a0 ∧ k - a0 < i
        · rw [if_pos hc, if_pos (by omega)]
        · rw [if_neg hc, if_neg (by omega)])
  rw [this k]
  by_cases hc : lo ≤ k - a0 ∧ k - a0 < hi
  · rw [if_pos hc, if_pos ⟨hc.1, lt_of_lt_of_le hc.2 (le_max_right _ _)⟩]
  · rw [if_neg hc, if_neg]
    rintro ⟨h1, h2⟩
    rcases max_cases lo hi with ⟨e, _⟩ | ⟨e, _⟩ <;> rw [e] at h2 <;> omega

theorem one_shiftLeft_eq (lev : Int) (h : 0 ≤ lev) : (1 : Int) <<< lev = 2 ^ lev.toNat := by
  obtain ⟨n, rfl⟩ := Int.eq_ofNat_of_zero_le h
  rw [Int.one_shiftLeft]; simp

theorem MIN_eq_min {β : Type} [LinearOrder β] (a b : β) : MIN a b = min a b := by
  unfold MIN
  split_ifs with h
  · exact (min_eq_left h.le).symm
  · exact (min_eq_right (not_lt.1 h)).symm

theorem MAX_eq_max {β : Type} [LinearOrder β] (a b : β) : MAX a b = max a b := by
  unfold MAX
  split_ifs with h
  · exact (max_eq_left (le_of_lt h)).symm
  · exact (max_eq_right (not_lt.1 h)).symm

theorem c_abs_eq (x : Int) : c_abs x = |x| := by
  unfold c_abs
  split_ifs with h
  · exact (abs_of_neg h).symm
  · exact (abs_of_nonneg (not_lt.1 h)).symm


/-! ## Vertical pass -/

theorem row_col_div (r c w : Int) (h0 : 0 ≤ c) (h1 : c < w) :
    (r * w + c) / w = r ∧ (r * w + c) % w = c :=
  ediv_emod_of_decomp (by omega) (by ring) h0 h1

theorem vscale_eq (lev height : Int) (hlev : 0 ≤ lev) (hv : 2 ^ lev.toNat < height) :
    MIN ((1 : Int) <<< lev) height = 2 ^ lev.toNat := by
  rw [MIN_eq_min, one_shiftLeft_eq lev hlev, min_eq_left hv.le]

/-- Closed form of the vertical pass when the scale is smaller than the plane height: every
pixel of `out` is `2 * center + above + below` with the rows `|r - vscale|` and
`hat_right height vscale r`, whatever the order in which the rows are visited. -/
theorem dwt_denoise_vert_1ch_apply {α : Type} [LinearOrderedField α] (out in_ : Int → α)
    (height width lev : Int) (hlev : 0 ≤ lev) (hv : 2 ^ lev.toNat < height)
    (r c : Int) (hr0 : 0 ≤ r) (hr1 : r < height) (hc0 : 0 ≤ c) (hc1 : c < width) :
    (dwt_denoise_vert_1ch out in_ height width lev).out (r * width + c) =
      2 * in_ (r * width + c) + in_ (|r - 2 ^ lev.toNat| * width + c)
        + in_ (hat_right height (2 ^ lev.toNat) r * width + c) := by
  have hvs1 : (1 : Int) ≤ 2 ^ lev.toNat := one_le_pow₀ (by norm_num)
  have key : ∃ j, height ≤ j ∧ ∀ rowid c, 0 ≤ rowid → rowid < j → rowid < height →
      0 ≤ c → c < width →
      (dwt_denoise_vert_1ch out in_ height width lev).out
          (rowid_to_row rowid height (2 ^ lev.toNat) * width + c) =
        2 * in_ (rowid_to_row rowid height (2 ^ lev.toNat) * width + c)
          + in_ (|rowid_to_row rowid height (2 ^ lev.toNat) - 2 ^ lev.toNat| * width + c)
          + in_ (hat_right height (2 ^ lev.toNat)
              (rowid_to_row rowid height (2 ^ lev.toNat)) * width + c) := by
    unfold dwt_denoise_vert_1ch
    rw [vscale_eq lev height hlev hv]
    refine forLoop_induct 0 height _
      (fun j (res : VertResult α) => ∀ rowid c, 0 ≤ rowid → rowid < j → rowid < height →
        0 ≤ c → c < width →
        res.out (rowid_to_row rowid height (2 ^ lev.toNat) * width + c) =
          2 * in_ (rowid_to_row rowid height (2 ^ lev.toNat) * width + c)
            + in_ (|rowid_to_row rowid height (2 ^ lev.toNat) - 2 ^ lev.toNat| * width + c)
            + in_ (hat_right height (2 ^ lev.toNat)
                (rowid_to_row rowid height (2 ^ lev.toNat)) * width + c)) _
      (by intro rowid c h0 h1; omega) ?_
    intro i res hi0 hi1 hres rowid c h0 h1 h2 h3 h4
    simp only
    rw [forLoop_store]
    by_cases hin : 0 ≤ rowid_to_row rowid height (2 ^ lev.toNat) * width + c
        - rowid_to_row i height (2 ^ lev.toNat) * width ∧
        rowid_to_row rowid height (2 ^ lev.toNat) * width + c
        - rowid_to_row i height (2 ^ lev.toNat) * width < width
    · rw [if_pos hin]
      -- the two rows coincide
      have e := row_col_div (rowid_to_row i height (2 ^ lev.toNat))
        (rowid_to_row rowid height (2 ^ lev.toNat) * width + c
          - rowid_to_row i height (2 ^ lev.toNat) * width) width hin.1 hin.2
      have e' := row_col_div (rowid_to_row rowid height (2 ^ lev.toNat)) c width h3 h4
      have hsame : rowid_to_row i height (2 ^ lev.toNat) * width
          + (rowid_to_row rowid height (2 ^ lev.toNat) * width + c
            - rowid_to_row i height (2 ^ lev.toNat) * width)
          = rowid_to_row rowid height (2 ^ lev.toNat) * width + c := by ring
      rw [hsame] at e
      have hrow : rowid_to_row i height (2 ^ lev.toNat)
          = rowid_to_row rowid height (2 ^ lev.toNat) := by rw [← e.1, e'.1]
      rw [hrow, c_abs_eq, hat_right]
      have hc : rowid_to_row rowid height (2 ^ lev.toNat) * width + c
          - rowid_to_row rowid height (2 ^ lev.toNat) * width = c := by ring
      rw [hc]
    · rw [if_neg hin]
      by_cases hlt : rowid < i
      · exact hres rowid c h0 hlt h2 h3 h4
      · have : rowid = i := by omega
        subst this
        exact absurd ⟨by omega, by omega⟩ hin
  obtain ⟨j, hj, hP⟩ := key
  obtain ⟨rowid, h0, h1, hrow⟩ := rowid_to_row_surj height (2 ^ lev.toNat) hvs1 r hr0 hr1
  have := hP rowid c h0 (by omega) h1 hc0 hc1
  rw [hrow] at this
  exact this


/-! ## Constant planes -/

theorem PlaneConst_store {α : Type} (p : Int → α) (width height a : Int) (v : α)
    (h : PlaneConst p width height v) : PlaneConst (store p a v) width height v := by
  intro r c h0 h1 h2 h3
  by_cases hk : r * width + c = a
  · rw [← hk, store_same]
  · rw [store_other _ _ _ _ hk]; exact h r c h0 h1 h2 h3

theorem hat_right_bounds' (size scale i : Int) (hs : 1 ≤ scale) (h2 : scale < size)
    (h0 : 0 ≤ i) (h1 : i < size) :
    0 ≤ |i - scale| ∧ |i - scale| < size ∧
      0 ≤ hat_right size scale i ∧ hat_right size scale i < size := by
  refine ⟨abs_nonneg _, ?_, ?_, ?_⟩
  · rw [abs_lt]; constructor <;> omega
  · unfold hat_right; split_ifs <;> omega
  · unfold hat_right; split_ifs <;> omega

theorem soft_excess_zero {α : Type} [LinearOrderedField α] (thold : α) (h : 0 ≤ thold) :
    soft_excess 0 thold = 0 := by
  rw [soft_excess_eq 0 thold h, if_neg (by linarith), if_neg (by linarith)]

/-- The vertical pass maps a constant plane `s` to the constant plane `4 * s`. -/
theorem dwt_denoise_vert_1ch_const {α : Type} [LinearOrderedField α] (out in_ : Int → α)
    (height width lev : Int) (s : α) (hlev : 0 ≤ lev) (hv : 2 ^ lev.toNat < height)
    (hin : PlaneConst in_ width height s) :
    PlaneConst (dwt_denoise_vert_1ch out in_ height width lev).out width height (4 * s) := by
  intro r c h0 h1 h2 h3
  have hvs1 : (1 : Int) ≤ 2 ^ lev.toNat := one_le_pow₀ (by norm_num)
  obtain ⟨b0, b1, b2, b3⟩ := hat_right_bounds' height (2 ^ lev.toNat) r hvs1 hv h0 h1
  rw [dwt_denoise_vert_1ch_apply out in_ height width lev hlev hv r c h0 h1 h2 h3,
    hin r c h0 h1 h2 h3, hin _ c b0 b1 h2 h3, hin _ c b2 b3 h2 h3]
  ring

/-- One accumulator update on a pixel whose smoothed value equals its old value. -/
theorem horiz_pixel_const {α : Type} [LinearOrderedField α] (width height row col : Int)
    (s thold : α) (st : HorizState α) (ht : 0 ≤ thold)
    (hrow : 0 ≤ row ∧ row < height) (hcol : 0 ≤ col ∧ col < width)
    (hJ : PlaneConst st.details width height s ∧ PlaneConst st.accum width height 0 ∧
      LogZero st.log) :
    PlaneConst (horiz_pixel (row * width) row col s thold st).details width height s ∧
      PlaneConst (horiz_pixel (row * width) row col s thold st).accum width height 0 ∧
      LogZero (horiz_pixel (row * width) row col s thold st).log := by
  obtain ⟨hd, ha, hl⟩ := hJ
  have e1 : st.details (row * width + col) - s = 0 := by
    rw [hd row col hrow.1 hrow.2 hcol.1 hcol.2]; ring
  have e2 : st.accum (row * width + col) = 0 := ha row col hrow.1 hrow.2 hcol.1 hcol.2
  simp only [horiz_pixel, e1, e2, soft_excess_zero thold ht, add_zero]
  refine ⟨PlaneConst_store _ _ _ _ _ hd, PlaneConst_store _ _ _ _ _ ha, ?_⟩
  intro e he
  rcases List.mem_cons.1 he with rfl | he
  · exact ⟨rfl, rfl⟩
  · exact hl e he


/-- The horizontal pass on a constant plane: with `out` the constant `4 * s`, `in` the
constant `s` and a zero accumulator, every `diff` is 0, the accumulator stays 0 and `in`
stays the constant `s` (also on the last level). -/
theorem dwt_denoise_horiz_1ch_const {α : Type} [LinearOrderedField α]
    (out in_ accum : Int → α) (height width lev : Int) (thold : α) (last : Int) (s : α)
    (hlev : 0 ≤ lev) (hw : 2 * 2 ^ lev.toNat ≤ width) (ht : 0 ≤ thold)
    (hout : PlaneConst out width height (4 * s)) (hin : PlaneConst in_ width height s)
    (hacc : PlaneConst accum width height 0) :
    PlaneConst (dwt_denoise_horiz_1ch out in_ accum height width lev thold last).details
        width height s ∧
      PlaneConst (dwt_denoise_horiz_1ch out in_ accum height width lev thold last).accum
        width height 0 ∧
      LogZero (dwt_denoise_horiz_1ch out in_ accum height width lev thold last).log := by
  have hvs1 : (1 : Int) ≤ 2 ^ lev.toNat := one_le_pow₀ (by norm_num)
  have hsc : MIN ((1 : Int) <<< lev) width = 2 ^ lev.toNat := by
    rw [MIN_eq_min, one_shiftLeft_eq lev hlev, min_eq_left (by omega)]
  unfold dwt_denoise_horiz_1ch
  rw [hsc]
  refine forLoop_preserves 0 height _
    (fun st : HorizState α => PlaneConst st.details width height s ∧
      PlaneConst st.accum width height 0 ∧ LogZero st.log) _
    ⟨hin, hacc, by intro e he; simp at he⟩ ?_
  intro row st hr0 hr1 hJ
  simp only
  have h1 := forLoop_preserves 0 (2 ^ lev.toNat)
    (fun col (s' : HorizState α) =>
      horiz_pixel (row * width) row col
        ((2 * out (row * width + col) + out (row * width + (2 ^ lev.toNat - col))
          + out (row * width + (col + 2 ^ lev.toNat))) / 16) thold s')
    (fun st : HorizState α => PlaneConst st.details width height s ∧
      PlaneConst st.accum width height 0 ∧ LogZero st.log) st hJ
    (by
      intro col s' hc0 hc1 hJ'
      have hhat : (2 * out (row * width + col) + out (row * width + (2 ^ lev.toNat - col))
          + out (row * width + (col + 2 ^ lev.toNat))) / 16 = s := by
        rw [hout row col hr0 hr1 hc0 (by omega),
          hout row (2 ^ lev.toNat - col) hr0 hr1 (by omega) (by omega),
          hout row (col + 2 ^ lev.toNat) hr0 hr1 (by omega) (by omega)]
        ring
      simp only [hhat]
      exact horiz_pixel_const width height row col s thold s' ht ⟨hr0, hr1⟩
        ⟨hc0, by omega⟩ hJ')
  have h2 := forLoop_preserves (2 ^ lev.toNat) (width - 2 ^ lev.toNat)
    (fun col (s' : HorizState α) =>
      horiz_pixel (row * width) row col
        ((2 * out (row * width + col) + out (row * width + (col - 2 ^ lev.toNat))
          + out (row * width + (col + 2 ^ lev.toNat))) / 16) thold s')
    (fun st : HorizState α => PlaneConst st.details width height s ∧
      PlaneConst st.accum width height 0 ∧ LogZero st.log) _ h1
    (by
      intro col s' hc0 hc1 hJ'
      have hhat : (2 * out (row * width + col) + out (row * width + (col - 2 ^ lev.toNat))
          + out (row * width + (col + 2 ^ lev.toNat))) / 16 = s := by
        rw [hout row col hr0 hr1 (by omega) (by omega),
          hout row (col - 2 ^ lev.toNat) hr0 hr1 (by omega) (by omega),
          hout row (col + 2 ^ lev.toNat) hr0 hr1 (by omega) (by omega)]
        ring
      simp only [hhat]
      exact horiz_pixel_const width height row col s thold s' ht ⟨hr0, hr1⟩
        ⟨by omega, by omega⟩ hJ')
  have h3 := forLoop_preserves (width - 2 ^ lev.toNat) width
    (fun col (s' : HorizState α) =>
      horiz_pixel (row * width) row col
        ((2 * out (row * width + col) + out (row * width + (col - 2 ^ lev.toNat))
          + out (row * width + (2 * width - 2 - (col + 2 ^ lev.toNat)))) / 16) thold s')
    (fun st : HorizState α => PlaneConst st.details width height s ∧
      PlaneConst st.accum width height 0 ∧ LogZero st.log) _ h2
    (by
      intro col s' hc0 hc1 hJ'
      have hhat : (2 * out (row * width + col) + out (row * width + (col - 2 ^ lev.toNat))
          + out (row * width + (2 * width - 2 - (col + 2 ^ lev.toNat)))) / 16 = s := by
        rw [hout row col hr0 hr1 (by omega) (by omega),
          hout row (col - 2 ^ lev.toNat) hr0 hr1 (by omega) (by omega),
          hout row (2 * width - 2 - (col + 2 ^ lev.toNat)) hr0 hr1 (by omega) (by omega)]
        ring
      simp only [hhat]
      exact horiz_pixel_const width height row col s thold s' ht ⟨hr0, hr1⟩
        ⟨by omega, by omega⟩ hJ')
  split_ifs with hlast
  · refine forLoop_preserves 0 width _
      (fun st : HorizState α => PlaneConst st.details width height s ∧
        PlaneConst st.accum width height 0 ∧ LogZero st.log) _ h3 ?_
    intro col s' hc0 hc1 hJ'
    obtain ⟨hd, ha, hl⟩ := hJ'
    have e : s'.details (row * width + col) + s'.accum (row * width + col) = s := by
      rw [hd row col hr0 hr1 hc0 hc1, ha row col hr0 hr1 hc0 hc1, add_zero]
    simp only [e]
    exact ⟨PlaneConst_store _ _ _ _ _ hd, ha, hl⟩
  · exact h3


theorem pow_lev_le (lev : Int) (h0 : 0 ≤ lev) (h1 : lev < 5) : (2 : Int) ^ lev.toNat ≤ 16 := by
  have hi : lev = 0 ∨ lev = 1 ∨ lev = 2 ∨ lev = 3 ∨ lev = 4 := by omega
  rcases hi with rfl | rfl | rfl | rfl | rfl <;> decide

theorem memset0_planeConst {α : Type} [Zero α] (p : Int → α) (width height : Int) :
    PlaneConst (memset0 p (width * height)) width height 0 := by
  intro r c h0 h1 h2 h3
  unfold memset0
  rw [if_pos]
  have hw : 0 ≤ width := by omega
  constructor
  · have := mul_nonneg h0 hw
    linarith
  · have : (r + 1) * width ≤ height * width := mul_le_mul_of_nonneg_right (by omega) hw
    nlinarith

/-- The Bayer decomposition of a constant plane at least 32 wide and 17 high with
non-negative band thresholds: the plane is returned unchanged, the accumulator stays 0 and
every `diff` of every level is 0. -/
theorem dwt_denoise_const {α : Type} [LinearOrderedField α] (img : Int → α)
    (width height : Int) (noise uninit : Int → α) (s : α) (hw : 32 ≤ width)
    (hh : 17 ≤ height) (hn : ∀ l, 0 ≤ l → l < 5 → 0 ≤ noise l)
    (himg : PlaneConst img width height s) :
    PlaneConst (dwt_denoise img width height DT_IOP_RAWDENOISE_BANDS noise uninit).img
        width height s ∧
      PlaneConst (dwt_denoise img width height DT_IOP_RAWDENOISE_BANDS noise uninit).details
        width height 0 ∧
      ∀ log ∈ (dwt_denoise img width height DT_IOP_RAWDENOISE_BANDS noise uninit).logs,
        LogZero log := by
  unfold dwt_denoise DT_IOP_RAWDENOISE_BANDS
  refine forLoop_preserves 0 5 _
    (fun st : DwtState α => PlaneConst st.img width height s ∧
      PlaneConst st.details width height 0 ∧ ∀ log ∈ st.logs, LogZero log) _
    ⟨himg, memset0_planeConst uninit width height, by intro l hl; simp at hl⟩ ?_
  intro lev st h0 h1 hK
  obtain ⟨hi, hd, hl⟩ := hK
  have hp := pow_lev_le lev h0 h1
  have hv := dwt_denoise_vert_1ch_const st.interm st.img height width lev s h0 (by omega) hi
  have hh' := dwt_denoise_horiz_1ch_const
    (dwt_denoise_vert_1ch st.interm st.img height width lev).out st.img st.details height
    width lev (noise lev) (if lev + 1 = 5 then 1 else 0) s h0 (by omega) (hn lev h0 h1) hv hi hd
  refine ⟨hh'.1, hh'.2.1, ?_⟩
  intro log hlog
  simp only [List.mem_append, List.mem_singleton] at hlog
  rcases hlog with hlog | rfl
  · exact hl log hlog
  · exact hh'.2.2


/-! ## Bayer planes -/

theorem land_negSucc_land_one (m k : Nat) :
    Int.land (Int.land (m : Int) (Int.negSucc k)) 1 = if k % 2 = 0 then (m : Int) % 2 else 0 := by
  have e1 : Int.land (Int.land (m : Int) (Int.negSucc k)) 1
      = ((Nat.ldiff m k &&& 1 : Nat) : Int) := rfl
  rw [e1, Nat.and_one_is_mod]
  have h := Nat.testBit_ldiff m k 0
  simp only [Nat.testBit_zero] at h
  split_ifs with hk
  · have : (Nat.ldiff m k % 2 = 1) ↔ (m % 2 = 1) := by
      have hk' : ¬ (k % 2 = 1) := by omega
      simpa [hk'] using h
    omega
  · have hk' : k % 2 = 1 := by omega
    have : ¬ (Nat.ldiff m k % 2 = 1) := by simpa [hk'] using h
    omega

theorem bayer_halfwidth (w c : Int) (hw : 0 ≤ w) (hc0 : 0 ≤ c) (hc1 : c < 4) :
    Int.tdiv w 2 + Int.land (Int.land w (~~~(c >>> (1 : Nat)))) 1 = (w - c / 2 + 1) / 2 := by
  obtain ⟨m, rfl⟩ := Int.eq_ofNat_of_zero_le hw
  rw [Int.tdiv_eq_ediv (by omega) (by omega)]
  have hi : c = 0 ∨ c = 1 ∨ c = 2 ∨ c = 3 := by omega
  rcases hi with rfl | rfl | rfl | rfl
  · rw [show ~~~((0 : Int) >>> (1 : Nat)) = Int.negSucc 0 from rfl, land_negSucc_land_one]
    simp only [Nat.zero_mod, if_true]; omega
  · rw [show ~~~((1 : Int) >>> (1 : Nat)) = Int.negSucc 0 from rfl, land_negSucc_land_one]
    simp only [Nat.zero_mod, if_true]; omega
  · rw [show ~~~((2 : Int) >>> (1 : Nat)) = Int.negSucc 1 from rfl, land_negSucc_land_one]
    simp only [Nat.one_mod, one_ne_zero, if_false]; omega
  · rw [show ~~~((3 : Int) >>> (1 : Nat)) = Int.negSucc 1 from rfl, land_negSucc_land_one]
    simp only [Nat.one_mod, one_ne_zero, if_false]; omega

theorem bayer_halfheight (h c : Int) (hh : 0 ≤ h) (hc0 : 0 ≤ c) (hc1 : c < 4) :
    Int.tdiv h 2 + Int.land (Int.land h (~~~c)) 1 = (h - c % 2 + 1) / 2 := by
  obtain ⟨m, rfl⟩ := Int.eq_ofNat_of_zero_le hh
  rw [Int.tdiv_eq_ediv (by omega) (by omega)]
  have hi : c = 0 ∨ c = 1 ∨ c = 2 ∨ c = 3 := by omega
  rcases hi with rfl | rfl | rfl | rfl
  · rw [show ~~~(0 : Int) = Int.negSucc 0 from rfl, land_negSucc_land_one]
    simp only [Nat.zero_mod, if_true]; omega
  · rw [show ~~~(1 : Int) = Int.negSucc 1 from rfl, land_negSucc_land_one]
    simp only [Nat.one_mod, one_ne_zero, if_false]; omega
  · rw [show ~~~(2 : Int) = Int.negSucc 2 from rfl, land_negSucc_land_one]
    simp only [Nat.mod_self, if_true]; omega
  · rw [show ~~~(3 : Int) = Int.negSucc 3 from rfl, land_negSucc_land_one]
    norm_num

theorem bayer_row_parity (c : Int) (hc0 : 0 ≤ c) (hc1 : c < 4) : Int.land c 1 = c % 2 := by
  have hi : c = 0 ∨ c = 1 ∨ c = 2 ∨ c = 3 := by omega
  rcases hi with rfl | rfl | rfl | rfl <;> rfl

theorem bayer_offset (c : Int) (hc0 : 0 ≤ c) (hc1 : c < 4) :
    (Int.land c 2) >>> (1 : Nat) = c / 2 := by
  have hi : c = 0 ∨ c = 1 ∨ c = 2 ∨ c = 3 := by omega
  rcases hi with rfl | rfl | rfl | rfl <;> rfl


/-- A loop all of whose stores write the value `v`: entries equal to `v` stay so and every
address stored to holds `v`. -/
theorem forLoop_store_const {β : Type} (lo hi : Int) (addr : Int → Int) (val : Int → β)
    (v : β) (p : Int → β) (hval : ∀ col, lo ≤ col → col < hi → val col = v) :
    (∀ a, p a = v → forLoop lo hi (fun col q => store q (addr col) (val col)) p a = v) ∧
    (∀ col, lo ≤ col → col < hi →
      forLoop lo hi (fun col q => store q (addr col) (val col)) p (addr col) = v) := by
  obtain ⟨j, hj, hP⟩ := forLoop_induct lo hi (fun col q => store q (addr col) (val col))
    (fun j q => (∀ a, p a = v → q a = v) ∧
      ∀ col, lo ≤ col → col < j → col < hi → q (addr col) = v) p
    ⟨fun _ h => h, by intro col h0 h1; omega⟩
    (by
      intro i q h0 h1 ⟨hm, hc⟩
      beta_reduce
      have hst : ∀ a, q a = v → store q (addr i) (val i) a = v := by
        intro a ha
        by_cases hk : a = addr i
        · rw [hk, store_same, hval i h0 h1]
        · rw [store_other _ _ _ _ hk, ha]
      refine ⟨fun a ha => hst a (hm a ha), ?_⟩
      intro col c0 c1 c2
      by_cases hci : col = i
      · rw [hci, store_same, hval i h0 h1]
      · exact hst _ (hc col c0 (by omega) c2))
  exact ⟨hP.1, fun col c0 c1 => hP.2 col c0 (by omega) c1⟩

/-- Collecting one plane of a constant mosaic gives a constant plane. -/
theorem bayer_collect_const {α : Type} [LinearOrderedField α] (sqrtf : α → α)
    (in_ fimg : Int → α) (w h p0 off hw : Int) (v : α) (hw0 : 0 ≤ w)
    (hp0 : p0 = 0 ∨ p0 = 1) (hoff : off = 0 ∨ off = 1) (hhw : hw = (w - off + 1) / 2)
    (hin : PlaneConst in_ w h v) :
    PlaneConst
      (forLoop2 p0 h (fun row fimg =>
        forLoop 0 (Int.tdiv (w - off + 1) 2) (fun col fimg =>
          store fimg (Int.tdiv row 2 * hw + col)
            (sqrtf (MAX 0 (in_ (row * w + off + 2 * col))))) fimg) fimg)
      hw ((h - p0 + 1) / 2) (sqrtf (MAX 0 v)) := by
  have hsw : Int.tdiv (w - off + 1) 2 = hw := by
    rw [Int.tdiv_eq_ediv (by omega) (by omega), hhw]
  rw [hsw]
  obtain ⟨j, hj, hpar, hP⟩ := forLoop2_induct p0 h
    (fun row fimg =>
        forLoop 0 hw (fun col fimg =>
          store fimg (Int.tdiv row 2 * hw + col)
            (sqrtf (MAX 0 (in_ (row * w + off + 2 * col))))) fimg)
    (fun j (q : Int → α) => (j - p0) % 2 = 0 ∧
      ∀ row col, p0 ≤ row → row < j → row < h → (row - p0) % 2 = 0 → 0 ≤ col → col < hw →
        q (Int.tdiv row 2 * hw + col) = sqrtf (MAX 0 v)) fimg
    ⟨by simp, by intro row col h0 h1; omega⟩
    (by
      intro i q h0 h1 ⟨hpar, hq⟩
      beta_reduce
      obtain ⟨hm, hc⟩ := forLoop_store_const 0 hw (fun col => Int.tdiv i 2 * hw + col)
        (fun col => sqrtf (MAX 0 (in_ (i * w + off + 2 * col)))) (sqrtf (MAX 0 v)) q
        (by
          intro col c0 c1
          beta_reduce
          have e : i * w + off + 2 * col = i * w + (off + 2 * col) := by ring
          rw [e, hin i (off + 2 * col) (by omega) h1 (by omega) (by omega)])
      refine ⟨by omega, ?_⟩
      intro row col r0 r1 r2 r3 c0 c1
      by_cases hri : row = i
      · rw [hri]; exact hc col c0 c1
      · exact hm _ (hq row col r0 (by omega) r2 r3 c0 c1))
  intro r c r0 r1 c0 c1
  have := hP (2 * r + p0) c (by omega) (by omega) (by omega) (by omega) c0 c1
  rwa [Int.tdiv_eq_ediv (by omega) (by omega),
    show (2 * r + p0) / 2 = r by omega] at this

/-- Writing back the square of a constant plane stores `s * s` at every mosaic position of
that plane and leaves entries equal to `s * s` unchanged. -/
theorem bayer_distribute_const {α : Type} [LinearOrderedField α]
    (fimg out : Int → α) (w h p0 off hw : Int) (s : α) (hw0 : 0 ≤ w)
    (hp0 : p0 = 0 ∨ p0 = 1) (hoff : off = 0 ∨ off = 1) (hhw : hw = (w - off + 1) / 2)
    (hfimg : PlaneConst fimg hw ((h - p0 + 1) / 2) s) :
    (∀ a, out a = s * s →
      forLoop2 p0 h (fun row out =>
        forLoop 0 (Int.tdiv (w - off + 1) 2) (fun col out =>
          store out (row * w + off + 2 * col)
            (fimg (Int.tdiv row 2 * hw + col) * fimg (Int.tdiv row 2 * hw + col))) out) out a
        = s * s) ∧
    (∀ r q, 0 ≤ r → r < h → 0 ≤ q → q < w → r % 2 = p0 → q % 2 = off →
      forLoop2 p0 h (fun row out =>
        forLoop 0 (Int.tdiv (w - off + 1) 2) (fun col out =>
          store out (row * w + off + 2 * col)
            (fimg (Int.tdiv row 2 * hw + col) * fimg (Int.tdiv row 2 * hw + col))) out) out
          (r * w + q) = s * s) := by
  have hsw : Int.tdiv (w - off + 1) 2 = hw := by
    rw [Int.tdiv_eq_ediv (by omega) (by omega), hhw]
  rw [hsw]
  obtain ⟨j, hj, hpar, hm, hP⟩ := forLoop2_induct p0 h
    (fun row out =>
        forLoop 0 hw (fun col out =>
          store out (row * w + off + 2 * col)
            (fimg (Int.tdiv row 2 * hw + col) * fimg (Int.tdiv row 2 * hw + col))) out)
    (fun j (o : Int → α) => (j - p0) % 2 = 0 ∧ (∀ a, out a = s * s → o a = s * s) ∧
      ∀ row col, p0 ≤ row → row < j → row < h → (row - p0) % 2 = 0 → 0 ≤ col → col < hw →
        o (row * w + off + 2 * col) = s * s) out
    ⟨by simp, fun _ ha => ha, by intro row col h0 h1; omega⟩
    (by
      intro i o h0 h1 ⟨hpar, hmo, ho⟩
      beta_reduce
      obtain ⟨hm, hc⟩ := forLoop_store_const 0 hw (fun col => i * w + off + 2 * col)
        (fun col => fimg (Int.tdiv i 2 * hw + col) * fimg (Int.tdiv i 2 * hw + col))
        (s * s) o
        (by
          intro col c0 c1
          beta_reduce
          rw [Int.tdiv_eq_ediv (by omega) (by omega),
            hfimg (i / 2) col (by omega) (by omega) c0 c1])
      refine ⟨by omega, fun a ha => hm a (hmo a ha), ?_⟩
      intro row col r0 r1 r2 r3 c0 c1
      by_cases hri : row = i
      · rw [hri]; exact hc col c0 c1
      · exact hm _ (ho row col r0 (by omega) r2 r3 c0 c1))
  refine ⟨hm, ?_⟩
  intro r q r0 r1 q0 q1 hr hq
  have := hP r (q / 2) (by omega) (by omega) r1 (by omega) (by omega) (by omega)
  have e : r * w + off + 2 * (q / 2) = r * w + q := by omega
  rwa [e] at this


theorem noise_all_init_nonneg {α : Type} [LinearOrderedField α] (i : Int) :
    (0 : α) ≤ noise_all_init i := by
  unfold noise_all_init
  rcases h : i.toNat with _ | _ | _ | _ | _ | _ | _ | _ | n <;> simp [List.getD] <;> norm_num

/-- The band thresholds of the Bayer path are non-negative when the threshold is. -/
theorem compute_channel_noise_nonneg {α : Type} [LinearOrderedField α] (noise : Int → α)
    (color : Int) (data : dt_iop_rawdenoise_data_t α) (ht : 0 ≤ data.threshold) (i : Int)
    (h0 : 0 ≤ i) (h1 : i < 5) : 0 ≤ compute_channel_noise noise color data i := by
  rw [compute_channel_noise_apply noise color data i h0 h1]
  have := noise_all_init_nonneg (α := α) i
  positivity

/-- One iteration of the plane loop of `wavelet_denoise` on a constant mosaic. -/
theorem wavelet_denoise_plane_const {α : Type} [LinearOrderedField α] (sqrtf : α → α)
    (FC : Int → Int → Nat → Int) (in_ : Int → α) (roi : dt_iop_roi_t)
    (data : dt_iop_rawdenoise_data_t α) (filters : Nat) (uninit : Int → α) (c : Int)
    (st : (Int → α) × (Int → α)) (v : α) (hc0 : 0 ≤ c) (hc1 : c < 4)
    (hw : 32 ≤ roi.width / 2) (hh : 32 ≤ roi.height / 2) (ht : 0 ≤ data.threshold)
    (hin : PlaneConst in_ roi.width roi.height v) :
    (∀ a, st.2 a = sqrtf (MAX 0 v) * sqrtf (MAX 0 v) →
      (wavelet_denoise_plane sqrtf FC in_ roi data filters uninit c st).2 a
        = sqrtf (MAX 0 v) * sqrtf (MAX 0 v)) ∧
    (∀ r q, 0 ≤ r → r < roi.height → 0 ≤ q → q < roi.width → r % 2 = c % 2 → q % 2 = c / 2 →
      (wavelet_denoise_plane sqrtf FC in_ roi data filters uninit c st).2 (r * roi.width + q)
        = sqrtf (MAX 0 v) * sqrtf (MAX 0 v)) := by
  have hw0 : 0 ≤ roi.width := by omega
  have hh0 : 0 ≤ roi.height := by omega
  have hp0 : c % 2 = 0 ∨ c % 2 = 1 := by omega
  have hoff : c / 2 = 0 ∨ c / 2 = 1 := by omega
  unfold wavelet_denoise_plane
  simp only
  rw [bayer_row_parity c hc0 hc1, bayer_offset c hc0 hc1, bayer_halfwidth roi.width c hw0 hc0 hc1,
    bayer_halfheight roi.height c hh0 hc0 hc1]
  have h1 := bayer_collect_const sqrtf in_ st.1 roi.width roi.height (c % 2) (c / 2)
    ((roi.width - c / 2 + 1) / 2) v hw0 hp0 hoff rfl hin
  have h2 := (dwt_denoise_const _ ((roi.width - c / 2 + 1) / 2) ((roi.height - c % 2 + 1) / 2)
    (compute_channel_noise uninit (FC (Int.tmod c 2) (Int.tdiv c 2) filters) data) uninit
    (sqrtf (MAX 0 v)) (by omega) (by omega)
    (fun l l0 l1 => compute_channel_noise_nonneg _ _ _ ht l l0 l1) h1).1
  exact bayer_distribute_const _ st.2 roi.width roi.height (c % 2) (c / 2)
    ((roi.width - c / 2 + 1) / 2) (sqrtf (MAX 0 v)) hw0 hp0 hoff rfl h2

/-- The Bayer path on a constant mosaic, for any `sqrtf` with
`sqrtf (MAX 0 v) * sqrtf (MAX 0 v) = v`. -/
theorem wavelet_denoise_const {α : Type} [LinearOrderedField α] (sqrtf : α → α)
    (FC : Int → Int → Nat → Int) (in_ out : Int → α) (roi : dt_iop_roi_t)
    (data : dt_iop_rawdenoise_data_t α) (filters : Nat) (uninit : Int → α) (v : α)
    (hsq : sqrtf (MAX 0 v) * sqrtf (MAX 0 v) = v)
    (hw : 32 ≤ roi.width / 2) (hh : 32 ≤ roi.height / 2) (ht : 0 ≤ data.threshold)
    (hin : PlaneConst in_ roi.width roi.height v) :
    PlaneConst (wavelet_denoise sqrtf FC in_ out roi data filters uninit)
      roi.width roi.height v := by
  unfold wavelet_denoise
  obtain ⟨j, hj, hP⟩ := forLoop_induct 0 4
    (wavelet_denoise_plane sqrtf FC in_ roi data filters uninit)
    (fun j (st : (Int → α) × (Int → α)) => ∀ r q, 0 ≤ r → r < roi.height → 0 ≤ q →
      q < roi.width → r % 2 + 2 * (q % 2) < j → st.2 (r * roi.width + q) = v) (uninit, out)
    (by intro r q r0 r1 q0 q1 hlt; omega)
    (by
      intro c st hc0 hc1 hst r q r0 r1 q0 q1 hlt
      obtain ⟨hm, hcov⟩ := wavelet_denoise_plane_const sqrtf FC in_ roi data filters uninit c
        st v hc0 hc1 hw hh ht hin
      rw [hsq] at hm hcov
      by_cases hcl : r % 2 + 2 * (q % 2) < c
      · exact hm _ (hst r q r0 r1 q0 q1 hcl)
      · exact hcov r q r0 r1 q0 q1 (by omega) (by omega))
  intro r q r0 r1 q0 q1
  exact hP r q r0 r1 q0 q1 (by omega)


/-- C8. Flat-image invariance of the Bayer path: for a mosaic all of whose samples equal
`v ≥ 0`, whose four half-resolution planes are at least 32 wide and 32 high, and a
non-negative threshold (in particular threshold 1 with every multiplier 1), `wavelet_denoise`
with the real square root returns `v` at every sample.  Inside, `dwt_denoise` on a constant
plane with any non-negative band thresholds returns the plane unchanged, keeps the residue
accumulator at 0, and every `diff` of every level is 0 (so nothing is added). -/
theorem flat_image_invariance (FC : Int → Int → Nat → Int) (in_ out : Int → ℝ)
    (roi : dt_iop_roi_t) (data : dt_iop_rawdenoise_data_t ℝ) (filters : Nat)
    (uninit : Int → ℝ) (v : ℝ) (hv : 0 ≤ v) (hw : 32 ≤ roi.width / 2)
    (hh : 32 ≤ roi.height / 2) (ht : 0 ≤ data.threshold)
    (hin : ∀ r q, 0 ≤ r → r < roi.height → 0 ≤ q → q < roi.width →
      in_ (r * roi.width + q) = v) :
    (∀ r q, 0 ≤ r → r < roi.height → 0 ≤ q → q < roi.width →
      wavelet_denoise Real.sqrt FC in_ out roi data filters uninit (r * roi.width + q) = v) ∧
    (∀ (img noise scratch : Int → ℝ) (width height : Int) (s : ℝ), 32 ≤ width → 32 ≤ height →
      (∀ l, 0 ≤ l → l < 5 → 0 ≤ noise l) →
      (∀ r c, 0 ≤ r → r < height → 0 ≤ c → c < width → img (r * width + c) = s) →
      (∀ r c, 0 ≤ r → r < height → 0 ≤ c → c < width →
        (dwt_denoise img width height DT_IOP_RAWDENOISE_BANDS noise scratch).img
            (r * width + c) = s ∧
        (dwt_denoise img width height DT_IOP_RAWDENOISE_BANDS noise scratch).details
            (r * width + c) = 0) ∧
      ∀ log ∈ (dwt_denoise img width height DT_IOP_RAWDENOISE_BANDS noise scratch).logs,
        ∀ e ∈ log, e.diff = 0 ∧ e.excess = 0) := by
  constructor
  · have hsq : Real.sqrt (MAX 0 v) * Real.sqrt (MAX 0 v) = v := by
      rw [MAX_eq_max, max_eq_right hv, Real.mul_self_sqrt hv]
    exact wavelet_denoise_const Real.sqrt FC in_ out roi data filters uninit v hsq hw hh ht hin
  · intro img noise scratch width height s hw' hh' hn himg
    obtain ⟨h1, h2, h3⟩ := dwt_denoise_const img width height noise scratch s hw'
      (by omega) hn himg
    exact ⟨fun r c r0 r1 c0 c1 => ⟨h1 r c r0 r1 c0 c1, h2 r c r0 r1 c0 c1⟩, h3⟩

/-- A 64 x 64 mosaic of constant value 4 at threshold 1 with every multiplier 1: the sample
in row 5, column 7 of the output is 4. -/
theorem flat_image_invariance_witness :
    (0 : ℝ) ≤ 4 ∧ (32 : Int) ≤ 64 / 2 ∧
    wavelet_denoise Real.sqrt (fun _ _ _ => 0) (fun _ => (4 : ℝ)) (fun _ => 0)
      { x := 0, y := 0, width := 64, height := 64 }
      { threshold := 1, force := fun _ _ => 1 } 2492765332 (fun _ => 0) (5 * 64 + 7) = 4 :=
  ⟨by norm_num, by decide,
    (flat_image_invariance (fun _ _ _ => 0) (fun _ => (4 : ℝ)) (fun _ => 0)
      { x := 0, y := 0, width := 64, height := 64 }
      { threshold := 1, force := fun _ _ => 1 } 2492765332 (fun _ => 0) 4 (by norm_num)
      (by decide) (by decide) (by norm_num) (fun _ _ _ _ _ _ => rfl)).1 5 7 (by decide)
      (by decide) (by decide) (by decide)⟩

/-! ## Two runs with different thresholds -/

theorem forStep_one_rel {σ τ : Type} (hi : Int) (body : Int → σ → σ) (body' : Int → τ → τ)
    (R : Int → σ → τ → Prop)
    (hstep : ∀ i s t, i < hi → R i s t → R (i + 1) (body i s) (body' i t)) :
    ∀ (n : Nat) (i : Int) (s : σ) (t : τ), hi - i ≤ n → R i s t →
      R (max i hi) (forStep hi 1 body n i s) (forStep hi 1 body' n i t) := by
  intro n
  induction n with
  | zero =>
    intro i s t hn hR
    have : hi ≤ i := by simpa using hn
    simpa [forStep, max_eq_left this] using hR
  | succ n ih =>
    intro i s t hn hR
    by_cases hlt : i < hi
    · simp only [forStep, if_pos hlt]
      have := ih (i + 1) (body i s) (body' i t) (by push_cast at hn; omega) (hstep i s t hlt hR)
      have e1 : max (i + 1) hi = hi := max_eq_right (by omega)
      have e2 : max i hi = hi := max_eq_right hlt.le
      rw [e2]
      rw [e1] at this
      exact this
    · simp only [forStep, if_neg hlt]
      rwa [max_eq_left (not_lt.1 hlt)]

/-- Relational invariant rule for two runs of `for(i = lo; i < hi; i++)`. -/
theorem forLoop_rel {σ τ : Type} (lo hi : Int) (body : Int → σ → σ) (body' : Int → τ → τ)
    (R : Int → σ → τ → Prop) (s : σ) (t : τ) (h0 : R lo s t)
    (hstep : ∀ i s t, lo ≤ i → i < hi → R i s t → R (i + 1) (body i s) (body' i t)) :
    R (max lo hi) (forLoop lo hi body s) (forLoop lo hi body' t) := by
  have := forStep_one_rel hi body body' (fun i s t => lo ≤ i ∧ R i s t)
    (fun i s t hlt h => ⟨by omega, hstep i s t h.1 hlt h.2⟩) (hi - lo).toNat lo s t
    (by omega) ⟨le_rfl, h0⟩
  exact this.2

/-- Relational invariant rule when the relation does not mention the counter. -/
theorem forLoop_rel_preserves {σ τ : Type} (lo hi : Int) (body : Int → σ → σ)
    (body' : Int → τ → τ) (R : σ → τ → Prop) (s : σ) (t : τ) (h0 : R s t)
    (hstep : ∀ i s t, lo ≤ i → i < hi → R s t → R (body i s) (body' i t)) :
    R (forLoop lo hi body s) (forLoop lo hi body' t) :=
  forLoop_rel lo hi body body' (fun _ s t => R s t) s t h0 hstep

theorem abs_le_abs_of_same_side {α : Type} [LinearOrderedField α] (x y : α)
    (h : (0 ≤ x ∧ x ≤ y) ∨ (y ≤ x ∧ x ≤ 0)) : |x| ≤ |y| := by
  rcases h with ⟨h0, h1⟩ | ⟨h0, h1⟩
  · rw [abs_of_nonneg h0, abs_of_nonneg (h0.trans h1)]; exact h1
  · rw [abs_of_nonpos h1, abs_of_nonpos (h0.trans h1)]; linarith

theorem soft_excess_abs_le {α : Type} [LinearOrderedField α] (d T : α) (h0 : 0 ≤ T) :
    |soft_excess d T| ≤ |d| := by
  rw [soft_excess_eq d T h0]
  by_cases c1 : T < d
  · rw [if_pos c1]
    exact abs_le_abs_of_same_side _ _ (Or.inl ⟨by linarith, by linarith⟩)
  · rw [if_neg c1]
    by_cases c2 : d < -T
    · rw [if_pos c2]
      exact abs_le_abs_of_same_side _ _ (Or.inr ⟨by linarith, by linarith⟩)
    · rw [if_neg c2, abs_zero]; exact abs_nonneg _

/-- A larger threshold retains less: `|soft(d, T')| ≤ |soft(d, T)| ≤ |d|` for
`0 ≤ T ≤ T'`. -/
theorem soft_excess_shrinks {α : Type} [LinearOrderedField α] (d T T' : α) (h0 : 0 ≤ T)
    (h1 : T ≤ T') :
    |soft_excess d T'| ≤ |soft_excess d T| ∧ |soft_excess d T| ≤ |d| := by
  refine ⟨?_, soft_excess_abs_le d T h0⟩
  rw [soft_excess_eq d T h0, soft_excess_eq d T' (h0.trans h1)]
  by_cases c1 : T' < d
  · rw [if_pos c1, if_pos (by linarith)]
    exact abs_le_abs_of_same_side _ _ (Or.inl ⟨by linarith, by linarith⟩)
  · rw [if_neg c1]
    by_cases c2 : d < -T'
    · rw [if_pos c2, if_neg (by linarith), if_pos (by linarith)]
      exact abs_le_abs_of_same_side _ _ (Or.inr ⟨by linarith, by linarith⟩)
    · rw [if_neg c2, abs_zero]; exact abs_nonneg _


theorem horiz_pixel_sim {α : Type} [LinearOrderedField α] (last lo rowindex row col : Int)
    (hat T T' : α) (s s' : HorizState α) (h0 : 0 ≤ T) (h1 : T ≤ T')
    (hk : last = 0 ∨ lo ≤ rowindex + col) (hS : HorizSim last lo s s') :
    HorizSim last lo (horiz_pixel rowindex row col hat T s)
      (horiz_pixel rowindex row col hat T' s') := by
  obtain ⟨hd, hl⟩ := hS
  have e := hd (rowindex + col) hk
  refine ⟨?_, ?_⟩
  · intro k hk'
    simp only [horiz_pixel]
    by_cases hki : k = rowindex + col
    · rw [hki, store_same, store_same]
    · rw [store_other _ _ _ _ hki, store_other _ _ _ _ hki]; exact hd k hk'
  · simp only [horiz_pixel]
    refine List.Forall₂.cons ⟨rfl, rfl, rfl, by simp only [e], ?_, ?_⟩ hl
    · rw [e]; exact (soft_excess_shrinks _ T T' h0 h1).1
    · exact (soft_excess_shrinks _ T T' h0 h1).2

/-- Two runs of the horizontal pass on the same planes with thresholds `0 ≤ T ≤ T'`: the
accumulator updates correspond pairwise with the same `hat` and `diff` and shrinking retained
detail, and on a level that is not the last the resulting coarse planes are equal. -/
theorem dwt_denoise_horiz_1ch_sim {α : Type} [LinearOrderedField α]
    (out in_ accum accum' : Int → α) (height width lev : Int) (T T' : α) (last : Int)
    (hw : 0 ≤ width) (hlev : 0 ≤ lev) (h0 : 0 ≤ T) (h1 : T ≤ T') :
    List.Forall₂ UpdateShrinks
        (dwt_denoise_horiz_1ch out in_ accum height width lev T last).log
        (dwt_denoise_horiz_1ch out in_ accum' height width lev T' last).log ∧
      (last = 0 →
        (dwt_denoise_horiz_1ch out in_ accum height width lev T last).details =
          (dwt_denoise_horiz_1ch out in_ accum' height width lev T' last).details) := by
  have key : HorizSim last (max 0 height * width)
      (dwt_denoise_horiz_1ch out in_ accum height width lev T last)
      (dwt_denoise_horiz_1ch out in_ accum' height width lev T' last) := by
    unfold dwt_denoise_horiz_1ch
    have hs0 : 0 ≤ MIN ((1 : Int) <<< lev) width := by
      rw [MIN_eq_min, one_shiftLeft_eq lev hlev]
      exact le_min (by positivity) hw
    have hs1 : MIN ((1 : Int) <<< lev) width ≤ width := by
      rw [MIN_eq_min]; exact min_le_right _ _
    generalize MIN ((1 : Int) <<< lev) width = hs at hs0 hs1 ⊢
    refine forLoop_rel 0 height _ _ (fun j s s' => HorizSim last (j * width) s s') _ _
      ⟨fun _ _ => rfl, List.Forall₂.nil⟩ ?_
    intro row s s' hr0 _ hS
    simp only
    have a1 := forLoop_rel_preserves 0 hs
      (fun col (st : HorizState α) =>
        horiz_pixel (row * width) row col
          ((2 * out (row * width + col) + out (row * width + (hs - col))
            + out (row * width + (col + hs))) / 16) T st)
      (fun col (st : HorizState α) =>
        horiz_pixel (row * width) row col
          ((2 * out (row * width + col) + out (row * width + (hs - col))
            + out (row * width + (col + hs))) / 16) T' st)
      (HorizSim last (row * width)) s s' hS
      (fun col st st' c0 _ h =>
        horiz_pixel_sim last (row * width) (row * width) row col _ T T' st st' h0 h1
          (Or.inr (by omega)) h)
    have a2 := forLoop_rel_preserves hs (width - hs)
      (fun col (st : HorizState α) =>
        horiz_pixel (row * width) row col
          ((2 * out (row * width + col) + out (row * width + (col - hs))
            + out (row * width + (col + hs))) / 16) T st)
      (fun col (st : HorizState α) =>
        horiz_pixel (row * width) row col
          ((2 * out (row * width + col) + out (row * width + (col - hs))
            + out (row * width + (col + hs))) / 16) T' st)
      (HorizSim last (row * width)) _ _ a1
      (fun col st st' c0 _ h =>
        horiz_pixel_sim last (row * width) (row * width) row col _ T T' st st' h0 h1
          (Or.inr (by omega)) h)
    have a3 := forLoop_rel_preserves (width - hs) width
      (fun col (st : HorizState α) =>
        horiz_pixel (row * width) row col
          ((2 * out (row * width + col) + out (row * width + (col - hs))
            + out (row * width + (2 * width - 2 - (col + hs)))) / 16) T st)
      (fun col (st : HorizState α) =>
        horiz_pixel (row * width) row col
          ((2 * out (row * width + col) + out (row * width + (col - hs))
            + out (row * width + (2 * width - 2 - (col + hs)))) / 16) T' st)
      (HorizSim last (row * width)) _ _ a2
      (fun col st st' c0 _ h =>
        horiz_pixel_sim last (row * width) (row * width) row col _ T T' st st' h0 h1
          (Or.inr (by omega)) h)
    have hnext : (row + 1) * width = row * width + width := by ring
    by_cases hlast : last = 0
    · rw [if_neg (not_not.2 hlast), if_neg (not_not.2 hlast)]
      exact ⟨fun k _ => a3.1 k (Or.inl hlast), a3.2⟩
    · rw [if_pos hlast, if_pos hlast]
      -- the final addition touches only the current row and not the log
      have hadd : ∀ (st : HorizState α),
          (∀ k, (row + 1) * width ≤ k →
            (forLoop 0 width (fun col (s : HorizState α) =>
              { s with details := store s.details (row * width + col)
                         (s.details (row * width + col) + s.accum (row * width + col)) })
              st).details k = st.details k) ∧
          (forLoop 0 width (fun col (s : HorizState α) =>
              { s with details := store s.details (row * width + col)
                         (s.details (row * width + col) + s.accum (row * width + col)) })
              st).log = st.log := by
        intro st
        refine forLoop_preserves 0 width _
          (fun q : HorizState α => (∀ k, (row + 1) * width ≤ k → q.details k = st.details k) ∧
            q.log = st.log) st ⟨fun _ _ => rfl, rfl⟩ ?_
        intro col q c0 c1 ⟨hq, hl⟩
        refine ⟨fun k hk => ?_, hl⟩
        simp only
        rw [store_other _ _ _ _ (by omega)]
        exact hq k hk
      obtain ⟨b1, b2⟩ := hadd (forLoop (width - hs) width
          (fun col (st : HorizState α) =>
            horiz_pixel (row * width) row col
              ((2 * out (row * width + col) + out (row * width + (col - hs))
                + out (row * width + (2 * width - 2 - (col + hs)))) / 16) T st) _)
      obtain ⟨b1', b2'⟩ := hadd (forLoop (width - hs) width
          (fun col (st : HorizState α) =>
            horiz_pixel (row * width) row col
              ((2 * out (row * width + col) + out (row * width + (col - hs))
                + out (row * width + (2 * width - 2 - (col + hs)))) / 16) T' st) _)
      refine ⟨fun k hk => ?_, ?_⟩
      · have hk' : (row + 1) * width ≤ k := by
          rcases hk with hk | hk
          · exact absurd hk hlast
          · exact hk
        rw [b1 k hk', b1' k hk']
        exact a3.1 k (Or.inr (by omega))
      · rw [b2, b2']; exact a3.2
  exact ⟨key.2, fun hl => funext fun k => key.1 k (Or.inl hl)⟩


/-! ## Every pixel is updated on wide planes -/

/-- A column loop of accumulator updates keeps the earlier log entries and adds one for every
column of its range. -/
theorem horiz_loop_cover {α : Type} [LinearOrderedField α] (lo hi rowindex row : Int)
    (hatf : Int → α) (T : α) (s : HorizState α) :
    (∀ e ∈ s.log,
      e ∈ (forLoop lo hi (fun col st => horiz_pixel rowindex row col (hatf col) T st) s).log) ∧
    (∀ col, lo ≤ col → col < hi →
      ∃ e ∈ (forLoop lo hi (fun col st => horiz_pixel rowindex row col (hatf col) T st) s).log,
        e.row = row ∧ e.col = col) := by
  obtain ⟨j, hj, hm, hc⟩ := forLoop_induct lo hi
    (fun col st => horiz_pixel rowindex row col (hatf col) T st)
    (fun j (q : HorizState α) => (∀ e ∈ s.log, e ∈ q.log) ∧
      ∀ col, lo ≤ col → col < j → col < hi → ∃ e ∈ q.log, e.row = row ∧ e.col = col) s
    ⟨fun _ h => h, by intro col h0 h1; omega⟩
    (by
      intro i q h0 h1 ⟨hm, hc⟩
      refine ⟨fun e he => List.mem_cons_of_mem _ (hm e he), ?_⟩
      intro col c0 c1 c2
      by_cases hci : col = i
      · exact ⟨_, List.mem_cons_self _ _, rfl, hci.symm⟩
      · obtain ⟨e, he, h⟩ := hc col c0 (by omega) c2
        exact ⟨e, List.mem_cons_of_mem _ he, h⟩)
  exact ⟨hm, fun col c0 c1 => hc col c0 (by omega) c1⟩

/-- When the plane is at least twice as wide as the scale, one call of the horizontal pass
updates the accumulator entry of every pixel of the plane. -/
theorem dwt_denoise_horiz_1ch_covers {α : Type} [LinearOrderedField α]
    (out in_ accum : Int → α) (height width lev : Int) (T : α) (last : Int)
    (hlev : 0 ≤ lev) (hw : 2 * 2 ^ lev.toNat ≤ width) :
    LogCovers (dwt_denoise_horiz_1ch out in_ accum height width lev T last).log
      width height := by
  have hvs1 : (1 : Int) ≤ 2 ^ lev.toNat := one_le_pow₀ (by norm_num)
  have hsc : MIN ((1 : Int) <<< lev) width = 2 ^ lev.toNat := by
    rw [MIN_eq_min, one_shiftLeft_eq lev hlev, min_eq_left (by omega)]
  suffices key : ∃ j, height ≤ j ∧ ∀ r c, 0 ≤ r → r < j → r < height → 0 ≤ c → c < width →
      ∃ e ∈ (dwt_denoise_horiz_1ch out in_ accum height width lev T last).log,
        e.row = r ∧ e.col = c by
    obtain ⟨j, hj, hP⟩ := key
    intro r c r0 r1 c0 c1
    exact hP r c r0 (by omega) r1 c0 c1
  unfold dwt_denoise_horiz_1ch
  rw [hsc]
  refine forLoop_induct 0 height _
    (fun j (q : HorizState α) => ∀ r c, 0 ≤ r → r < j → r < height → 0 ≤ c → c < width →
      ∃ e ∈ q.log, e.row = r ∧ e.col = c) _
    (by intro r c h0 h1; omega) ?_
  intro row st hr0 hr1 hst
  simp only
  obtain ⟨m1, c1⟩ := horiz_loop_cover 0 (2 ^ lev.toNat) (row * width) row
    (fun col => (2 * out (row * width + col) + out (row * width + (2 ^ lev.toNat - col))
      + out (row * width + (col + 2 ^ lev.toNat))) / 16) T st
  obtain ⟨m2, c2⟩ := horiz_loop_cover (2 ^ lev.toNat) (width - 2 ^ lev.toNat) (row * width) row
    (fun col => (2 * out (row * width + col) + out (row * width + (col - 2 ^ lev.toNat))
      + out (row * width + (col + 2 ^ lev.toNat))) / 16) T
    (forLoop 0 (2 ^ lev.toNat) (fun col st => horiz_pixel (row * width) row col
      ((2 * out (row * width + col) + out (row * width + (2 ^ lev.toNat - col))
        + out (row * width + (col + 2 ^ lev.toNat))) / 16) T st) st)
  obtain ⟨m3, c3⟩ := horiz_loop_cover (width - 2 ^ lev.toNat) width (row * width) row
    (fun col => (2 * out (row * width + col) + out (row * width + (col - 2 ^ lev.toNat))
      + out (row * width + (2 * width - 2 - (col + 2 ^ lev.toNat)))) / 16) T
    (forLoop (2 ^ lev.toNat) (width - 2 ^ lev.toNat) (fun col st =>
      horiz_pixel (row * width) row col
        ((2 * out (row * width + col) + out (row * width + (col - 2 ^ lev.toNat))
          + out (row * width + (col + 2 ^ lev.toNat))) / 16) T st)
      (forLoop 0 (2 ^ lev.toNat) (fun col st => horiz_pixel (row * width) row col
        ((2 * out (row * width + col) + out (row * width + (2 ^ lev.toNat - col))
          + out (row * width + (col + 2 ^ lev.toNat))) / 16) T st) st))
  have hcov : ∀ r c, 0 ≤ r → r < row + 1 → r < height → 0 ≤ c → c < width →
      ∃ e ∈ (forLoop (width - 2 ^ lev.toNat) width (fun col st =>
        horiz_pixel (row * width) row col
          ((2 * out (row * width + col) + out (row * width + (col - 2 ^ lev.toNat))
            + out (row * width + (2 * width - 2 - (col + 2 ^ lev.toNat)))) / 16) T st)
        (forLoop (2 ^ lev.toNat) (width - 2 ^ lev.toNat) (fun col st =>
          horiz_pixel (row * width) row col
            ((2 * out (row * width + col) + out (row * width + (col - 2 ^ lev.toNat))
              + out (row * width + (col + 2 ^ lev.toNat))) / 16) T st)
          (forLoop 0 (2 ^ lev.toNat) (fun col st => horiz_pixel (row * width) row col
            ((2 * out (row * width + col) + out (row * width + (2 ^ lev.toNat - col))
              + out (row * width + (col + 2 ^ lev.toNat))) / 16) T st) st))).log,
        e.row = r ∧ e.col = c := by
    intro r c r0 r1 r2 c0 c1'
    by_cases hr : r = row
    · subst hr
      by_cases h1 : c < 2 ^ lev.toNat
      · obtain ⟨e, he, h⟩ := c1 c c0 h1
        exact ⟨e, m3 e (m2 e he), h⟩
      · by_cases h2 : c < width - 2 ^ lev.toNat
        · obtain ⟨e, he, h⟩ := c2 c (by omega) h2
          exact ⟨e, m3 e he, h⟩
        · exact c3 c (by omega) c1'
    · obtain ⟨e, he, h⟩ := hst r c r0 (by omega) r2 c0 c1'
      exact ⟨e, m3 e (m2 e (m1 e he)), h⟩
  split_ifs with hlast
  · have hlog : ∀ (q : HorizState α),
        (forLoop 0 width (fun col (s : HorizState α) =>
          { s with details := store s.details (row * width + col)
                     (s.details (row * width + col) + s.accum (row * width + col)) })
          q).log = q.log := by
      intro q
      exact forLoop_preserves 0 width _ (fun q' : HorizState α => q'.log = q.log) q rfl
        (fun _ _ _ _ h => h)
    rw [hlog]
    exact hcov
  · exact hcov


/-- Two runs of `dwt_denoise` on the same plane with band thresholds `0 ≤ noise ≤ noise'`. -/
theorem dwt_denoise_sim {α : Type} [LinearOrderedField α] (img : Int → α)
    (width height : Int) (noise noise' uninit : Int → α) (hw : 0 ≤ width)
    (hn : ∀ l, 0 ≤ l → l < 5 → 0 ≤ noise l ∧ noise l ≤ noise' l) :
    List.Forall₂ (List.Forall₂ UpdateShrinks)
        (dwt_denoise img width height DT_IOP_RAWDENOISE_BANDS noise uninit).logs
        (dwt_denoise img width height DT_IOP_RAWDENOISE_BANDS noise' uninit).logs ∧
      (dwt_denoise img width height DT_IOP_RAWDENOISE_BANDS noise uninit).logs.length = 5 := by
  have key : DwtSim (max 0 5)
      (dwt_denoise img width height DT_IOP_RAWDENOISE_BANDS noise uninit)
      (dwt_denoise img width height DT_IOP_RAWDENOISE_BANDS noise' uninit) := by
    unfold dwt_denoise DT_IOP_RAWDENOISE_BANDS
    refine forLoop_rel 0 5 _ _ (fun j st st' => DwtSim j st st') _ _
      ⟨fun _ => ⟨rfl, rfl⟩, List.Forall₂.nil, rfl⟩ ?_
    intro lev st st' l0 l1 ⟨heq, hlogs, hlen⟩
    obtain ⟨himg, hint⟩ := heq l1
    simp only
    rw [← himg, ← hint]
    obtain ⟨s1, s2⟩ := dwt_denoise_horiz_1ch_sim
      (dwt_denoise_vert_1ch st.interm st.img height width lev).out st.img st.details
      st'.details height width lev (noise lev) (noise' lev) (if lev + 1 = 5 then 1 else 0)
      hw l0 (hn lev l0 l1).1 (hn lev l0 l1).2
    refine ⟨fun hlt => ⟨s2 (by rw [if_neg (by omega)]), rfl⟩,
      List.rel_append hlogs (List.Forall₂.cons s1 List.Forall₂.nil), ?_⟩
    simp only [List.length_append, List.length_singleton, hlen]
    omega
  exact ⟨key.2.1, key.2.2⟩

theorem energy_of_shrinks {α : Type} [LinearOrderedField α] (log log' : List (AccumUpdate α))
    (h : List.Forall₂ UpdateShrinks log log') :
    retained_energy log' ≤ retained_energy log ∧ retained_energy log ≤ detail_energy log ∧
      detail_energy log' = detail_energy log := by
  induction h with
  | nil => simp [retained_energy, detail_energy]
  | cons hab _ ih =>
    obtain ⟨_, _, _, hd, h1, h2⟩ := hab
    obtain ⟨i1, i2, i3⟩ := ih
    simp only [retained_energy, detail_energy, List.map_cons, List.sum_cons] at i1 i2 i3 ⊢
    refine ⟨add_le_add (sq_le_sq.2 h1) i1, add_le_add (sq_le_sq.2 h2) i2, ?_⟩
    rw [hd, i3]

/-- On a plane at least 32 wide every level of `dwt_denoise` updates the accumulator entry
of every pixel. -/
theorem dwt_denoise_covers {α : Type} [LinearOrderedField α] (img : Int → α)
    (width height : Int) (noise uninit : Int → α) (hw : 32 ≤ width) :
    ∀ log ∈ (dwt_denoise img width height DT_IOP_RAWDENOISE_BANDS noise uninit).logs,
      LogCovers log width height := by
  unfold dwt_denoise DT_IOP_RAWDENOISE_BANDS
  refine forLoop_preserves 0 5 _
    (fun st : DwtState α => ∀ log ∈ st.logs, LogCovers log width height) _
    (by intro l hl; simp at hl) ?_
  intro lev st h0 h1 hst log hlog
  have hp := pow_lev_le lev h0 h1
  simp only [List.mem_append, List.mem_singleton] at hlog
  rcases hlog with hlog | rfl
  · exact hst log hlog
  · exact dwt_denoise_horiz_1ch_covers _ _ _ height width lev _ _ h0 (by omega)

/-- C10. Noise-suppression monotonicity: run `dwt_denoise` twice on the same plane (at least
32 x 32), with the band thresholds `compute_channel_noise` derives from the same multipliers
and colour and from two thresholds `0 < t ≤ t'`.  Then every band threshold is non-negative
and does not decrease; each of the 5 levels updates the accumulator entry of every pixel;
both runs make the same accumulator updates in the same order, level by level, with the same
coarse value `hat` and the same `diff` at every pixel, and the retained detail under `t'` is
no larger in absolute value than under `t`, itself no larger than `|diff|`; hence at every
level the retained detail-band energy (the sum of the squared retained details) does not
increase with the threshold and never exceeds that of the input (the sum of the squared
`diff`). -/
theorem noise_suppression_monotone {α : Type} [LinearOrderedField α]
    (img uninit n0 n0' : Int → α) (width height color : Int) (force : Int → Int → α)
    (t t' : α) (hw : 32 ≤ width) (_hh : 32 ≤ height) (ht : 0 < t) (htt : t ≤ t') :
    (∀ l, 0 ≤ l → l < 5 →
      0 ≤ compute_channel_noise n0 color { threshold := t, force := force } l ∧
      compute_channel_noise n0 color { threshold := t, force := force } l ≤
        compute_channel_noise n0' color { threshold := t', force := force } l) ∧
    (dwt_denoise img width height DT_IOP_RAWDENOISE_BANDS
      (compute_channel_noise n0 color { threshold := t, force := force }) uninit).logs.length
        = 5 ∧
    (∀ log ∈ (dwt_denoise img width height DT_IOP_RAWDENOISE_BANDS
        (compute_channel_noise n0 color { threshold := t, force := force }) uninit).logs,
      ∀ r c, 0 ≤ r → r < height → 0 ≤ c → c < width → ∃ e ∈ log, e.row = r ∧ e.col = c) ∧
    List.Forall₂ (List.Forall₂ UpdateShrinks)
      (dwt_denoise img width height DT_IOP_RAWDENOISE_BANDS
        (compute_channel_noise n0 color { threshold := t, force := force }) uninit).logs
      (dwt_denoise img width height DT_IOP_RAWDENOISE_BANDS
        (compute_channel_noise n0' color { threshold := t', force := force }) uninit).logs ∧
    List.Forall₂
      (fun log log' => retained_energy log' ≤ retained_energy log ∧
        retained_energy log ≤ detail_energy log ∧ detail_energy log' = detail_energy log)
      (dwt_denoise img width height DT_IOP_RAWDENOISE_BANDS
        (compute_channel_noise n0 color { threshold := t, force := force }) uninit).logs
      (dwt_denoise img width height DT_IOP_RAWDENOISE_BANDS
        (compute_channel_noise n0' color { threshold := t', force := force }) uninit).logs := by
  have hn : ∀ l, 0 ≤ l → l < 5 →
      0 ≤ compute_channel_noise n0 color { threshold := t, force := force } l ∧
      compute_channel_noise n0 color { threshold := t, force := force } l ≤
        compute_channel_noise n0' color { threshold := t', force := force } l := by
    intro l l0 l1
    refine ⟨compute_channel_noise_nonneg n0 color _ ht.le l l0 l1, ?_⟩
    rw [compute_channel_noise_apply n0 color _ l l0 l1,
      compute_channel_noise_apply n0' color _ l l0 l1]
    have := noise_all_init_nonneg (α := α) l
    exact mul_le_mul_of_nonneg_left htt (by positivity)
  obtain ⟨h1, h2⟩ := dwt_denoise_sim img width height _ _ uninit (by omega) hn
  exact ⟨hn, h2, dwt_denoise_covers img width height _ uninit hw, h1,
    h1.imp (fun log log' h => energy_of_shrinks log log' h)⟩

/-- The ramp plane of 32 x 32 pixels, green band thresholds at `t = 1/100` and `t' = 1/50`
with neutral multipliers 1/2: level by level the retained energy does not increase and stays
below the detail energy of the input. -/
theorem noise_suppression_monotone_witness :
    List.Forall₂
      (fun log log' => retained_energy log' ≤ retained_energy log ∧
        retained_energy log ≤ detail_energy log ∧ detail_energy log' = detail_energy log)
      (dwt_denoise (fun k => (k : ℚ)) 32 32 DT_IOP_RAWDENOISE_BANDS
        (compute_channel_noise (fun _ => 0) 1
          { threshold := 1 / 100, force := fun _ _ => 1 / 2 }) (fun _ => 0)).logs
      (dwt_denoise (fun k => (k : ℚ)) 32 32 DT_IOP_RAWDENOISE_BANDS
        (compute_channel_noise (fun _ => 0) 1
          { threshold := 1 / 50, force := fun _ _ => 1 / 2 }) (fun _ => 0)).logs :=
  (noise_suppression_monotone (fun k => (k : ℚ)) (fun _ => 0) (fun _ => 0) (fun _ => 0) 32 32 1
    (fun _ _ => 1 / 2) (1 / 100) (1 / 50) (by decide) (by decide) (by norm_num)
    (by norm_num)).2.2.2.2


/-! ## Passes of the row scheduler -/

theorem row_to_rowid_pass (height scale offset passIndex : Int) (hs : 1 ≤ scale)
    (hh : scale < height) (ho0 : 0 ≤ offset) (ho1 : offset < scale) :
    row_to_rowid (offset + scale * passIndex) height scale
      = pass_start height scale offset + passIndex := by
  have hpos : 0 < scale := by omega
  obtain ⟨Q, L, hdec, hL0, hL1, hQ, hmod, -, hP, -⟩ := sched_decomp height scale hs hh
  have hdiv : height / scale = Q := (ediv_emod_of_decomp hpos hdec hL0 hL1).1
  obtain ⟨d1, d2⟩ := ediv_emod_of_decomp (a := offset + scale * passIndex) hpos rfl ho0 ho1
  simp only [row_to_rowid, if_neg (not_le.2 hh), hmod, hP, d1, d2, pass_start, hdiv]
  by_cases hL : L = 0
  · subst hL
    simp only [true_or, if_true, add_zero]
    rw [min_eq_right ho0]; ring
  · by_cases hc : offset < L
    · rw [if_pos (Or.inr hc), if_neg hL, min_eq_left hc.le]; ring
    · rw [if_neg (by tauto), if_neg hL, min_eq_right (not_lt.1 hc)]; ring

theorem pass_row_lt (height scale offset passIndex : Int) (hs : 1 ≤ scale)
    (hh : scale < height) (ho0 : 0 ≤ offset) (ho1 : offset < scale) :
    offset + scale * passIndex < height ↔ passIndex < pass_len height scale offset := by
  have hpos : 0 < scale := by omega
  obtain ⟨Q, L, hdec, hL0, hL1, hQ, hmod, -, -, -⟩ := sched_decomp height scale hs hh
  have hdiv : height / scale = Q := (ediv_emod_of_decomp hpos hdec hL0 hL1).1
  simp only [pass_len, hdiv, hmod]
  constructor
  · intro h
    by_contra hc
    by_cases hoL : offset < L
    · rw [if_pos hoL] at hc
      have : scale * (Q + 1) ≤ scale * passIndex :=
        Int.mul_le_mul_of_nonneg_left (by omega) hpos.le
      have e : scale * (Q + 1) = scale * Q + scale := by ring
      omega
    · rw [if_neg hoL] at hc
      have : scale * Q ≤ scale * passIndex := Int.mul_le_mul_of_nonneg_left (by omega) hpos.le
      omega
  · intro h
    by_cases hoL : offset < L
    · rw [if_pos hoL] at h
      have : scale * passIndex ≤ scale * Q := Int.mul_le_mul_of_nonneg_left (by omega) hpos.le
      omega
    · rw [if_neg hoL] at h
      have : scale * passIndex ≤ scale * (Q - 1) :=
        Int.mul_le_mul_of_nonneg_left (by omega) hpos.le
      have e : scale * (Q - 1) = scale * Q - scale := by ring
      omega

/-- The scheduler visits the rows pass by pass: position `pass_start offset + passIndex` is
row `offset + scale * passIndex`. -/
theorem rowid_to_row_pass (height scale offset passIndex : Int) (hs : 1 ≤ scale)
    (hh : scale < height) (ho0 : 0 ≤ offset) (ho1 : offset < scale) (hp0 : 0 ≤ passIndex)
    (hp1 : passIndex < pass_len height scale offset) :
    rowid_to_row (pass_start height scale offset + passIndex) height scale
      = offset + scale * passIndex := by
  have hrow1 := (pass_row_lt height scale offset passIndex hs hh ho0 ho1).2 hp1
  have hrow0 : 0 ≤ offset + scale * passIndex := by positivity
  obtain ⟨rowid, r0, r1, hrow⟩ :=
    rowid_to_row_surj height scale hs (offset + scale * passIndex) hrow0 hrow1
  have hinv := (rowid_to_row_spec rowid height scale hs r0 r1).2.2
  rw [hrow, row_to_rowid_pass height scale offset passIndex hs hh ho0 ho1] at hinv
  rw [hinv, hrow]

theorem pass_start_succ (height scale offset : Int) (hs : 1 ≤ scale) :
    pass_start height scale (offset + 1)
      = pass_start height scale offset + pass_len height scale offset := by
  have hL0 := Int.emod_nonneg height (by omega : scale ≠ 0)
  simp only [pass_start, pass_len]
  have e : (offset + 1) * (height / scale) = offset * (height / scale) + height / scale := by
    ring
  rw [e]
  by_cases hc : offset < height % scale
  · rw [if_pos hc, min_eq_left (by omega), min_eq_left hc.le]; ring
  · rw [if_neg hc, min_eq_right (by omega), min_eq_right (not_lt.1 hc)]; ring

theorem pass_start_scale (height scale : Int) (hs : 1 ≤ scale) :
    pass_start height scale scale = height := by
  have h1 := Int.emod_add_ediv height scale
  have h3 := Int.emod_lt_of_pos height (by omega : 0 < scale)
  simp only [pass_start]
  rw [min_eq_right h3.le]
  linarith

/-- Between consecutive positions the scheduler either moves `scale` rows down or starts the
next pass. -/
theorem rowid_to_row_succ (height scale rowid : Int) (hs : 1 ≤ scale) (hh : scale < height)
    (h0 : 0 ≤ rowid) (h1 : rowid + 1 < height) :
    rowid_to_row (rowid + 1) height scale = rowid_to_row rowid height scale + scale ∨
      rowid_to_row (rowid + 1) height scale = rowid_to_row rowid height scale % scale + 1 := by
  have hpos : 0 < scale := by omega
  obtain ⟨hr0, hr1, hinv⟩ := rowid_to_row_spec rowid height scale hs h0 (by omega)
  have hm0 := Int.emod_nonneg (rowid_to_row rowid height scale) (by omega : scale ≠ 0)
  have hm1 := Int.emod_lt_of_pos (rowid_to_row rowid height scale) hpos
  have hdm := Int.emod_add_ediv (rowid_to_row rowid height scale) scale
  have hq0 : 0 ≤ rowid_to_row rowid height scale / scale := Int.ediv_nonneg hr0 hpos.le
  rw [← hdm] at hinv hr1
  rw [row_to_rowid_pass height scale _ _ hs hh hm0 hm1] at hinv
  have hlen := (pass_row_lt height scale _ _ hs hh hm0 hm1).1 hr1
  by_cases hnext : rowid_to_row rowid height scale / scale + 1
      < pass_len height scale (rowid_to_row rowid height scale % scale)
  · left
    have := rowid_to_row_pass height scale _ (rowid_to_row rowid height scale / scale + 1)
      hs hh hm0 hm1 (by omega) hnext
    rw [← add_assoc, hinv] at this
    rw [this]
    have e : scale * (rowid_to_row rowid height scale / scale + 1)
        = scale * (rowid_to_row rowid height scale / scale) + scale := by ring
    omega
  · right
    have hst := pass_start_succ height scale (rowid_to_row rowid height scale % scale) hs
    have hlt : rowid_to_row rowid height scale % scale + 1 < scale := by
      by_contra hc
      have e : rowid_to_row rowid height scale % scale + 1 = scale := by omega
      rw [e, pass_start_scale height scale hs] at hst
      omega
    obtain ⟨Q, L, hdec, hL0, hL1, hQ, hmod, -, -, -⟩ := sched_decomp height scale hs hh
    have hdiv : height / scale = Q := (ediv_emod_of_decomp hpos hdec hL0 hL1).1
    have hlen' : 0 < pass_len height scale (rowid_to_row rowid height scale % scale + 1) := by
      simp only [pass_len, hdiv]; split_ifs <;> omega
    have := rowid_to_row_pass height scale (rowid_to_row rowid height scale % scale + 1) 0
      hs hh (by omega) hlt le_rfl hlen'
    rw [hst, add_zero, mul_zero, add_zero] at this
    rw [← this]
    congr 1
    omega

/-- C12. Scheduler stride: for `1 ≤ scale < height` the first position is row 0 and from one
position to the next the row either grows by `scale` (same pass) or becomes
`(row mod scale) + 1` (first row of the next pass); the rows are visited pass by pass, the
pass with offset `offset` (for `offset = 0, ..., scale - 1`, in this order, the passes
filling `[0, height)`) visiting `offset + scale * passIndex`, and the first `height mod scale`
passes have one more row than the others.  For `height ≤ scale` the mapping is the
identity. -/
theorem rowid_to_row_stride (height scale : Int) (hs : 1 ≤ scale) :
    (scale < height →
      rowid_to_row 0 height scale = 0 ∧
      (∀ rowid, 0 ≤ rowid → rowid + 1 < height →
        rowid_to_row (rowid + 1) height scale = rowid_to_row rowid height scale + scale ∨
        rowid_to_row (rowid + 1) height scale
          = rowid_to_row rowid height scale % scale + 1) ∧
      (∀ offset passIndex, 0 ≤ offset → offset < scale → 0 ≤ passIndex →
        passIndex < pass_len height scale offset →
        rowid_to_row (pass_start height scale offset + passIndex) height scale
          = offset + scale * passIndex) ∧
      pass_start height scale 0 = 0 ∧ pass_start height scale scale = height ∧
      (∀ offset, 0 ≤ offset → offset < scale →
        pass_start height scale (offset + 1)
          = pass_start height scale offset + pass_len height scale offset ∧
        pass_len height scale offset
          = height / scale + (if offset < height % scale then 1 else 0))) ∧
    (height ≤ scale → ∀ rowid, rowid_to_row rowid height scale = rowid) := by
  refine ⟨fun hh => ⟨?_, ?_, ?_, ?_, pass_start_scale height scale hs, ?_⟩, ?_⟩
  · obtain ⟨Q, L, hdec, hL0, hL1, hQ, hmod, -, -, -⟩ := sched_decomp height scale hs hh
    have hdiv : height / scale = Q :=
      (ediv_emod_of_decomp (by omega) hdec hL0 hL1).1
    have := rowid_to_row_pass height scale 0 0 hs hh le_rfl (by omega) le_rfl
      (by simp only [pass_len, hdiv]; split_ifs <;> omega)
    have hmin : min 0 (height % scale) = 0 := min_eq_left (by omega)
    simpa [pass_start, hmin] using this
  · intro rowid h0 h1
    exact rowid_to_row_succ height scale rowid hs hh h0 h1
  · intro offset passIndex ho0 ho1 hp0 hp1
    exact rowid_to_row_pass height scale offset passIndex hs hh ho0 ho1 hp0 hp1
  · have hL0 := Int.emod_nonneg height (by omega : scale ≠ 0)
    simp [pass_start, hL0]
  · intro offset _ _
    exact ⟨pass_start_succ height scale offset hs, rfl⟩
  · intro hle rowid
    simp [rowid_to_row, hle]

/-- The schedule of a plane of 11 rows at scale 4: three passes of 3 rows, one of 2. -/
theorem rowid_to_row_stride_witness :
    (1 : Int) ≤ 4 ∧ (4 : Int) < 11 ∧ rowid_to_row 0 11 4 = 0 ∧
    (∀ rowid, 0 ≤ rowid → rowid + 1 < 11 →
      rowid_to_row (rowid + 1) 11 4 = rowid_to_row rowid 11 4 + 4 ∨
      rowid_to_row (rowid + 1) 11 4 = rowid_to_row rowid 11 4 % 4 + 1) :=
  ⟨by decide, by decide, ((rowid_to_row_stride 11 4 (by decide)).1 (by decide)).1,
    ((rowid_to_row_stride 11 4 (by decide)).1 (by decide)).2.1⟩


/-! ## Scale arguments of the X-Trans decomposer -/

set_option maxRecDepth 100000 in
/-- C14 (failing input). On a 6 x 6 X-Trans region `wavelet_denoise_xtrans` calls
`hat_transform` on lines of 6 elements with the scales 1, 2, 4, 8 and 16: the scale argument
is `1 << lev`, not `MIN(1 << lev, 6)`, and at levels 3 and 4 it exceeds the length of the
line.  The Bayer decomposer does clamp: `MIN(1 << lev, d) ≤ d` for every `lev` and `d`. -/
theorem wavelet_denoise_xtrans_scale_6x6 :
    (((wavelet_denoise_xtrans_run (fun x : ℚ => x) (fun r c _ _ => (r + c) % 3)
        (fun k => (k : ℚ)) (fun _ => 0) { x := 0, y := 0, width := 6, height := 6 }
        { threshold := 1, force := fun _ _ => 1 } (fun _ _ => 0) (fun _ => 0)).1.calls.map
      (fun c => (c.size, c.scale))).dedup = [(6, 16), (6, 8), (6, 4), (6, 2), (6, 1)]) ∧
    (∀ lev d : Int, MIN ((1 : Int) <<< lev) d ≤ d) := by
  refine ⟨by decide, fun lev d => ?_⟩
  rw [MIN_eq_min]
  exact min_le_right _ _


/-! ## Hat transform on short lines -/

/-- C13 (failing input). On a line of 3 elements at scale 2 (`scale < size < 2 * scale`)
`hat_transform` reads offset 3 of `base`, outside `[0, 3)`, and its values differ from the
mirror-reflected filter: with `in = [0, 1, 2]` (and 3 behind it) it stores `temp[1] = 3/2` and
`temp[2] = 5/4` where the filter gives 1 and 1. -/
theorem hat_transform_size3_scale2 :
    (hat_transform (fun _ => (0 : ℚ)) (fun k => (k : ℚ)) 1 3 2).reads.reverse
      = [0, 2, 2, 1, 1, 3, 2, 0, 1] ∧
    (hat_transform (fun _ => (0 : ℚ)) (fun k => (k : ℚ)) 1 3 2).temp 1 = 3 / 2 ∧
    hat_formula (fun k => (k : ℚ)) 1 3 2 1 = 1 ∧
    (hat_transform (fun _ => (0 : ℚ)) (fun k => (k : ℚ)) 1 3 2).temp 2 = 5 / 4 ∧
    hat_formula (fun k => (k : ℚ)) 1 3 2 2 = 1 := by
  refine ⟨by decide, ?_, ?_, ?_, ?_⟩
  · simp [hat_transform, whileLoop, store]; norm_num
  · simp [hat_formula, hat_right]; norm_num
  · simp [hat_transform, whileLoop, store]; norm_num
  · simp [hat_formula, hat_right]; norm_num

/-! ## Parameter migration -/

/-- C15. Parameter migration: `legacy_params` returns 0 exactly when `old_version = 1` and
`new_version = 2`; then the new record has the old threshold, `x[ch][k] = k/4` and
`y[ch][k] = 0.5` for every channel group `ch` in `0..3` and band `k` in `0..4`; for every
other version pair it returns 1 and leaves the new record unchanged. -/
theorem legacy_params_migration {α : Type} [LinearOrderedField α]
    (old_params : dt_iop_rawdenoise_params_v1_t α) (old_version : Int)
    (new_params : dt_iop_rawdenoise_params_t α) (new_version : Int) :
    ((legacy_params old_params old_version new_params new_version).1 = 0 ↔
      old_version = 1 ∧ new_version = 2) ∧
    (old_version = 1 ∧ new_version = 2 →
      (legacy_params old_params old_version new_params new_version).2.threshold
        = old_params.threshold ∧
      ∀ ch k, 0 ≤ ch → ch < 4 → 0 ≤ k → k < 5 →
        (legacy_params old_params old_version new_params new_version).2.x ch k = (k : α) / 4 ∧
        (legacy_params old_params old_version new_params new_version).2.y ch k = 1 / 2) ∧
    (¬ (old_version = 1 ∧ new_version = 2) →
      legacy_params old_params old_version new_params new_version = (1, new_params)) := by
  refine ⟨?_, ?_, ?_⟩
  · unfold legacy_params
    split_ifs with h
    · simp [h]
    · simp [h]
  · intro h
    unfold legacy_params
    rw [if_pos h]
    constructor
    · simp [forLoop, forStep, DT_IOP_RAWDENOISE_BANDS, DT_RAWDENOISE_NONE]
    · intro ch k c0 c1 k0 k1
      have hc : ch = 0 ∨ ch = 1 ∨ ch = 2 ∨ ch = 3 := by omega
      have hk : k = 0 ∨ k = 1 ∨ k = 2 ∨ k = 3 ∨ k = 4 := by omega
      rcases hc with rfl | rfl | rfl | rfl <;> rcases hk with rfl | rfl | rfl | rfl | rfl <;>
        (simp [forLoop, forStep, DT_IOP_RAWDENOISE_BANDS, DT_RAWDENOISE_NONE, store2]
         norm_num)
  · intro h
    unfold legacy_params
    rw [if_neg h]

/-- Migration of a version 1 record with threshold 3/100: node 3 of the G curve. -/
theorem legacy_params_migration_witness :
    (legacy_params ({ threshold := 3 / 100 } : dt_iop_rawdenoise_params_v1_t ℚ) 1
      { threshold := 0, x := fun _ _ => 0, y := fun _ _ => 0 } 2).2.threshold = 3 / 100 ∧
    (legacy_params ({ threshold := 3 / 100 } : dt_iop_rawdenoise_params_v1_t ℚ) 1
      { threshold := 0, x := fun _ _ => 0, y := fun _ _ => 0 } 2).2.x 2 3 = ((3 : Int) : ℚ) / 4 ∧
    (legacy_params ({ threshold := 3 / 100 } : dt_iop_rawdenoise_params_v1_t ℚ) 1
      { threshold := 0, x := fun _ _ => 0, y := fun _ _ => 0 } 2).2.y 2 3 = 1 / 2 :=
  ⟨((legacy_params_migration _ 1 _ 2).2.1 ⟨rfl, rfl⟩).1,
    (((legacy_params_migration _ 1 _ 2).2.1 ⟨rfl, rfl⟩).2 2 3 (by decide) (by decide)
      (by decide) (by decide)).1,
    (((legacy_params_migration _ 1 _ 2).2.1 ⟨rfl, rfl⟩).2 2 3 (by decide) (by decide)
      (by decide) (by decide)).2⟩

/-! ## X-Trans noise profile -/

/-- C17. X-Trans noise profile: for every band `i` in `0..4`, `wavelet_denoise_xtrans` first
computes the 'all'-only table `noise_all[i] = base[i] * allMult[4-i]^4 * 16` (no threshold
factor), then for colour `c` the table `noise[i] = noise_all[i] * channelMult[4-i]^4 * 16`
with the multipliers of R for `c = 0`, of B for `c = 2` and of G otherwise (`c = 1`), and the
soft threshold of level `i` is `threshold * noise[i]`. -/
theorem xtrans_noise_formula {α : Type} [LinearOrderedField α] (noise : Int → α) (c : Int)
    (data : dt_iop_rawdenoise_data_t α) (i : Int) (h0 : 0 ≤ i) (h1 : i < 5) :
    xtrans_noise_all data i = xtrans_noise_all_formula data i ∧
    xtrans_noise noise c data i =
      xtrans_noise_all data i *
        (if c = 0 then data.force DT_RAWDENOISE_R (4 - i)
          else if c = 2 then data.force DT_RAWDENOISE_B (4 - i)
          else data.force DT_RAWDENOISE_G (4 - i)) ^ 4 * 16 ∧
    xtrans_thold noise c data i = data.threshold * xtrans_noise noise c data i := by
  have hi : i = 0 ∨ i = 1 ∨ i = 2 ∨ i = 3 ∨ i = 4 := by omega
  refine ⟨?_, ?_, rfl⟩
  · have e1 : xtrans_noise_all data i
        = noise_all_init i * data.force DT_RAWDENOISE_ALL (4 - i) ^ 4 * 16 := by
      rcases hi with rfl | rfl | rfl | rfl | rfl <;>
      · simp only [xtrans_noise_all, forLoop, forStep, DT_IOP_RAWDENOISE_BANDS]
        simp [store, -mul_eq_mul_left_iff, -mul_eq_mul_right_iff]
        ring
    have e2 : (noise_all_init i : α)
        = ([0.8002, 0.2735, 0.1202, 0.0585, 0.0291] : List α).getD i.toNat 0 := by
      rcases hi with rfl | rfl | rfl | rfl | rfl <;> simp [noise_all_init]
    rw [e1, e2]
    rfl
  · rcases hi with rfl | rfl | rfl | rfl | rfl <;>
    · simp only [xtrans_noise, forLoop, forStep, DT_IOP_RAWDENOISE_BANDS]
      simp [store]
      split_ifs <;> ring

/-- The coarsest band of a green X-Trans plane at threshold 1/100 and multipliers 1/2. -/
theorem xtrans_noise_formula_witness :
    (0 : Int) ≤ 4 ∧ (4 : Int) < 5 ∧
    xtrans_noise_all ({ threshold := 1 / 100, force := fun _ _ => 1 / 2 } :
      dt_iop_rawdenoise_data_t ℚ) 4 =
        xtrans_noise_all_formula ({ threshold := 1 / 100, force := fun _ _ => 1 / 2 } :
          dt_iop_rawdenoise_data_t ℚ) 4 :=
  ⟨by decide, by decide,
    (xtrans_noise_formula (α := ℚ) (fun _ => 0) 1
      { threshold := 1 / 100, force := fun _ _ => 1 / 2 } 4 (by decide) (by decide)).1⟩


/-! ## Order of the rows in the vertical pass -/

theorem dwt_denoise_vert_1ch_eq_order {α : Type} [LinearOrderedField α] (out in_ : Int → α)
    (height width lev : Int) :
    dwt_denoise_vert_1ch out in_ height width lev =
      dwt_denoise_vert_1ch_order
        (fun rowid => rowid_to_row rowid height (MIN ((1 : Int) <<< lev) height))
        out in_ height width lev := rfl

theorem in_row_iff (k row w : Int) (hw : 0 < w) :
    (0 ≤ k - row * w ∧ k - row * w < w) ↔ k / w = row := by
  constructor
  · rintro ⟨h0, h1⟩
    have := (row_col_div row (k - row * w) w h0 h1).1
    rwa [show row * w + (k - row * w) = k by ring] at this
  · intro h
    have e1 := Int.emod_add_ediv k w
    have e2 := Int.emod_nonneg k (by omega : w ≠ 0)
    have e3 := Int.emod_lt_of_pos k hw
    rw [h] at e1
    have : w * row = row * w := by ring
    constructor <;> omega

/-- The vertical pass with any visiting order: the buffer `out` and the rows visited. -/
theorem dwt_denoise_vert_1ch_order_inv {α : Type} [LinearOrderedField α] (order : Int → Int)
    (out in_ : Int → α) (height width lev : Int) :
    ∃ j, height ≤ j ∧ (j = 0 ∨ j = height) ∧
      (∀ k, ((0 < width ∧
            ∃ rowid, 0 ≤ rowid ∧ rowid < j ∧ rowid < height ∧ order rowid = k / width) →
          (dwt_denoise_vert_1ch_order order out in_ height width lev).out k =
            vert_value in_ height width (MIN ((1 : Int) <<< lev) height) k) ∧
        (¬ (0 < width ∧
            ∃ rowid, 0 ≤ rowid ∧ rowid < j ∧ rowid < height ∧ order rowid = k / width) →
          (dwt_denoise_vert_1ch_order order out in_ height width lev).out k = out k)) ∧
      ((dwt_denoise_vert_1ch_order order out in_ height width lev).rows.map (fun a => a.row)
        = ((List.range j.toNat).map (fun i : Nat => order i)).reverse) := by
  have key : (∀ k, ((0 < width ∧
            ∃ rowid, 0 ≤ rowid ∧ rowid < max 0 height ∧ rowid < height ∧
              order rowid = k / width) →
          (dwt_denoise_vert_1ch_order order out in_ height width lev).out k =
            vert_value in_ height width (MIN ((1 : Int) <<< lev) height) k) ∧
        (¬ (0 < width ∧
            ∃ rowid, 0 ≤ rowid ∧ rowid < max 0 height ∧ rowid < height ∧
              order rowid = k / width) →
          (dwt_denoise_vert_1ch_order order out in_ height width lev).out k = out k)) ∧
      (0 ≤ max 0 height ∧
        (dwt_denoise_vert_1ch_order order out in_ height width lev).rows.map (fun a => a.row)
        = ((List.range (max 0 height).toNat).map (fun i : Nat => order i)).reverse) := by
    unfold dwt_denoise_vert_1ch_order
    dsimp only
    refine forLoop_induct_exact 0 height _
      (fun j (res : VertResult α) =>
        (∀ k, ((0 < width ∧
              ∃ rowid, 0 ≤ rowid ∧ rowid < j ∧ rowid < height ∧ order rowid = k / width) →
            res.out k = vert_value in_ height width (MIN ((1 : Int) <<< lev) height) k) ∧
          (¬ (0 < width ∧
              ∃ rowid, 0 ≤ rowid ∧ rowid < j ∧ rowid < height ∧ order rowid = k / width) →
            res.out k = out k)) ∧
        (0 ≤ j ∧ res.rows.map (fun a => a.row)
          = ((List.range j.toNat).map (fun i : Nat => order i)).reverse))
      { out := out, rows := [] }
      ⟨by
        intro k
        refine ⟨?_, fun _ => rfl⟩
        rintro ⟨_, r, h0, h1, _⟩
        omega, le_rfl, by simp⟩ ?_
    intro i res hi0 hi1 ⟨hout, hj0, hrows⟩
    refine ⟨?_, by omega, ?_⟩
    · intro k
      simp only
      rw [forLoop_store]
      by_cases hw : 0 < width
      · by_cases hrow : k / width = order i
        · rw [if_pos ((in_row_iff k (order i) width hw).2 hrow)]
          refine ⟨fun _ => ?_, fun h => absurd ⟨hw, i, hi0, by omega, hi1, hrow.symm⟩ h⟩
          have hmod : k - order i * width = k % width := by
            have e1 := Int.emod_add_ediv k width
            rw [hrow] at e1
            have : width * order i = order i * width := by ring
            omega
          simp only [vert_value, hrow, hmod]
          rw [show order i * width + k % width = k by omega]
        · rw [if_neg (fun h => hrow ((in_row_iff k (order i) width hw).1 h))]
          constructor
          · rintro ⟨_, r, r0, r1, r2, r3⟩
            have hri : r ≠ i := fun hri => hrow (by rw [← r3, hri])
            exact (hout k).1 ⟨hw, r, r0, by omega, r2, r3⟩
          · intro hc
            refine (hout k).2 ?_
            rintro ⟨_, r, r0, r1, r2, r3⟩
            exact hc ⟨hw, r, r0, by omega, r2, r3⟩
      · rw [if_neg (by omega)]
        exact ⟨fun h => absurd h.1 hw, fun _ => (hout k).2 (fun h => hw h.1)⟩
    · simp only [List.map_cons]
      rw [hrows]
      have e : (i + 1).toNat = i.toNat + 1 := by omega
      rw [e, List.range_succ, List.map_append, List.reverse_append]
      simp [Int.toNat_of_nonneg hi0]
  refine ⟨max 0 height, le_max_right _ _, ?_, key.1, key.2.2⟩
  rcases max_cases 0 height with ⟨e, _⟩ | ⟨e, _⟩ <;> simp [e]

/-- The buffer written by the vertical pass for any visiting order that reaches every row of
the plane and only rows of the plane. -/
theorem dwt_denoise_vert_1ch_order_out {α : Type} [LinearOrderedField α] (order : Int → Int)
    (out in_ : Int → α) (height width lev : Int)
    (hsurj : ∀ r, 0 ≤ r → r < height → ∃ rowid, 0 ≤ rowid ∧ rowid < height ∧ order rowid = r)
    (hrange : ∀ rowid, 0 ≤ rowid → rowid < height →
      0 ≤ order rowid ∧ order rowid < height) (k : Int) :
    ((0 < width ∧ 0 ≤ k / width ∧ k / width < height) →
      (dwt_denoise_vert_1ch_order order out in_ height width lev).out k =
        vert_value in_ height width (MIN ((1 : Int) <<< lev) height) k) ∧
    (¬ (0 < width ∧ 0 ≤ k / width ∧ k / width < height) →
      (dwt_denoise_vert_1ch_order order out in_ height width lev).out k = out k) := by
  obtain ⟨j, hj, _, hout, _⟩ := dwt_denoise_vert_1ch_order_inv order out in_ height width lev
  constructor
  · rintro ⟨hw, h0, h1⟩
    obtain ⟨rowid, r0, r1, r2⟩ := hsurj (k / width) h0 h1
    exact (hout k).1 ⟨hw, rowid, r0, by omega, r1, r2⟩
  · intro hc
    refine (hout k).2 ?_
    rintro ⟨hw, rowid, r0, _, r1, r2⟩
    have := hrange rowid r0 r1
    exact hc ⟨hw, by omega, by omega⟩

/-- The rows visited by the vertical pass, in order. -/
theorem dwt_denoise_vert_1ch_rows {α : Type} [LinearOrderedField α] (order : Int → Int)
    (out in_ : Int → α) (height width lev : Int) :
    (dwt_denoise_vert_1ch_order order out in_ height width lev).rows.map (fun a => a.row)
      = ((List.range height.toNat).map (fun i : Nat => order i)).reverse := by
  obtain ⟨j, hj, hj2, _, hrows⟩ := dwt_denoise_vert_1ch_order_inv order out in_ height width lev
  rw [hrows]
  rcases hj2 with rfl | rfl
  · have : height.toNat = 0 := by omega
    rw [this]; rfl
  · rfl

/-- C11. Row order does not affect the vertical pass: for `0 ≤ lev` and
`vscale = MIN (1 << lev) height < height`, (1) every pixel `(r, c)` of the plane gets
`out[r][c] = 2*in[r][c] + in[|r - vscale|][c] + in[b(r)][c]` with `b(r) = r + vscale` if
`r + vscale < height` and `2*(height-1) - (r + vscale)` otherwise, both rows lying in
`[0, height)`; (2) the whole buffer `out` equals the buffer written when the rows are visited
in any other order that reaches every row of `[0, height)` and only those, in particular (3) in
the natural order `0 .. height-1`; (4) the rows visited by the code, in the order
`rowid_to_row 0, rowid_to_row 1, ...`, are a permutation of `0 .. height-1`, so every row is
written exactly once. -/
theorem dwt_denoise_vert_1ch_row_order {α : Type} [LinearOrderedField α] (out in_ : Int → α)
    (height width lev : Int) (hlev : 0 ≤ lev)
    (hv : MIN ((1 : Int) <<< lev) height < height) :
    (∀ r c, 0 ≤ r → r < height → 0 ≤ c → c < width →
      (dwt_denoise_vert_1ch out in_ height width lev).out (r * width + c) =
        2 * in_ (r * width + c)
          + in_ (|r - MIN ((1 : Int) <<< lev) height| * width + c)
          + in_ ((if r + MIN ((1 : Int) <<< lev) height < height
              then r + MIN ((1 : Int) <<< lev) height
              else 2 * (height - 1) - (r + MIN ((1 : Int) <<< lev) height)) * width + c) ∧
      |r - MIN ((1 : Int) <<< lev) height| < height ∧
      0 ≤ (if r + MIN ((1 : Int) <<< lev) height < height
              then r + MIN ((1 : Int) <<< lev) height
              else 2 * (height - 1) - (r + MIN ((1 : Int) <<< lev) height)) ∧
      (if r + MIN ((1 : Int) <<< lev) height < height
              then r + MIN ((1 : Int) <<< lev) height
              else 2 * (height - 1) - (r + MIN ((1 : Int) <<< lev) height)) < height) ∧
    (∀ order : Int → Int,
      (∀ r, 0 ≤ r → r < height → ∃ rowid, 0 ≤ rowid ∧ rowid < height ∧ order rowid = r) →
      (∀ rowid, 0 ≤ rowid → rowid < height → 0 ≤ order rowid ∧ order rowid < height) →
      (dwt_denoise_vert_1ch_order order out in_ height width lev).out
        = (dwt_denoise_vert_1ch out in_ height width lev).out) ∧
    ((dwt_denoise_vert_1ch_order (fun rowid => rowid) out in_ height width lev).out
        = (dwt_denoise_vert_1ch out in_ height width lev).out) ∧
    ((dwt_denoise_vert_1ch out in_ height width lev).rows.map (fun a => a.row)
        = ((List.range height.toNat).map
            (fun i : Nat => rowid_to_row i height (MIN ((1 : Int) <<< lev) height))).reverse ∧
      List.Perm ((dwt_denoise_vert_1ch out in_ height width lev).rows.map (fun a => a.row))
        ((List.range height.toNat).map (fun i : Nat => (i : Int)))) := by
  have hs : 1 ≤ MIN ((1 : Int) <<< lev) height := by
    have h1 : (1 : Int) ≤ 2 ^ lev.toNat := one_le_pow₀ (by norm_num)
    rw [MIN_eq_min, one_shiftLeft_eq lev hlev] at hv ⊢
    rcases min_cases ((2 : Int) ^ lev.toNat) height with ⟨e, _⟩ | ⟨e, _⟩ <;> omega
  have hsurj := rowid_to_row_surj height (MIN ((1 : Int) <<< lev) height) hs
  have hrange : ∀ rowid, 0 ≤ rowid → rowid < height →
      0 ≤ rowid_to_row rowid height (MIN ((1 : Int) <<< lev) height) ∧
        rowid_to_row rowid height (MIN ((1 : Int) <<< lev) height) < height :=
    fun rowid h0 h1 => ⟨(rowid_to_row_spec rowid height _ hs h0 h1).1,
      (rowid_to_row_spec rowid height _ hs h0 h1).2.1⟩
  have hcode := dwt_denoise_vert_1ch_order_out
    (fun rowid => rowid_to_row rowid height (MIN ((1 : Int) <<< lev) height))
    out in_ height width lev hsurj hrange
  have hany : ∀ order : Int → Int,
      (∀ r, 0 ≤ r → r < height → ∃ rowid, 0 ≤ rowid ∧ rowid < height ∧ order rowid = r) →
      (∀ rowid, 0 ≤ rowid → rowid < height → 0 ≤ order rowid ∧ order rowid < height) →
      (dwt_denoise_vert_1ch_order order out in_ height width lev).out
        = (dwt_denoise_vert_1ch out in_ height width lev).out := by
    intro order h1 h2
    funext k
    rw [dwt_denoise_vert_1ch_eq_order]
    by_cases hc : 0 < width ∧ 0 ≤ k / width ∧ k / width < height
    · rw [(dwt_denoise_vert_1ch_order_out order out in_ height width lev h1 h2 k).1 hc,
        (hcode k).1 hc]
    · rw [(dwt_denoise_vert_1ch_order_out order out in_ height width lev h1 h2 k).2 hc,
        (hcode k).2 hc]
  refine ⟨?_, hany, ?_, ?_, ?_⟩
  · intro r c hr0 hr1 hc0 hc1
    have hdiv := row_col_div r c width hc0 hc1
    refine ⟨?_, ?_, ?_, ?_⟩
    · rw [dwt_denoise_vert_1ch_eq_order,
        (hcode (r * width + c)).1 ⟨by omega, by rw [hdiv.1]; exact hr0, by rw [hdiv.1]; exact hr1⟩]
      simp only [vert_value, hdiv.1, hdiv.2, c_abs_eq]
    · rw [abs_lt]; constructor <;> omega
    · split_ifs <;> omega
    · split_ifs <;> omega
  · exact hany (fun rowid => rowid) (fun r h0 h1 => ⟨r, h0, h1, rfl⟩) (fun r h0 h1 => ⟨h0, h1⟩)
  · rw [dwt_denoise_vert_1ch_eq_order]
    exact dwt_denoise_vert_1ch_rows _ out in_ height width lev
  · rw [dwt_denoise_vert_1ch_eq_order, dwt_denoise_vert_1ch_rows]
    refine (List.reverse_perm _).trans ?_
    rw [List.perm_ext_iff_of_nodup]
    · intro a
      simp only [List.mem_map, List.mem_range]
      constructor
      · rintro ⟨i, hi, rfl⟩
        have := hrange i (by omega) (by omega)
        exact ⟨(rowid_to_row i height (MIN ((1 : Int) <<< lev) height)).toNat, by omega, by omega⟩
      · rintro ⟨i, hi, rfl⟩
        obtain ⟨rowid, r0, r1, r2⟩ := hsurj i (by omega) (by omega)
        exact ⟨rowid.toNat, by omega, by rw [Int.toNat_of_nonneg r0]; exact r2⟩
    · refine List.Nodup.map_on ?_ (List.nodup_range _)
      intro x hx y hy hxy
      rw [List.mem_range] at hx hy
      have := rowid_to_row_inj height _ hs x y ⟨by omega, by omega⟩ ⟨by omega, by omega⟩ hxy
      omega
    · refine List.Nodup.map_on ?_ (List.nodup_range _)
      intro x _ y _ hxy
      omega

/-- A plane of 5 rows and 2 columns at level 1 (`vscale = 2`): natural order and scheduled order
write the same buffer. -/
theorem dwt_denoise_vert_1ch_row_order_witness :
    (0 : Int) ≤ 1 ∧ MIN ((1 : Int) <<< (1 : Int)) 5 < 5 ∧
    (dwt_denoise_vert_1ch_order (fun rowid => rowid) (fun _ => (0 : ℚ)) (fun k => (k : ℚ))
        5 2 1).out
      = (dwt_denoise_vert_1ch (fun _ => (0 : ℚ)) (fun k => (k : ℚ)) 5 2 1).out :=
  ⟨by decide, by decide,
    (dwt_denoise_vert_1ch_row_order (fun _ => (0 : ℚ)) (fun k => (k : ℚ)) 5 2 1
      (by decide) (by decide)).2.2.1⟩


/-! ## Closed form of the horizontal pass -/

/-- A column loop of the horizontal pass: the pixels of `[lo, hi)` get `hatf col`, their
accumulator entries the soft-thresholded difference, and every new update is logged with its
`hat`. -/
theorem horiz_cols_apply {α : Type} [LinearOrderedField α] (lo hi ri row : Int)
    (hatf : Int → α) (T : α) (s : HorizState α) :
    (∀ k, (forLoop lo hi (fun col st => horiz_pixel ri row col (hatf col) T st) s).details k
        = (if lo ≤ k - ri ∧ k - ri < hi then hatf (k - ri) else s.details k)) ∧
    (∀ k, (forLoop lo hi (fun col st => horiz_pixel ri row col (hatf col) T st) s).accum k
        = (if lo ≤ k - ri ∧ k - ri < hi
            then s.accum k + soft_excess (s.details k - hatf (k - ri)) T else s.accum k)) ∧
    (∀ e ∈ (forLoop lo hi (fun col st => horiz_pixel ri row col (hatf col) T st) s).log,
        e ∈ s.log ∨ (e.row = row ∧ lo ≤ e.col ∧ e.col < hi ∧ e.hat = hatf e.col)) := by
  have key := forLoop_induct_exact lo hi
    (fun col st => horiz_pixel ri row col (hatf col) T st)
    (fun j (q : HorizState α) =>
      (∀ k, q.details k = (if lo ≤ k - ri ∧ k - ri < j then hatf (k - ri) else s.details k)) ∧
      (∀ k, q.accum k = (if lo ≤ k - ri ∧ k - ri < j
            then s.accum k + soft_excess (s.details k - hatf (k - ri)) T else s.accum k)) ∧
      (∀ e ∈ q.log,
        e ∈ s.log ∨ (e.row = row ∧ lo ≤ e.col ∧ e.col < j ∧ e.col < hi ∧ e.hat = hatf e.col))) s
    ⟨by intro k; rw [if_neg (by omega)], by intro k; rw [if_neg (by omega)],
      fun e he => Or.inl he⟩
    (by
      rintro i q h0 h1 ⟨hd, ha, hl⟩
      refine ⟨?_, ?_, ?_⟩
      · intro k
        simp only [horiz_pixel]
        by_cases hk : k = ri + i
        · subst hk
          rw [store_same, if_pos (by omega)]; congr 1; omega
        · rw [store_other _ _ _ _ hk, hd k]
          by_cases hc : lo ≤ k - ri ∧ k - ri < i
          · rw [if_pos hc, if_pos (by omega)]
          · rw [if_neg hc, if_neg (by omega)]
      · intro k
        simp only [horiz_pixel]
        by_cases hk : k = ri + i
        · subst hk
          rw [store_same, if_pos (by omega), ha, hd, if_neg (by omega), if_neg (by omega)]
          rw [show ri + i - ri = i by omega]
        · rw [store_other _ _ _ _ hk, ha k]
          by_cases hc : lo ≤ k - ri ∧ k - ri < i
          · rw [if_pos hc, if_pos (by omega)]
          · rw [if_neg hc, if_neg (by omega)]
      · intro e he
        simp only [horiz_pixel, List.mem_cons] at he
        rcases he with rfl | he
        · exact Or.inr ⟨rfl, h0, by simp, h1, rfl⟩
        · rcases hl e he with h | ⟨r1, r2, r3, r4, r5⟩
          · exact Or.inl h
          · exact Or.inr ⟨r1, r2, by omega, r4, r5⟩)
  obtain ⟨hd, ha, hl⟩ := key
  have hmax : ∀ x : Int, lo ≤ x → (x < max lo hi ↔ x < hi) := by
    intro x hx
    rcases max_cases lo hi with ⟨e, _⟩ | ⟨e, _⟩ <;> omega
  refine ⟨?_, ?_, ?_⟩
  · intro k
    rw [hd k]
    by_cases hc : lo ≤ k - ri ∧ k - ri < hi
    · rw [if_pos hc, if_pos ⟨hc.1, (hmax _ hc.1).2 hc.2⟩]
    · rw [if_neg hc, if_neg (fun h => hc ⟨h.1, (hmax _ h.1).1 h.2⟩)]
  · intro k
    rw [ha k]
    by_cases hc : lo ≤ k - ri ∧ k - ri < hi
    · rw [if_pos hc, if_pos ⟨hc.1, (hmax _ hc.1).2 hc.2⟩]
    · rw [if_neg hc, if_neg (fun h => hc ⟨h.1, (hmax _ h.1).1 h.2⟩)]
  · intro e he
    rcases hl e he with h | ⟨r1, r2, _, r4, r5⟩
    · exact Or.inl h
    · exact Or.inr ⟨r1, r2, r4, r5⟩

/-- The three column loops of one row of the horizontal pass, for `2 * hs ≤ width`: every
pixel of the row gets `hatf col` once. -/
theorem horiz_row_apply {α : Type} [LinearOrderedField α] (width hs ri row : Int)
    (h1 h2 h3 hatf : Int → α) (T : α) (s : HorizState α) (hs1 : 1 ≤ hs) (hw : 2 * hs ≤ width)
    (e1 : ∀ col, 0 ≤ col → col < hs → h1 col = hatf col)
    (e2 : ∀ col, hs ≤ col → col < width - hs → h2 col = hatf col)
    (e3 : ∀ col, width - hs ≤ col → col < width → h3 col = hatf col) :
    (∀ k, (forLoop (width - hs) width (fun col st => horiz_pixel ri row col (h3 col) T st)
        (forLoop hs (width - hs) (fun col st => horiz_pixel ri row col (h2 col) T st)
          (forLoop 0 hs (fun col st => horiz_pixel ri row col (h1 col) T st) s))).details k
        = (if 0 ≤ k - ri ∧ k - ri < width then hatf (k - ri) else s.details k)) ∧
    (∀ k, (forLoop (width - hs) width (fun col st => horiz_pixel ri row col (h3 col) T st)
        (forLoop hs (width - hs) (fun col st => horiz_pixel ri row col (h2 col) T st)
          (forLoop 0 hs (fun col st => horiz_pixel ri row col (h1 col) T st) s))).accum k
        = (if 0 ≤ k - ri ∧ k - ri < width
            then s.accum k + soft_excess (s.details k - hatf (k - ri)) T else s.accum k)) ∧
    (∀ e ∈ (forLoop (width - hs) width (fun col st => horiz_pixel ri row col (h3 col) T st)
        (forLoop hs (width - hs) (fun col st => horiz_pixel ri row col (h2 col) T st)
          (forLoop 0 hs (fun col st => horiz_pixel ri row col (h1 col) T st) s))).log,
        e ∈ s.log ∨ (e.row = row ∧ 0 ≤ e.col ∧ e.col < width ∧ e.hat = hatf e.col)) := by
  obtain ⟨d1, a1, l1⟩ := horiz_cols_apply 0 hs ri row h1 T s
  obtain ⟨d2, a2, l2⟩ := horiz_cols_apply hs (width - hs) ri row h2 T
    (forLoop 0 hs (fun col st => horiz_pixel ri row col (h1 col) T st) s)
  obtain ⟨d3, a3, l3⟩ := horiz_cols_apply (width - hs) width ri row h3 T
    (forLoop hs (width - hs) (fun col st => horiz_pixel ri row col (h2 col) T st)
      (forLoop 0 hs (fun col st => horiz_pixel ri row col (h1 col) T st) s))
  refine ⟨?_, ?_, ?_⟩
  · intro k
    rw [d3 k, d2 k, d1 k]
    by_cases c3 : width - hs ≤ k - ri ∧ k - ri < width
    · rw [if_pos c3, if_pos (by omega), e3 _ c3.1 c3.2]
    · rw [if_neg c3]
      by_cases c2 : hs ≤ k - ri ∧ k - ri < width - hs
      · rw [if_pos c2, if_pos (by omega), e2 _ c2.1 c2.2]
      · rw [if_neg c2]
        by_cases c1 : 0 ≤ k - ri ∧ k - ri < hs
        · rw [if_pos c1, if_pos (by omega), e1 _ c1.1 c1.2]
        · rw [if_neg c1, if_neg (by omega)]
  · intro k
    rw [a3 k, a2 k, a1 k, d2 k, d1 k]
    by_cases c3 : width - hs ≤ k - ri ∧ k - ri < width
    · have n2 : ¬ (hs ≤ k - ri ∧ k - ri < width - hs) := by omega
      have n1 : ¬ (0 ≤ k - ri ∧ k - ri < hs) := by omega
      have c : 0 ≤ k - ri ∧ k - ri < width := by omega
      simp only [if_pos c3, if_neg n2, if_neg n1, if_pos c, e3 _ c3.1 c3.2]
    · by_cases c2 : hs ≤ k - ri ∧ k - ri < width - hs
      · have n1 : ¬ (0 ≤ k - ri ∧ k - ri < hs) := by omega
        have c : 0 ≤ k - ri ∧ k - ri < width := by omega
        simp only [if_neg c3, if_pos c2, if_neg n1, if_pos c, e2 _ c2.1 c2.2]
      · by_cases c1 : 0 ≤ k - ri ∧ k - ri < hs
        · have c : 0 ≤ k - ri ∧ k - ri < width := by omega
          simp only [if_neg c3, if_neg c2, if_pos c1, if_pos c, e1 _ c1.1 c1.2]
        · have c : ¬ (0 ≤ k - ri ∧ k - ri < width) := by omega
          simp only [if_neg c3, if_neg c2, if_neg c1, if_neg c]
  · intro e he
    rcases l3 e he with h | ⟨r1, r2, r3, r4⟩
    · rcases l2 e h with h | ⟨r1, r2, r3, r4⟩
      · rcases l1 e h with h | ⟨r1, r2, r3, r4⟩
        · exact Or.inl h
        · exact Or.inr ⟨r1, r2, by omega, by rw [r4, e1 _ r2 r3]⟩
      · exact Or.inr ⟨r1, by omega, by omega, by rw [r4, e2 _ r2 r3]⟩
    · exact Or.inr ⟨r1, by omega, r3, by rw [r4, e3 _ r2 r3]⟩

/-- The loop of the last level that adds the accumulator to the row. -/
theorem horiz_last_apply {α : Type} [LinearOrderedField α] (width ri : Int)
    (s : HorizState α) :
    (∀ k, (forLoop 0 width (fun col (s : HorizState α) =>
        { s with details := store s.details (ri + col)
                   (s.details (ri + col) + s.accum (ri + col)) }) s).details k
        = (if 0 ≤ k - ri ∧ k - ri < width then s.details k + s.accum k else s.details k)) ∧
    (forLoop 0 width (fun col (s : HorizState α) =>
        { s with details := store s.details (ri + col)
                   (s.details (ri + col) + s.accum (ri + col)) }) s).accum = s.accum ∧
    (forLoop 0 width (fun col (s : HorizState α) =>
        { s with details := store s.details (ri + col)
                   (s.details (ri + col) + s.accum (ri + col)) }) s).log = s.log := by
  have key := forLoop_induct_exact 0 width
    (fun col (s : HorizState α) =>
        { s with details := store s.details (ri + col)
                   (s.details (ri + col) + s.accum (ri + col)) })
    (fun j (q : HorizState α) =>
      (∀ k, q.details k
        = (if 0 ≤ k - ri ∧ k - ri < j then s.details k + s.accum k else s.details k)) ∧
      q.accum = s.accum ∧ q.log = s.log) s
    ⟨by intro k; rw [if_neg (by omega)], rfl, rfl⟩
    (by
      rintro i q h0 h1 ⟨hd, ha, hl⟩
      refine ⟨?_, ha, hl⟩
      intro k
      simp only
      by_cases hk : k = ri + i
      · subst hk
        rw [store_same, if_pos (by omega), hd, ha, if_neg (by omega)]
      · rw [store_other _ _ _ _ hk, hd k]
        by_cases hc : 0 ≤ k - ri ∧ k - ri < i
        · rw [if_pos hc, if_pos (by omega)]
        · rw [if_neg hc, if_neg (by omega)])
  obtain ⟨hd, ha, hl⟩ := key
  refine ⟨?_, ha, hl⟩
  intro k
  rw [hd k]
  by_cases hc : 0 ≤ k - ri ∧ k - ri < width
  · rw [if_pos hc, if_pos ⟨hc.1, lt_of_lt_of_le hc.2 (le_max_right _ _)⟩]
  · rw [if_neg hc, if_neg]
    rintro ⟨h1, h2⟩
    rcases max_cases 0 width with ⟨e, _⟩ | ⟨e, _⟩ <;> rw [e] at h2 <;> omega

/-- Closed form of the horizontal pass for `2 * hscale ≤ width`: every pixel of the plane gets
the accumulator update `soft_excess (in - hat)` once, and `in` becomes `hat` (plus the new
accumulator on the last level); every logged update carries the `hat` of its pixel. -/
theorem dwt_denoise_horiz_1ch_apply {α : Type} [LinearOrderedField α]
    (out in_ accum : Int → α) (height width lev : Int) (T : α) (last : Int)
    (hlev : 0 ≤ lev) (hw : 2 * 2 ^ lev.toNat ≤ width) :
    (∀ r c, 0 ≤ r → r < height → 0 ≤ c → c < width →
      (dwt_denoise_horiz_1ch out in_ accum height width lev T last).accum (r * width + c)
        = accum (r * width + c)
          + soft_excess (in_ (r * width + c) - horiz_hat out width (2 ^ lev.toNat) r c) T ∧
      (dwt_denoise_horiz_1ch out in_ accum height width lev T last).details (r * width + c)
        = horiz_hat out width (2 ^ lev.toNat) r c
          + (if last ≠ 0 then
              (dwt_denoise_horiz_1ch out in_ accum height width lev T last).accum
                (r * width + c)
            else 0)) ∧
    (∀ e ∈ (dwt_denoise_horiz_1ch out in_ accum height width lev T last).log,
      0 ≤ e.row ∧ e.row < height ∧ 0 ≤ e.col ∧ e.col < width ∧
        e.hat = horiz_hat out width (2 ^ lev.toNat) e.row e.col) := by
  have hvs1 : (1 : Int) ≤ 2 ^ lev.toNat := one_le_pow₀ (by norm_num)
  have hsc : MIN ((1 : Int) <<< lev) width = 2 ^ lev.toNat := by
    rw [MIN_eq_min, one_shiftLeft_eq lev hlev, min_eq_left (by omega)]
  have hw0 : 0 < width := by omega
  have key : ∃ j, height ≤ j ∧
      ((∀ r c, 0 ≤ r → r < height → 0 ≤ c → c < width →
        (r < j →
          (dwt_denoise_horiz_1ch out in_ accum height width lev T last).accum (r * width + c)
            = accum (r * width + c)
              + soft_excess (in_ (r * width + c) - horiz_hat out width (2 ^ lev.toNat) r c) T ∧
          (dwt_denoise_horiz_1ch out in_ accum height width lev T last).details
              (r * width + c)
            = horiz_hat out width (2 ^ lev.toNat) r c
              + (if last ≠ 0 then
                  (dwt_denoise_horiz_1ch out in_ accum height width lev T last).accum
                    (r * width + c)
                else 0)) ∧
        (j ≤ r →
          (dwt_denoise_horiz_1ch out in_ accum height width lev T last).accum (r * width + c)
            = accum (r * width + c) ∧
          (dwt_denoise_horiz_1ch out in_ accum height width lev T last).details
              (r * width + c) = in_ (r * width + c))) ∧
      (∀ e ∈ (dwt_denoise_horiz_1ch out in_ accum height width lev T last).log,
        0 ≤ e.row ∧ e.row < height ∧ 0 ≤ e.col ∧ e.col < width ∧
          e.hat = horiz_hat out width (2 ^ lev.toNat) e.row e.col)) := by
    unfold dwt_denoise_horiz_1ch
    rw [hsc]
    refine forLoop_induct 0 height _
      (fun j (st : HorizState α) =>
        (∀ r c, 0 ≤ r → r < height → 0 ≤ c → c < width →
          (r < j →
            st.accum (r * width + c)
              = accum (r * width + c)
                + soft_excess (in_ (r * width + c)
                    - horiz_hat out width (2 ^ lev.toNat) r c) T ∧
            st.details (r * width + c)
              = horiz_hat out width (2 ^ lev.toNat) r c
                + (if last ≠ 0 then st.accum (r * width + c) else 0)) ∧
          (j ≤ r →
            st.accum (r * width + c) = accum (r * width + c) ∧
            st.details (r * width + c) = in_ (r * width + c))) ∧
        (∀ e ∈ st.log,
          0 ≤ e.row ∧ e.row < height ∧ 0 ≤ e.col ∧ e.col < width ∧
            e.hat = horiz_hat out width (2 ^ lev.toNat) e.row e.col))
      { details := in_, accum := accum, log := [] }
      ⟨fun r c r0 r1 c0 c1 => ⟨fun h => by omega, fun _ => ⟨rfl, rfl⟩⟩,
        by intro e he; simp at he⟩ ?_
    rintro i st hi0 hi1 ⟨hpix, hlog⟩
    simp only
    obtain ⟨d3, a3, l3⟩ := horiz_row_apply width (2 ^ lev.toNat) (i * width) i
      (fun col => (2 * out (i * width + col) + out (i * width + (2 ^ lev.toNat - col))
          + out (i * width + (col + 2 ^ lev.toNat))) / 16)
      (fun col => (2 * out (i * width + col) + out (i * width + (col - 2 ^ lev.toNat))
          + out (i * width + (col + 2 ^ lev.toNat))) / 16)
      (fun col => (2 * out (i * width + col) + out (i * width + (col - 2 ^ lev.toNat))
          + out (i * width + (2 * width - 2 - (col + 2 ^ lev.toNat)))) / 16)
      (fun col => horiz_hat out width (2 ^ lev.toNat) i col) T st hvs1 hw
      (by
        intro col c0 c1
        simp only [horiz_hat, hat_right]
        rw [abs_of_nonpos (by omega), if_pos (by omega)]
        congr 3; congr 1; ring)
      (by
        intro col c0 c1
        simp only [horiz_hat, hat_right]
        rw [abs_of_nonneg (by omega), if_pos (by omega)])
      (by
        intro col c0 c1
        simp only [horiz_hat, hat_right]
        rw [abs_of_nonneg (by omega), if_neg (by omega)]
        congr 3; congr 1; ring)
    have hrow : ∀ r c, 0 ≤ c → c < width →
        ((0 ≤ r * width + c - i * width ∧ r * width + c - i * width < width) ↔ r = i) := by
      intro r c c0 c1
      rw [in_row_iff _ _ _ hw0, (row_col_div r c width c0 c1).1]
    have hcol : ∀ c, i * width + c - i * width = c := fun c => by ring
    by_cases hl : last ≠ 0
    · rw [if_pos hl]
      obtain ⟨d4, a4, l4⟩ := horiz_last_apply width (i * width)
        (forLoop (width - 2 ^ lev.toNat) width
          (fun col st => horiz_pixel (i * width) i col
            ((2 * out (i * width + col) + out (i * width + (col - 2 ^ lev.toNat))
              + out (i * width + (2 * width - 2 - (col + 2 ^ lev.toNat)))) / 16) T st)
          (forLoop (2 ^ lev.toNat) (width - 2 ^ lev.toNat)
            (fun col st => horiz_pixel (i * width) i col
              ((2 * out (i * width + col) + out (i * width + (col - 2 ^ lev.toNat))
                + out (i * width + (col + 2 ^ lev.toNat))) / 16) T st)
            (forLoop 0 (2 ^ lev.toNat)
              (fun col st => horiz_pixel (i * width) i col
                ((2 * out (i * width + col) + out (i * width + (2 ^ lev.toNat - col))
                  + out (i * width + (col + 2 ^ lev.toNat))) / 16) T st) st)))
      refine ⟨?_, ?_⟩
      · intro r c r0 r1 c0 c1
        rw [a4, d4, d3, a3]
        by_cases hri : r = i
        · subst hri
          have hc := (hrow r c c0 c1).2 rfl
          rw [if_pos hc, if_pos hc, if_pos hc, hcol, if_pos hl,
            ((hpix r c r0 r1 c0 c1).2 le_rfl).1, ((hpix r c r0 r1 c0 c1).2 le_rfl).2]
          exact ⟨fun _ => ⟨rfl, rfl⟩, fun h => by omega⟩
        · have hc : ¬ (0 ≤ r * width + c - i * width ∧ r * width + c - i * width < width) :=
            fun h => hri ((hrow r c c0 c1).1 h)
          rw [if_neg hc, if_neg hc, if_neg hc]
          exact ⟨fun h => (hpix r c r0 r1 c0 c1).1 (by omega),
            fun h => (hpix r c r0 r1 c0 c1).2 (by omega)⟩
      · intro e he
        rw [l4] at he
        rcases l3 e he with h | ⟨e1, e2, e3, e4⟩
        · exact hlog e h
        · exact ⟨by omega, by omega, e2, e3, by rw [e4, e1]⟩
    · rw [if_neg hl]
      refine ⟨?_, ?_⟩
      · intro r c r0 r1 c0 c1
        rw [d3, a3]
        by_cases hri : r = i
        · subst hri
          have hc := (hrow r c c0 c1).2 rfl
          rw [if_pos hc, if_pos hc, hcol, if_neg hl,
            ((hpix r c r0 r1 c0 c1).2 le_rfl).1, ((hpix r c r0 r1 c0 c1).2 le_rfl).2]
          exact ⟨fun _ => ⟨rfl, by rw [add_zero]⟩, fun h => by omega⟩
        · have hc : ¬ (0 ≤ r * width + c - i * width ∧ r * width + c - i * width < width) :=
            fun h => hri ((hrow r c c0 c1).1 h)
          rw [if_neg hc, if_neg hc]
          exact ⟨fun h => (hpix r c r0 r1 c0 c1).1 (by omega),
            fun h => (hpix r c r0 r1 c0 c1).2 (by omega)⟩
      · intro e he
        rcases l3 e he with h | ⟨e1, e2, e3, e4⟩
        · exact hlog e h
        · exact ⟨by omega, by omega, e2, e3, by rw [e4, e1]⟩
  obtain ⟨j, hj, hpix, hlog⟩ := key
  exact ⟨fun r c r0 r1 c0 c1 => (hpix r c r0 r1 c0 c1).1 (by omega), hlog⟩


/-! ## Separable smoothing -/

/-- The values `hat_transform` stores, for `1 ≤ scale` and `2 * scale ≤ size`. -/
theorem hat_transform_temp {α : Type} [LinearOrderedField α] (temp base : Int → α)
    (stride size scale : Int) (hs : 1 ≤ scale) (h2 : 2 * scale ≤ size) (i : Int) :
    (hat_transform temp base stride size scale).temp i =
      if 0 ≤ i ∧ i < size then hat_formula base stride size scale i else temp i := by
  obtain ⟨⟨_, _, hval, hout, _, _⟩, hi⟩ := hat_transform_inv temp base stride size scale hs h2
  by_cases hc : 0 ≤ i ∧ i < size
  · rw [if_pos hc, hval i hc.1 (by omega)]
  · rw [if_neg hc, hout i (by omega)]

/-- A call of `hat_transform` on two lines of one buffer. -/
theorem hat_transform_at_apply {α : Type} [LinearOrderedField α] (fimg : Int → α)
    (temp base stride size scale : Int) (hs : 1 ≤ scale) (h2 : 2 * scale ≤ size) (a : Int) :
    hat_transform_at fimg temp base stride size scale a =
      if 0 ≤ a - temp ∧ a - temp < size
        then hat_formula (fun k => fimg (base + k)) stride size scale (a - temp)
        else fimg a := by
  unfold hat_transform_at
  rw [hat_transform_temp _ _ stride size scale hs h2]
  congr 2
  omega

theorem line_index_lt (n m i j : Int) (hi0 : 0 ≤ i) (hi : i < n) (hj0 : 0 ≤ j) (hj : j < m) :
    0 ≤ i * m + j ∧ i * m + j < n * m := by
  have h1 : 0 ≤ i * m := mul_nonneg hi0 (by omega)
  have h2 : i * m ≤ (n - 1) * m := Int.mul_le_mul_of_nonneg_right (by omega) (by omega)
  have h3 : (n - 1) * m = n * m - m := by ring
  constructor <;> omega

/-- A loop of `hat_transform` calls that filters the `n` lines `i` (elements `B + i + j*n`)
of one plane into the rows `T + i*m` of a disjoint plane. -/
theorem hat_lines_apply {α : Type} [LinearOrderedField α] (b0 : XTransBuf α)
    (T B n m scale : Int) (hs : 1 ≤ scale) (h2 : 2 * scale ≤ m)
    (hd : B + n * m ≤ T ∨ T + n * m ≤ B) :
    (∀ i j, 0 ≤ i → i < n → 0 ≤ j → j < m →
      (forLoop 0 n (fun i b => hat_call b (T + i * m) (B + i) n m scale) b0).fimg
          (T + i * m + j)
        = hat_formula (fun k => b0.fimg (B + i + k)) n m scale j) ∧
    (∀ a, ¬ (T ≤ a ∧ a < T + n * m) →
      (forLoop 0 n (fun i b => hat_call b (T + i * m) (B + i) n m scale) b0).fimg a
        = b0.fimg a) := by
  have hm : 0 < m := by omega
  have key := forLoop_induct 0 n (fun i b => hat_call b (T + i * m) (B + i) n m scale)
    (fun l (b : XTransBuf α) =>
      (∀ i j, 0 ≤ i → i < l → i < n → 0 ≤ j → j < m →
        b.fimg (T + i * m + j) = hat_formula (fun k => b0.fimg (B + i + k)) n m scale j) ∧
      (∀ a, ¬ (T ≤ a ∧ a < T + n * m) → b.fimg a = b0.fimg a)) b0
    ⟨by intro i j h0 h1; omega, fun _ _ => rfl⟩
    (by
      rintro l b hl0 hl1 ⟨hA, hB⟩
      have hbase : ∀ j, 0 ≤ j → j < m → b.fimg (B + l + j * n) = b0.fimg (B + l + j * n) := by
        intro j j0 j1
        refine hB _ ?_
        have := line_index_lt m n j l j0 j1 hl0 hl1
        have e : m * n = n * m := by ring
        omega
      have hform : ∀ j, 0 ≤ j → j < m →
          hat_formula (fun k => b.fimg (B + l + k)) n m scale j
            = hat_formula (fun k => b0.fimg (B + l + k)) n m scale j := by
        intro j j0 j1
        have hb := hat_right_bounds m scale j hs h2 j0 j1
        simp only [hat_formula]
        rw [hbase _ hb.1 hb.2.1, hbase j j0 j1, hbase _ hb.2.2.1 hb.2.2.2]
      refine ⟨?_, ?_⟩
      · intro i j i0 i1 i2 j0 j1
        simp only [hat_call]
        rw [hat_transform_at_apply _ _ _ _ _ _ hs h2]
        by_cases hil : i = l
        · subst hil
          rw [if_pos (by omega), show T + i * m + j - (T + i * m) = j by omega]
          exact hform j j0 j1
        · rw [if_neg, hA i j i0 (by omega) i2 j0 j1]
          intro hc
          apply hil
          have e : T + i * m + j - (T + l * m) = i * m + j - l * m := by ring
          rw [e] at hc
          have := (in_row_iff (i * m + j) l m hm).1 hc
          rw [(row_col_div i j m j0 j1).1] at this
          exact this
      · intro a ha
        simp only [hat_call]
        rw [hat_transform_at_apply _ _ _ _ _ _ hs h2, if_neg, hB a ha]
        intro hc
        apply ha
        have := line_index_lt n m l (a - (T + l * m)) hl0 hl1 hc.1 hc.2
        omega)
  obtain ⟨l, hl, hA, hB⟩ := key
  exact ⟨fun i j i0 i1 j0 j1 => hA i j i0 (by omega) i1 j0 j1, hB⟩

/-- The separable smoothing as two nested mirror-reflected filters with the weights 1/4, 1/2,
1/4. -/
theorem separable_hat_eq {α : Type} [LinearOrderedField α] (img : Int → α)
    (width height scale : Int) (hs : 1 ≤ scale) (hw : 2 * scale ≤ width)
    (hh : 2 * scale ≤ height) (r c : Int) (hr0 : 0 ≤ r) (hr1 : r < height) (hc0 : 0 ≤ c)
    (hc1 : c < width) :
    separable_hat img width height scale r c =
      hat_formula (fun p => hat_formula (fun k => img (p + k)) width height scale r)
        1 width scale c := by
  unfold separable_hat
  rw [hat_transform_temp _ _ 1 width scale hs hw, if_pos ⟨hc0, hc1⟩]
  simp only [hat_formula]
  rw [hat_transform_temp _ _ width height scale hs hh, if_pos ⟨hr0, hr1⟩,
    hat_transform_temp _ _ width height scale hs hh, if_pos ⟨hr0, hr1⟩,
    hat_transform_temp _ _ width height scale hs hh, if_pos ⟨hr0, hr1⟩]
  simp only [hat_formula]

/-- The two passes of one Bayer level compute the separable smoothing: the `hat` of the
horizontal pass over the output of the vertical pass. -/
theorem bayer_level_hat {α : Type} [LinearOrderedField α] (img interm : Int → α)
    (height width lev : Int) (hlev : 0 ≤ lev) (hw : 2 * 2 ^ lev.toNat ≤ width)
    (hh : 2 * 2 ^ lev.toNat ≤ height) (r c : Int) (hr0 : 0 ≤ r) (hr1 : r < height)
    (hc0 : 0 ≤ c) (hc1 : c < width) :
    horiz_hat (dwt_denoise_vert_1ch interm img height width lev).out width (2 ^ lev.toNat) r c
      = separable_hat img width height (2 ^ lev.toNat) r c := by
  have hs : (1 : Int) ≤ 2 ^ lev.toNat := one_le_pow₀ (by norm_num)
  have hb := hat_right_bounds width (2 ^ lev.toNat) c hs hw hc0 hc1
  rw [separable_hat_eq img width height _ hs hw hh r c hr0 hr1 hc0 hc1]
  unfold horiz_hat
  rw [dwt_denoise_vert_1ch_apply interm img height width lev hlev (by omega) r c hr0 hr1 hc0 hc1,
    dwt_denoise_vert_1ch_apply interm img height width lev hlev (by omega) r _ hr0 hr1
      hb.1 hb.2.1,
    dwt_denoise_vert_1ch_apply interm img height width lev hlev (by omega) r _ hr0 hr1
      hb.2.2.1 hb.2.2.2]
  have e : ∀ p q : Int, img (p * 1 + q * width) = img (q * width + p) := by
    intro p q
    rw [mul_one, add_comm]
  simp only [hat_formula, e]
  ring

/-- The two filter loops of one X-Trans level compute the separable smoothing of the plane at
`pass1` into the plane at `pass3`. -/
theorem xtrans_hat_passes_apply {α : Type} [LinearOrderedField α] (b : XTransBuf α)
    (pass1 pass2 pass3 width height lev : Int) (hlev : 0 ≤ lev)
    (hw : 2 * 2 ^ lev.toNat ≤ width) (hh : 2 * 2 ^ lev.toNat ≤ height)
    (h12 : pass1 + width * height ≤ pass2 ∨ pass2 + width * height ≤ pass1)
    (h23 : pass2 + width * height ≤ pass3 ∨ pass3 + width * height ≤ pass2)
    (r c : Int) (hr0 : 0 ≤ r) (hr1 : r < height) (hc0 : 0 ≤ c) (hc1 : c < width) :
    (xtrans_hat_passes b pass1 pass2 pass3 width height lev).fimg (pass3 + r * width + c)
      = separable_hat (fun k => b.fimg (pass1 + k)) width height (2 ^ lev.toNat) r c := by
  have hs : (1 : Int) ≤ 2 ^ lev.toNat := one_le_pow₀ (by norm_num)
  have hb := hat_right_bounds width (2 ^ lev.toNat) c hs hw hc0 hc1
  have ewh : height * width = width * height := by ring
  rw [separable_hat_eq _ width height _ hs hw hh r c hr0 hr1 hc0 hc1]
  unfold xtrans_hat_passes
  simp only [one_shiftLeft_eq lev hlev]
  have l1 := (hat_lines_apply b pass2 pass1 width height (2 ^ lev.toNat) hs hh
    (by omega)).1
  have l2 := (hat_lines_apply
    (forLoop 0 width (fun col b =>
      hat_call b (pass2 + col * height) (pass1 + col) width height (2 ^ lev.toNat)) b)
    pass3 pass2 height width (2 ^ lev.toNat) hs hw (by omega)).1 r c hr0 hr1 hc0 hc1
  rw [l2]
  have e : ∀ q, 0 ≤ q → q < width →
      (forLoop 0 width (fun col b =>
        hat_call b (pass2 + col * height) (pass1 + col) width height (2 ^ lev.toNat)) b).fimg
          (pass2 + r + q * height)
        = hat_formula (fun k => b.fimg (pass1 + (q * 1 + k))) width height (2 ^ lev.toNat) r := by
    intro q q0 q1
    rw [show pass2 + r + q * height = pass2 + q * height + r by ring, l1 q r q0 q1 hr0 hr1]
    simp only [mul_one, add_assoc]
  simp only [hat_formula] at e ⊢
  rw [e _ hb.1 hb.2.1, e c hc0 hc1, e _ hb.2.2.1 hb.2.2.2]

/-- C16. The `/16` folds both passes' normalisation: for `0 ≤ lev`, `s = 2^lev`,
`2*s ≤ width` and `2*s ≤ height`, after `dwt_denoise_vert_1ch` followed by
`dwt_denoise_horiz_1ch` on the plane `img`, (1) every new coarse value `hat` the horizontal pass
computes and stores is the separable smoothing of `img` at its pixel, `separable_hat`, which
is `hat_transform` applied along every column and then along every row; (2) one such value is
computed for every pixel; (3) when `last = 0` the plane left in `img` is that smoothing, pixel
for pixel, and when `last ≠ 0` it is that smoothing plus the accumulator; (4) the smoothing is
the nested mirror-reflected filter with weights 1/4, 1/2, 1/4 at spacing `s`; (5) the two
filter loops of one level of `wavelet_denoise_xtrans` leave the same smoothing of the plane at
`pass1` in the plane at `pass3`, whenever the plane at `pass2` overlaps neither. -/
theorem bayer_level_separable {α : Type} [LinearOrderedField α] (img interm accum : Int → α)
    (height width lev : Int) (T : α) (last : Int) (hlev : 0 ≤ lev)
    (hw : 2 * 2 ^ lev.toNat ≤ width) (hh : 2 * 2 ^ lev.toNat ≤ height) :
    (∀ e ∈ (dwt_denoise_horiz_1ch (dwt_denoise_vert_1ch interm img height width lev).out
          img accum height width lev T last).log,
      0 ≤ e.row ∧ e.row < height ∧ 0 ≤ e.col ∧ e.col < width ∧
        e.hat = separable_hat img width height (2 ^ lev.toNat) e.row e.col) ∧
    LogCovers (dwt_denoise_horiz_1ch (dwt_denoise_vert_1ch interm img height width lev).out
          img accum height width lev T last).log width height ∧
    (∀ r c, 0 ≤ r → r < height → 0 ≤ c → c < width →
      (last = 0 →
        (dwt_denoise_horiz_1ch (dwt_denoise_vert_1ch interm img height width lev).out
            img accum height width lev T last).details (r * width + c)
          = separable_hat img width height (2 ^ lev.toNat) r c) ∧
      (last ≠ 0 →
        (dwt_denoise_horiz_1ch (dwt_denoise_vert_1ch interm img height width lev).out
            img accum height width lev T last).details (r * width + c)
          = separable_hat img width height (2 ^ lev.toNat) r c
            + (dwt_denoise_horiz_1ch (dwt_denoise_vert_1ch interm img height width lev).out
                img accum height width lev T last).accum (r * width + c)) ∧
      separable_hat img width height (2 ^ lev.toNat) r c
        = hat_formula (fun p => hat_formula (fun k => img (p + k)) width height
            (2 ^ lev.toNat) r) 1 width (2 ^ lev.toNat) c) ∧
    (∀ (b : XTransBuf α) (pass1 pass2 pass3 : Int),
      (pass1 + width * height ≤ pass2 ∨ pass2 + width * height ≤ pass1) →
      (pass2 + width * height ≤ pass3 ∨ pass3 + width * height ≤ pass2) →
      ∀ r c, 0 ≤ r → r < height → 0 ≤ c → c < width →
        (xtrans_hat_passes b pass1 pass2 pass3 width height lev).fimg (pass3 + r * width + c)
          = separable_hat (fun k => b.fimg (pass1 + k)) width height (2 ^ lev.toNat) r c) := by
  have hs : (1 : Int) ≤ 2 ^ lev.toNat := one_le_pow₀ (by norm_num)
  obtain ⟨hpix, hlog⟩ := dwt_denoise_horiz_1ch_apply
    (dwt_denoise_vert_1ch interm img height width lev).out img accum height width lev T last
    hlev hw
  refine ⟨?_, dwt_denoise_horiz_1ch_covers _ img accum height width lev T last hlev hw, ?_, ?_⟩
  · intro e he
    obtain ⟨r0, r1, c0, c1, hhat⟩ := hlog e he
    exact ⟨r0, r1, c0, c1, by
      rw [hhat, bayer_level_hat img interm height width lev hlev hw hh _ _ r0 r1 c0 c1]⟩
  · intro r c r0 r1 c0 c1
    have h := (hpix r c r0 r1 c0 c1).2
    rw [bayer_level_hat img interm height width lev hlev hw hh r c r0 r1 c0 c1] at h
    refine ⟨fun hl => ?_, fun hl => ?_,
      separable_hat_eq img width height _ hs hw hh r c r0 r1 c0 c1⟩
    · rw [h, if_neg (by simp [hl]), add_zero]
    · rw [h, if_pos hl]
  · intro b pass1 pass2 pass3 h12 h23 r c r0 r1 c0 c1
    exact xtrans_hat_passes_apply b pass1 pass2 pass3 width height lev hlev hw hh h12 h23
      r c r0 r1 c0 c1

/-- A plane of 2 by 2 pixels `0, 1, 2, 3` at level 0: pixel `(0, 0)` after the two passes. -/
theorem bayer_level_separable_witness :
    (0 : Int) ≤ 0 ∧ (2 : Int) * 2 ^ (0 : Int).toNat ≤ 2 ∧
    (dwt_denoise_horiz_1ch
        (dwt_denoise_vert_1ch (fun _ => (0 : ℚ)) (fun k => (k : ℚ)) 2 2 0).out
        (fun k => (k : ℚ)) (fun _ => 0) 2 2 0 0 0).details (0 * 2 + 0)
      = separable_hat (fun k => (k : ℚ)) 2 2 (2 ^ (0 : Int).toNat) 0 0 :=
  ⟨by decide, by decide,
    ((bayer_level_separable (fun k => (k : ℚ)) (fun _ => (0 : ℚ)) (fun _ => (0 : ℚ)) 2 2 0 0 0
      (by decide) (by decide) (by decide)).2.2.1 0 0 (by decide) (by decide) (by decide)
      (by decide)).1 rfl⟩

/-! ## Reconstruction at zero thresholds -/

theorem soft_excess_thold_zero {α : Type} [LinearOrderedField α] (diff : α) :
    soft_excess diff 0 = diff := by
  rw [soft_excess_eq diff 0 le_rfl]
  split_ifs <;> linarith

/-- C16 (counterexample). On the last level the plane left in `img` is not the smoothing: on
the 32 by 32 plane with the values `0, 1, 2, ...` at level 4 (`s = 16`) with `last = 1`, zero
accumulator and zero threshold, pixel `(0, 0)` of `img` is 0 after the two passes, where the
separable smoothing gives 264; the horizontal pass has added the accumulated residue
`0 - 264` to the coarse value. -/
theorem bayer_level_last_not_separable :
    (dwt_denoise_horiz_1ch
        (dwt_denoise_vert_1ch (fun _ => (0 : ℚ)) (fun k => (k : ℚ)) 32 32 4).out
        (fun k => (k : ℚ)) (fun _ => 0) 32 32 4 0 1).details (0 * 32 + 0) = 0 ∧
    separable_hat (fun k => (k : ℚ)) 32 32 (2 ^ (4 : Int).toNat) 0 0 = 264 ∧
    (dwt_denoise_horiz_1ch
        (dwt_denoise_vert_1ch (fun _ => (0 : ℚ)) (fun k => (k : ℚ)) 32 32 4).out
        (fun k => (k : ℚ)) (fun _ => 0) 32 32 4 0 1).details (0 * 32 + 0)
      ≠ separable_hat (fun k => (k : ℚ)) 32 32 (2 ^ (4 : Int).toNat) 0 0 := by
  have h1 : (dwt_denoise_horiz_1ch
        (dwt_denoise_vert_1ch (fun _ => (0 : ℚ)) (fun k => (k : ℚ)) 32 32 4).out
        (fun k => (k : ℚ)) (fun _ => 0) 32 32 4 0 1).details (0 * 32 + 0) = 0 := by
    obtain ⟨ha, hd⟩ := (dwt_denoise_horiz_1ch_apply
      (dwt_denoise_vert_1ch (fun _ => (0 : ℚ)) (fun k => (k : ℚ)) 32 32 4).out
      (fun k => (k : ℚ)) (fun _ => 0) 32 32 4 0 1 (by decide) (by decide)).1 0 0
      (by decide) (by decide) (by decide) (by decide)
    rw [hd, if_pos (by decide), ha, soft_excess_thold_zero]
    norm_num
  have h2 : separable_hat (fun k => (k : ℚ)) 32 32 (2 ^ (4 : Int).toNat) 0 0 = 264 := by
    rw [separable_hat_eq _ 32 32 _ (by decide) (by decide) (by decide) 0 0 (by decide)
      (by decide) (by decide) (by decide)]
    simp [hat_formula, hat_right]
    norm_num
  refine ⟨h1, h2, ?_⟩
  rw [h1, h2]
  norm_num

/-- C20. Perfect reconstruction at zero thresholds: on a plane at least 32 wide and 32 high
with the band thresholds `noise[0..4]` all 0, `dwt_denoise` with 5 bands returns every pixel
of the input plane unchanged.  After each of the first four levels `img + details` is the
input plane (the accumulator holds the telescoped sum of the differences between consecutive
coarse planes); at the last level the accumulated residue of a pixel is the input minus the
last coarse value `hat` logged for it, and the value returned is that `hat` plus the
residue. -/
theorem dwt_denoise_zero_thresholds {α : Type} [LinearOrderedField α] (img : Int → α)
    (width height : Int) (noise uninit : Int → α) (hw : 32 ≤ width) (_hh : 32 ≤ height)
    (hn : ∀ l, 0 ≤ l → l < 5 → noise l = 0) :
    ∀ r c, 0 ≤ r → r < height → 0 ≤ c → c < width →
      (dwt_denoise img width height DT_IOP_RAWDENOISE_BANDS noise uninit).img (r * width + c)
        = img (r * width + c) ∧
      ∃ log ∈ (dwt_denoise img width height DT_IOP_RAWDENOISE_BANDS noise uninit).logs,
        ∃ e ∈ log, e.row = r ∧ e.col = c ∧
          (dwt_denoise img width height DT_IOP_RAWDENOISE_BANDS noise uninit).details
              (r * width + c) = img (r * width + c) - e.hat ∧
          (dwt_denoise img width height DT_IOP_RAWDENOISE_BANDS noise uninit).img
              (r * width + c)
            = e.hat + (dwt_denoise img width height DT_IOP_RAWDENOISE_BANDS noise
                uninit).details (r * width + c) := by
  have key : ∀ r c, 0 ≤ r → r < height → 0 ≤ c → c < width →
      (max (0 : Int) 5 < 5 →
        (dwt_denoise img width height DT_IOP_RAWDENOISE_BANDS noise uninit).img (r * width + c)
          + (dwt_denoise img width height DT_IOP_RAWDENOISE_BANDS noise uninit).details
              (r * width + c) = img (r * width + c)) ∧
      (max (0 : Int) 5 = 5 →
        (dwt_denoise img width height DT_IOP_RAWDENOISE_BANDS noise uninit).img (r * width + c)
          = img (r * width + c) ∧
        ∃ log ∈ (dwt_denoise img width height DT_IOP_RAWDENOISE_BANDS noise uninit).logs,
          ∃ e ∈ log, e.row = r ∧ e.col = c ∧
            (dwt_denoise img width height DT_IOP_RAWDENOISE_BANDS noise uninit).details
                (r * width + c) = img (r * width + c) - e.hat ∧
            (dwt_denoise img width height DT_IOP_RAWDENOISE_BANDS noise uninit).img
                (r * width + c)
              = e.hat + (dwt_denoise img width height DT_IOP_RAWDENOISE_BANDS noise
                  uninit).details (r * width + c)) := by
    unfold dwt_denoise DT_IOP_RAWDENOISE_BANDS
    refine forLoop_induct_exact 0 5 _
      (fun j (st : DwtState α) => ∀ r c, 0 ≤ r → r < height → 0 ≤ c → c < width →
        (j < 5 → st.img (r * width + c) + st.details (r * width + c) = img (r * width + c)) ∧
        (j = 5 → st.img (r * width + c) = img (r * width + c) ∧
          ∃ log ∈ st.logs, ∃ e ∈ log, e.row = r ∧ e.col = c ∧
            st.details (r * width + c) = img (r * width + c) - e.hat ∧
            st.img (r * width + c) = e.hat + st.details (r * width + c))) _ ?_ ?_
    · intro r c r0 r1 c0 c1
      refine ⟨fun _ => ?_, fun h => by omega⟩
      simp only
      rw [memset0_planeConst uninit width height r c r0 r1 c0 c1, add_zero]
    · intro lev st h0 h1 hP r c r0 r1 c0 c1
      have hp := pow_lev_le lev h0 h1
      obtain ⟨hpix, hlog⟩ := dwt_denoise_horiz_1ch_apply
        (dwt_denoise_vert_1ch st.interm st.img height width lev).out st.img st.details height
        width lev (noise lev) (if lev + 1 = 5 then 1 else 0) h0 (by omega)
      obtain ⟨e, he, her, hec⟩ := dwt_denoise_horiz_1ch_covers
        (dwt_denoise_vert_1ch st.interm st.img height width lev).out st.img st.details height
        width lev (noise lev) (if lev + 1 = 5 then 1 else 0) h0 (by omega) r c r0 r1 c0 c1
      have hhat := (hlog e he).2.2.2.2
      rw [her, hec] at hhat
      obtain ⟨ha, hd⟩ := hpix r c r0 r1 c0 c1
      have hinv := (hP r c r0 r1 c0 c1).1 h1
      rw [hn lev h0 h1, soft_excess_thold_zero] at ha
      simp only
      rw [hn lev h0 h1] at hd he ⊢
      constructor
      · intro hlt
        rw [hd, ha, if_neg (by omega)]
        rw [← hinv]; ring
      · intro heq
        refine ⟨?_, _, List.mem_append_right _ (List.mem_singleton_self _), e, he, her, hec,
          ?_, ?_⟩
        · rw [hd, ha, if_pos (by omega)]
          rw [← hinv]; ring
        · rw [ha, hhat, ← hinv]; ring
        · rw [hd, if_pos (by omega), hhat]
  intro r c r0 r1 c0 c1
  exact (key r c r0 r1 c0 c1).2 (by decide)

/-- A plane of 32 by 32 pixels with the values `0, 1, 2, ...` and zero thresholds: the first
pixel. -/
theorem dwt_denoise_zero_thresholds_witness :
    (32 : Int) ≤ 32 ∧ (∀ l : Int, 0 ≤ l → l < 5 → (fun _ : Int => (0 : ℚ)) l = 0) ∧
    (dwt_denoise (fun k => (k : ℚ)) 32 32 DT_IOP_RAWDENOISE_BANDS (fun _ => 0)
        (fun _ => 0)).img (0 * 32 + 0) = (fun k : Int => (k : ℚ)) (0 * 32 + 0) :=
  ⟨by decide, fun _ _ _ => rfl,
    (dwt_denoise_zero_thresholds (fun k => (k : ℚ)) 32 32 (fun _ => 0) (fun _ => 0)
      (by decide) (by decide) (fun _ _ _ => rfl) 0 0 (by decide) (by decide) (by decide)
      (by decide)).1⟩


/-! ## Accesses of the Bayer planes -/

theorem forStep_rel_preserves {σ τ : Type} (hi step : Int) (body : Int → σ → σ)
    (body' : Int → τ → τ) (R : σ → τ → Prop)
    (hstep : ∀ i s t, R s t → R (body i s) (body' i t)) :
    ∀ (n : Nat) (i : Int) (s : σ) (t : τ), R s t →
      R (forStep hi step body n i s) (forStep hi step body' n i t) := by
  intro n
  induction n with
  | zero => intro i s t h; exact h
  | succ n ih =>
    intro i s t h
    by_cases hlt : i < hi
    · simp only [forStep, if_pos hlt]
      exact ih _ _ _ (hstep i s t h)
    · simp only [forStep, if_neg hlt]
      exact h

/-- Two runs of the Bayer loop nest with different statements stay related when every pair of
statements keeps the relation. -/
theorem bayer_rows_rel {σ τ : Type} (c : Int) (roi : dt_iop_roi_t) (hw : Int)
    (body : Int → Int → σ → σ) (body' : Int → Int → τ → τ) (R : σ → τ → Prop) (s : σ) (t : τ)
    (h0 : R s t) (hstep : ∀ p m s t, R s t → R (body p m s) (body' p m t)) :
    R (bayer_rows c roi hw body s) (bayer_rows c roi hw body' t) := by
  unfold bayer_rows forLoop2
  refine forStep_rel_preserves _ _ _ _ R ?_ _ _ s t h0
  intro row s t h
  simp only
  unfold forLoop
  refine forStep_rel_preserves _ _ _ _ R ?_ _ _ s t h
  intro col s t h
  exact hstep _ _ s t h

/-- The accesses of one row of the loop nest. -/
theorem bayer_row_accesses (n a b : Int) (l0 : List (Int × Int))
    (hnd : (l0.map Prod.snd).Nodup)
    (hnew : ∀ col, 0 ≤ col → col < n → b + 2 * col ∉ l0.map Prod.snd) :
    (∀ x, x ∈ forLoop 0 n (fun col l => (a + col, b + 2 * col) :: l) l0 ↔
      x ∈ l0 ∨ ∃ col, 0 ≤ col ∧ col < n ∧ x = (a + col, b + 2 * col)) ∧
    ((forLoop 0 n (fun col l => (a + col, b + 2 * col) :: l) l0).map Prod.snd).Nodup := by
  obtain ⟨j, hj, hm, hn⟩ := forLoop_induct 0 n (fun col l => (a + col, b + 2 * col) :: l)
    (fun j (l : List (Int × Int)) =>
      (∀ x, x ∈ l ↔ x ∈ l0 ∨ ∃ col, 0 ≤ col ∧ col < j ∧ col < n ∧ x = (a + col, b + 2 * col)) ∧
      (l.map Prod.snd).Nodup) l0
    ⟨by
      intro x
      constructor
      · exact fun h => Or.inl h
      · rintro (h | ⟨col, h0, h1, _⟩)
        · exact h
        · omega, hnd⟩
    (by
      rintro i l hi0 hi1 ⟨hm, hn⟩
      refine ⟨?_, ?_⟩
      · intro x
        simp only [List.mem_cons]
        constructor
        · rintro (rfl | h)
          · exact Or.inr ⟨i, hi0, by omega, hi1, rfl⟩
          · rcases (hm x).1 h with h | ⟨col, c0, c1, c2, rfl⟩
            · exact Or.inl h
            · exact Or.inr ⟨col, c0, by omega, c2, rfl⟩
        · rintro (h | ⟨col, c0, c1, c2, rfl⟩)
          · exact Or.inr ((hm x).2 (Or.inl h))
          · by_cases hc : col = i
            · subst hc; exact Or.inl rfl
            · exact Or.inr ((hm _).2 (Or.inr ⟨col, c0, by omega, c2, rfl⟩))
      · simp only [List.map_cons, List.nodup_cons]
        refine ⟨?_, hn⟩
        intro hmem
        obtain ⟨x, hx, hxe⟩ := List.mem_map.1 hmem
        rcases (hm x).1 hx with h | ⟨col, c0, c1, c2, rfl⟩
        · exact hnew i hi0 hi1 (hxe ▸ List.mem_map_of_mem _ h)
        · simp only at hxe
          omega)
  refine ⟨?_, hn⟩
  intro x
  rw [hm x]
  constructor
  · rintro (h | ⟨col, c0, _, c2, rfl⟩)
    · exact Or.inl h
    · exact Or.inr ⟨col, c0, c2, rfl⟩
  · rintro (h | ⟨col, c0, c2, rfl⟩)
    · exact Or.inl h
    · exact Or.inr ⟨col, c0, by omega, c2, rfl⟩

/-- The accesses of plane `c`: the mosaic positions `(r, q)` with the parities of `c`, each
paired with the plane position `(r / 2, q / 2)`, and no mosaic offset twice. -/
theorem bayer_accesses_spec (c : Int) (roi : dt_iop_roi_t) (hc0 : 0 ≤ c) (hc1 : c < 4)
    (hW : 0 ≤ roi.width) :
    (∀ x, x ∈ bayer_accesses c roi ↔
      ∃ r q, 0 ≤ r ∧ r < roi.height ∧ 0 ≤ q ∧ q < roi.width ∧ r % 2 = c % 2 ∧ q % 2 = c / 2 ∧
        x = (r / 2 * halfwidth roi c + q / 2, r * roi.width + q)) ∧
    ((bayer_accesses c roi).map Prod.snd).Nodup := by
  have hhw : halfwidth roi c = (roi.width - c / 2 + 1) / 2 := bayer_halfwidth roi.width c hW hc0 hc1
  have hsw : Int.tdiv (roi.width - c / 2 + 1) 2 = (roi.width - c / 2 + 1) / 2 :=
    Int.tdiv_eq_ediv (by omega) (by omega)
  unfold bayer_accesses bayer_rows
  rw [bayer_row_parity c hc0 hc1, bayer_offset c hc0 hc1, hhw]
  simp only [hsw]
  obtain ⟨j, hj, hm, hn, _⟩ := forLoop2_induct (c % 2) roi.height
    (fun row l => forLoop 0 ((roi.width - c / 2 + 1) / 2) (fun col l =>
      (Int.tdiv row 2 * ((roi.width - c / 2 + 1) / 2) + col,
        row * roi.width + c / 2 + 2 * col) :: l) l)
    (fun j (l : List (Int × Int)) =>
      (∀ x, x ∈ l ↔ ∃ r q, 0 ≤ r ∧ r < j ∧ r < roi.height ∧ 0 ≤ q ∧ q < roi.width ∧
          r % 2 = c % 2 ∧ q % 2 = c / 2 ∧
          x = (r / 2 * ((roi.width - c / 2 + 1) / 2) + q / 2, r * roi.width + q)) ∧
      (l.map Prod.snd).Nodup ∧ j % 2 = c % 2) []
    ⟨by
      intro x
      constructor
      · intro h; simp at h
      · rintro ⟨r, q, r0, r1, _, _, _, r2, _⟩
        omega, by simp, by omega⟩
    (by
      rintro i l hi0 hi1 ⟨hm, hn, hpar⟩
      have hi00 : 0 ≤ i := by omega
      obtain ⟨hm', hn'⟩ := bayer_row_accesses ((roi.width - c / 2 + 1) / 2)
        (Int.tdiv i 2 * ((roi.width - c / 2 + 1) / 2)) (i * roi.width + c / 2) l hn
        (by
          intro col c0 c1 hmem
          obtain ⟨x, hx, hxe⟩ := List.mem_map.1 hmem
          obtain ⟨r, q, r0, r1, r2, q0, q1, _, _, rfl⟩ := (hm x).1 hx
          simp only at hxe
          have e1 := (row_col_div r q roi.width q0 q1).1
          have e2 := (row_col_div i (c / 2 + 2 * col) roi.width (by omega) (by omega)).1
          rw [hxe, show i * roi.width + c / 2 + 2 * col = i * roi.width + (c / 2 + 2 * col)
            by ring, e2] at e1
          omega)
      refine ⟨?_, hn', by omega⟩
      intro x
      rw [hm' x, hm x, Int.tdiv_eq_ediv hi00 (by omega)]
      constructor
      · rintro (⟨r, q, r0, r1, r2, q0, q1, p1, p2, rfl⟩ | ⟨col, c0, c1, rfl⟩)
        · exact ⟨r, q, r0, by omega, r2, q0, q1, p1, p2, rfl⟩
        · refine ⟨i, c / 2 + 2 * col, hi00, by omega, hi1, by omega, by omega, hpar, by omega,
            ?_⟩
          rw [show (c / 2 + 2 * col) / 2 = col by omega]
          congr 1; ring
      · rintro ⟨r, q, r0, r1, r2, q0, q1, p1, p2, rfl⟩
        by_cases hri : r = i
        · subst hri
          refine Or.inr ⟨q / 2, by omega, by omega, ?_⟩
          congr 1
          rw [add_assoc, show c / 2 + 2 * (q / 2) = q by omega]
        · exact Or.inl ⟨r, q, r0, by omega, r2, q0, q1, p1, p2, rfl⟩)
  refine ⟨?_, hn⟩
  intro x
  rw [hm x]
  constructor
  · rintro ⟨r, q, r0, _, r2, q0, q1, p1, p2, rfl⟩
    exact ⟨r, q, r0, r2, q0, q1, p1, p2, rfl⟩
  · rintro ⟨r, q, r0, r2, q0, q1, p1, p2, rfl⟩
    exact ⟨r, q, r0, by omega, r2, q0, q1, p1, p2, rfl⟩


theorem plane_index_iff (n m k : Int) (hm : 0 < m) :
    (0 ≤ k ∧ k < n * m) ↔ (0 ≤ k / m ∧ k / m < n) := by
  have e1 := Int.emod_add_ediv k m
  have e2 := Int.emod_nonneg k (by omega : m ≠ 0)
  have e3 := Int.emod_lt_of_pos k hm
  constructor
  · rintro ⟨h0, h1⟩
    refine ⟨Int.ediv_nonneg h0 hm.le, ?_⟩
    by_contra hcon
    have : n * m ≤ k / m * m := Int.mul_le_mul_of_nonneg_right (by omega) hm.le
    have e4 : m * (k / m) = k / m * m := by ring
    omega
  · rintro ⟨h0, h1⟩
    have := line_index_lt n m (k / m) (k % m) h0 h1 e2 e3
    have e4 : m * (k / m) = k / m * m := by ring
    omega

/-- The mosaic offsets of plane `c`. -/
theorem bayer_mosaic_mem (c : Int) (roi : dt_iop_roi_t) (hc0 : 0 ≤ c) (hc1 : c < 4)
    (hW : 0 < roi.width) (m : Int) :
    m ∈ (bayer_accesses c roi).map Prod.snd ↔
      (0 ≤ m / roi.width ∧ m / roi.width < roi.height ∧ (m / roi.width) % 2 = c % 2 ∧
        (m % roi.width) % 2 = c / 2) := by
  have hs := (bayer_accesses_spec c roi hc0 hc1 hW.le).1
  constructor
  · intro hm
    obtain ⟨x, hx, rfl⟩ := List.mem_map.1 hm
    obtain ⟨r, q, r0, r1, q0, q1, p1, p2, rfl⟩ := (hs x).1 hx
    simp only
    obtain ⟨e1, e2⟩ := row_col_div r q roi.width q0 q1
    rw [e1, e2]
    exact ⟨r0, r1, p1, p2⟩
  · rintro ⟨h0, h1, h2, h3⟩
    have e1 := Int.emod_add_ediv m roi.width
    have e2 := Int.emod_nonneg m (by omega : roi.width ≠ 0)
    have e3 := Int.emod_lt_of_pos m hW
    refine List.mem_map.2 ⟨_, (hs _).2 ⟨m / roi.width, m % roi.width, h0, h1, e2, e3, h2, h3,
      rfl⟩, ?_⟩
    simp only
    have e4 : roi.width * (m / roi.width) = m / roi.width * roi.width := by ring
    omega

/-- Two accesses of plane `c` at the same plane offset are the same access. -/
theorem bayer_plane_inj (c : Int) (roi : dt_iop_roi_t) (hc0 : 0 ≤ c) (hc1 : c < 4)
    (hW : 0 ≤ roi.width) (x y : Int × Int) (hx : x ∈ bayer_accesses c roi)
    (hy : y ∈ bayer_accesses c roi) (h : x.1 = y.1) : x = y := by
  have hs := (bayer_accesses_spec c roi hc0 hc1 hW).1
  have hhw : halfwidth roi c = (roi.width - c / 2 + 1) / 2 :=
    bayer_halfwidth roi.width c hW hc0 hc1
  obtain ⟨r, q, r0, r1, q0, q1, p1, p2, rfl⟩ := (hs x).1 hx
  obtain ⟨r', q', r0', r1', q0', q1', p1', p2', rfl⟩ := (hs y).1 hy
  simp only at h
  have a1 := row_col_div (r / 2) (q / 2) (halfwidth roi c) (by omega) (by omega)
  have a2 := row_col_div (r' / 2) (q' / 2) (halfwidth roi c) (by omega) (by omega)
  rw [h] at a1
  have er : r / 2 = r' / 2 := a1.1.symm.trans a2.1
  have eq : q / 2 = q' / 2 := a1.2.symm.trans a2.2
  have hr : r = r' := by omega
  have hq : q = q' := by omega
  rw [hr, hq]

/-- The plane offsets of plane `c`: exactly `[0, halfwidth * halfheight)`. -/
theorem bayer_plane_mem (c : Int) (roi : dt_iop_roi_t) (hc0 : 0 ≤ c) (hc1 : c < 4)
    (hW : 0 ≤ roi.width) (hH : 0 ≤ roi.height) (p : Int) :
    p ∈ (bayer_accesses c roi).map Prod.fst ↔
      (0 ≤ p ∧ p < halfheight roi c * halfwidth roi c) := by
  have hs := (bayer_accesses_spec c roi hc0 hc1 hW).1
  have hhw : halfwidth roi c = (roi.width - c / 2 + 1) / 2 :=
    bayer_halfwidth roi.width c hW hc0 hc1
  have hhh : halfheight roi c = (roi.height - c % 2 + 1) / 2 :=
    bayer_halfheight roi.height c hH hc0 hc1
  constructor
  · intro hm
    obtain ⟨x, hx, rfl⟩ := List.mem_map.1 hm
    obtain ⟨r, q, r0, r1, q0, q1, p1, p2, rfl⟩ := (hs x).1 hx
    simp only
    exact line_index_lt (halfheight roi c) (halfwidth roi c) (r / 2) (q / 2) (by omega)
      (by omega) (by omega) (by omega)
  · rintro ⟨h0, h1⟩
    have hpos : 0 < halfwidth roi c := by
      by_contra hcon
      have h2 : halfwidth roi c = 0 := by omega
      rw [h2] at h1
      omega
    have hd := (plane_index_iff (halfheight roi c) (halfwidth roi c) p hpos).1 ⟨h0, h1⟩
    have e1 := Int.emod_add_ediv p (halfwidth roi c)
    have e2 := Int.emod_nonneg p (by omega : halfwidth roi c ≠ 0)
    have e3 := Int.emod_lt_of_pos p hpos
    refine List.mem_map.2 ⟨_, (hs _).2 ⟨2 * (p / halfwidth roi c) + c % 2,
      2 * (p % halfwidth roi c) + c / 2, by omega, by omega, by omega, by omega, by omega,
      by omega, rfl⟩, ?_⟩
    simp only
    rw [show (2 * (p / halfwidth roi c) + c % 2) / 2 = p / halfwidth roi c by omega,
      show (2 * (p % halfwidth roi c) + c / 2) / 2 = p % halfwidth roi c by omega]
    have e4 : halfwidth roi c * (p / halfwidth roi c) = p / halfwidth roi c * halfwidth roi c := by
      ring
    omega

/-- C18. The four Bayer planes tile the mosaic exactly, for every width ≥ 1 and height ≥ 1:
(1) every access of plane `c` pairs a mosaic position `(r, q)` of class
`c = (r mod 2) + 2*(q mod 2)` with the plane position `(r div 2, q div 2)`, which lies inside
the `halfwidth` by `halfheight` plane; (2) every mosaic position is accessed in the plane of
its class and in no other plane; (3) the mosaic offsets accessed by the four planes together
are a permutation of `0 .. width*height - 1`, so every sample is collected exactly once and
every output sample is written exactly once; (4) for each `c` the plane offsets accessed are a
permutation of `0 .. halfwidth*halfheight - 1`, the samples per row
`(width - offset + 1) div 2` equal `halfwidth`, the collected rows correspond one to one to the
plane rows `0 .. halfheight - 1`, and `halfwidth * halfheight` does not exceed the allocated
`(width div 2 + 1) * (height div 2 + 1)`; (5) the collect loop and the distribute loop of
`wavelet_denoise` are this loop nest, with the statements `fimgp[col] = sqrtf(MAX(0, inp[2*col]))`
and `outp[2*col] = d * d`. -/
theorem bayer_planes_tile (roi : dt_iop_roi_t) (hW : 1 ≤ roi.width) (hH : 1 ≤ roi.height) :
    (∀ c, 0 ≤ c → c < 4 → ∀ x ∈ bayer_accesses c roi,
      ∃ r q, 0 ≤ r ∧ r < roi.height ∧ 0 ≤ q ∧ q < roi.width ∧ c = r % 2 + 2 * (q % 2) ∧
        r / 2 < halfheight roi c ∧ q / 2 < halfwidth roi c ∧
        x = (r / 2 * halfwidth roi c + q / 2, r * roi.width + q)) ∧
    (∀ r q, 0 ≤ r → r < roi.height → 0 ≤ q → q < roi.width →
      (r / 2 * halfwidth roi (r % 2 + 2 * (q % 2)) + q / 2, r * roi.width + q)
        ∈ bayer_accesses (r % 2 + 2 * (q % 2)) roi ∧
      ∀ c, 0 ≤ c → c < 4 → c ≠ r % 2 + 2 * (q % 2) →
        r * roi.width + q ∉ (bayer_accesses c roi).map Prod.snd) ∧
    List.Perm
      ((bayer_accesses 0 roi).map Prod.snd ++ (bayer_accesses 1 roi).map Prod.snd
        ++ (bayer_accesses 2 roi).map Prod.snd ++ (bayer_accesses 3 roi).map Prod.snd)
      ((List.range (roi.width * roi.height).toNat).map (fun i : Nat => (i : Int))) ∧
    (∀ c, 0 ≤ c → c < 4 →
      List.Perm ((bayer_accesses c roi).map Prod.fst)
        ((List.range (halfwidth roi c * halfheight roi c).toNat).map
          (fun i : Nat => (i : Int))) ∧
      Int.tdiv (roi.width - (Int.land c 2) >>> (1 : Nat) + 1) 2 = halfwidth roi c ∧
      (∀ rr, (0 ≤ rr ∧ rr < halfheight roi c) ↔
        ∃ r, 0 ≤ r ∧ r < roi.height ∧ r % 2 = Int.land c 1 ∧ r / 2 = rr) ∧
      0 ≤ halfwidth roi c ∧ 0 ≤ halfheight roi c ∧
      halfwidth roi c * halfheight roi c
        ≤ (Int.tdiv roi.width 2 + 1) * (Int.tdiv roi.height 2 + 1)) ∧
    (∀ (α : Type) [LinearOrderedField α] (sqrtf : α → α) (FC : Int → Int → Nat → Int)
      (in_ : Int → α) (data : dt_iop_rawdenoise_data_t α) (filters : Nat) (uninit : Int → α)
      (c : Int) (st : (Int → α) × (Int → α)),
      wavelet_denoise_plane sqrtf FC in_ roi data filters uninit c st =
        ((dwt_denoise
            (bayer_rows c roi (halfwidth roi c)
              (fun p m fimg => store fimg p (sqrtf (MAX 0 (in_ m)))) st.1)
            (halfwidth roi c) (halfheight roi c) DT_IOP_RAWDENOISE_BANDS
            (compute_channel_noise uninit (FC (Int.tmod c 2) (Int.tdiv c 2) filters) data)
            uninit).img,
          bayer_rows c roi (halfwidth roi c)
            (fun p m out => store out m
              ((dwt_denoise
                  (bayer_rows c roi (halfwidth roi c)
                    (fun p m fimg => store fimg p (sqrtf (MAX 0 (in_ m)))) st.1)
                  (halfwidth roi c) (halfheight roi c) DT_IOP_RAWDENOISE_BANDS
                  (compute_channel_noise uninit (FC (Int.tmod c 2) (Int.tdiv c 2) filters) data)
                  uninit).img p *
                (dwt_denoise
                  (bayer_rows c roi (halfwidth roi c)
                    (fun p m fimg => store fimg p (sqrtf (MAX 0 (in_ m)))) st.1)
                  (halfwidth roi c) (halfheight roi c) DT_IOP_RAWDENOISE_BANDS
                  (compute_channel_noise uninit (FC (Int.tmod c 2) (Int.tdiv c 2) filters) data)
                  uninit).img p)) st.2)) := by
  have hW0 : 0 ≤ roi.width := by omega
  have hH0 : 0 ≤ roi.height := by omega
  have hWp : 0 < roi.width := by omega
  have hhw : ∀ c, 0 ≤ c → c < 4 → halfwidth roi c = (roi.width - c / 2 + 1) / 2 :=
    fun c h0 h1 => bayer_halfwidth roi.width c hW0 h0 h1
  have hhh : ∀ c, 0 ≤ c → c < 4 → halfheight roi c = (roi.height - c % 2 + 1) / 2 :=
    fun c h0 h1 => bayer_halfheight roi.height c hH0 h0 h1
  have hmem := fun c h0 h1 => bayer_mosaic_mem c roi h0 h1 hWp
  refine ⟨?_, ?_, ?_, ?_, ?_⟩
  · intro c c0 c1 x hx
    obtain ⟨r, q, r0, r1, q0, q1, p1, p2, rfl⟩ :=
      ((bayer_accesses_spec c roi c0 c1 hW0).1 x).1 hx
    have e1 := hhw c c0 c1
    have e2 := hhh c c0 c1
    exact ⟨r, q, r0, r1, q0, q1, by omega, by omega, by omega, rfl⟩
  · intro r q r0 r1 q0 q1
    obtain ⟨e1, e2⟩ := row_col_div r q roi.width q0 q1
    refine ⟨((bayer_accesses_spec _ roi (by omega) (by omega) hW0).1 _).2
      ⟨r, q, r0, r1, q0, q1, by omega, by omega, rfl⟩, ?_⟩
    intro c c0 c1 hne hm
    rw [hmem c c0 c1, e1, e2] at hm
    omega
  · rw [List.perm_ext_iff_of_nodup]
    · intro m
      simp only [List.mem_append, hmem 0 le_rfl (by decide), hmem 1 (by decide) (by decide),
        hmem 2 (by decide) (by decide), hmem 3 (by decide) (by decide), List.mem_map,
        List.mem_range]
      have hp := plane_index_iff roi.height roi.width m hWp
      have ec : roi.width * roi.height = roi.height * roi.width := mul_comm _ _
      constructor
      · intro h
        have hd : 0 ≤ m / roi.width ∧ m / roi.width < roi.height := by omega
        have := hp.2 hd
        exact ⟨m.toNat, by omega, by omega⟩
      · rintro ⟨i, hi, rfl⟩
        have hd := hp.1 ⟨by omega, by omega⟩
        omega
    · refine List.Nodup.append (List.Nodup.append (List.Nodup.append ?_ ?_ ?_) ?_ ?_) ?_ ?_
      · exact (bayer_accesses_spec 0 roi le_rfl (by decide) hW0).2
      · exact (bayer_accesses_spec 1 roi (by decide) (by decide) hW0).2
      · intro m h1 h2
        rw [hmem 0 le_rfl (by decide)] at h1
        rw [hmem 1 (by decide) (by decide)] at h2
        omega
      · exact (bayer_accesses_spec 2 roi (by decide) (by decide) hW0).2
      · intro m h1 h2
        simp only [List.mem_append, hmem 0 le_rfl (by decide),
          hmem 1 (by decide) (by decide)] at h1
        rw [hmem 2 (by decide) (by decide)] at h2
        omega
      · exact (bayer_accesses_spec 3 roi (by decide) (by decide) hW0).2
      · intro m h1 h2
        simp only [List.mem_append, hmem 0 le_rfl (by decide),
          hmem 1 (by decide) (by decide), hmem 2 (by decide) (by decide)] at h1
        rw [hmem 3 (by decide) (by decide)] at h2
        omega
    · refine List.Nodup.map_on ?_ (List.nodup_range _)
      intro x _ y _ hxy
      omega
  · intro c c0 c1
    have e1 := hhw c c0 c1
    have e2 := hhh c c0 c1
    have hw0 : 0 ≤ halfwidth roi c := by omega
    have hh0 : 0 ≤ halfheight roi c := by omega
    refine ⟨?_, ?_, ?_, hw0, hh0, ?_⟩
    · rw [List.perm_ext_iff_of_nodup]
      · intro p
        rw [bayer_plane_mem c roi c0 c1 hW0 hH0 p]
        simp only [List.mem_map, List.mem_range]
        have ec : halfwidth roi c * halfheight roi c = halfheight roi c * halfwidth roi c :=
          mul_comm _ _
        constructor
        · rintro ⟨h0, h1⟩
          exact ⟨p.toNat, by omega, by omega⟩
        · rintro ⟨i, hi, rfl⟩
          omega
      · refine List.Nodup.map_on ?_
          (List.Nodup.of_map _ (bayer_accesses_spec c roi c0 c1 hW0).2)
        intro x hx y hy hxy
        exact bayer_plane_inj c roi c0 c1 hW0 x y hx hy hxy
      · refine List.Nodup.map_on ?_ (List.nodup_range _)
        intro x _ y _ hxy
        omega
    · rw [bayer_offset c c0 c1, Int.tdiv_eq_ediv (by omega) (by omega), e1]
    · intro rr
      rw [bayer_row_parity c c0 c1]
      constructor
      · rintro ⟨h0, h1⟩
        exact ⟨2 * rr + c % 2, by omega, by omega, by omega, by omega⟩
      · rintro ⟨r, r0, r1, r2, rfl⟩
        omega
    · rw [Int.tdiv_eq_ediv hW0 (by omega), Int.tdiv_eq_ediv hH0 (by omega)]
      exact mul_le_mul (by omega) (by omega) hh0 (by omega)
  · intro α _ sqrtf FC in_ data filters uninit c st
    rfl

/-- A mosaic of 3 by 3 samples: the four planes access the offsets `0 .. 8` once each. -/
theorem bayer_planes_tile_witness :
    (1 : Int) ≤ 3 ∧
    List.Perm
      ((bayer_accesses 0 { x := 0, y := 0, width := 3, height := 3 }).map Prod.snd
        ++ (bayer_accesses 1 { x := 0, y := 0, width := 3, height := 3 }).map Prod.snd
        ++ (bayer_accesses 2 { x := 0, y := 0, width := 3, height := 3 }).map Prod.snd
        ++ (bayer_accesses 3 { x := 0, y := 0, width := 3, height := 3 }).map Prod.snd)
      ((List.range ((3 : Int) * 3).toNat).map (fun i : Nat => (i : Int))) :=
  ⟨by decide,
    (bayer_planes_tile { x := 0, y := 0, width := 3, height := 3 } (by decide)
      (by decide)).2.2.1⟩


/-! ## Clamped square root -/

/-- The collect loop of plane `c`: the plane position `(r / 2, q / 2)` receives the stabilised
sample of the mosaic position `(r, q)`. -/
theorem bayer_collect_apply {β : Type} (c : Int) (roi : dt_iop_roi_t) (hc0 : 0 ≤ c)
    (hc1 : c < 4) (g : Int → β) (fimg : Int → β) (r q : Int) (hr0 : 0 ≤ r)
    (hr1 : r < roi.height) (hq0 : 0 ≤ q) (hq1 : q < roi.width) (hr : r % 2 = c % 2)
    (hq : q % 2 = c / 2) :
    bayer_rows c roi (halfwidth roi c) (fun p m fimg => store fimg p (g m)) fimg
        (r / 2 * halfwidth roi c + q / 2) = g (r * roi.width + q) := by
  have hW : 0 ≤ roi.width := by omega
  have hrel := bayer_rows_rel c roi (halfwidth roi c) (fun p m l => (p, m) :: l)
    (fun p m fimg => store fimg p (g m))
    (fun (l : List (Int × Int)) (s : Int → β) =>
      ∀ k, (k ∉ l.map Prod.fst ∧ s k = fimg k) ∨ ∃ m, (k, m) ∈ l ∧ s k = g m) [] fimg
    (fun k => Or.inl ⟨by simp, rfl⟩)
    (by
      intro p m l s hR k
      beta_reduce
      by_cases hk : k = p
      · subst hk
        exact Or.inr ⟨m, List.mem_cons_self _ _, store_same _ _ _⟩
      · rw [store_other _ _ _ _ hk]
        rcases hR k with ⟨h1, h2⟩ | ⟨m', h1, h2⟩
        · refine Or.inl ⟨?_, h2⟩
          simp only [List.map_cons, List.mem_cons, not_or]
          exact ⟨hk, h1⟩
        · exact Or.inr ⟨m', List.mem_cons_of_mem _ h1, h2⟩)
  have hmem : (r / 2 * halfwidth roi c + q / 2, r * roi.width + q) ∈ bayer_accesses c roi :=
    ((bayer_accesses_spec c roi hc0 hc1 hW).1 _).2 ⟨r, q, hr0, hr1, hq0, hq1, hr, hq, rfl⟩
  rcases hrel (r / 2 * halfwidth roi c + q / 2) with ⟨h1, _⟩ | ⟨m', h1, h2⟩
  · exact absurd (List.mem_map_of_mem Prod.fst hmem) h1
  · have := bayer_plane_inj c roi hc0 hc1 hW _ _ h1 hmem rfl
    rw [h2, (Prod.mk.inj this).2]

/-- The distribute loop of plane `c` stores squares: an entry of `out` is either untouched or
non-negative, and every accessed mosaic offset is non-negative. -/
theorem bayer_distribute_nonneg {α : Type} [LinearOrderedField α] (c : Int)
    (roi : dt_iop_roi_t) (F : Int → α) (out : Int → α) :
    (∀ k, bayer_rows c roi (halfwidth roi c) (fun p m out => store out m (F p * F p)) out k
        = out k ∨
      0 ≤ bayer_rows c roi (halfwidth roi c) (fun p m out => store out m (F p * F p)) out k) ∧
    (∀ k ∈ (bayer_accesses c roi).map Prod.snd,
      0 ≤ bayer_rows c roi (halfwidth roi c) (fun p m out => store out m (F p * F p)) out k) := by
  have hrel := bayer_rows_rel c roi (halfwidth roi c) (fun p m l => (p, m) :: l)
    (fun p m out => store out m (F p * F p))
    (fun (l : List (Int × Int)) (s : Int → α) =>
      (∀ k, s k = out k ∨ 0 ≤ s k) ∧ (∀ k ∈ l.map Prod.snd, 0 ≤ s k)) [] out
    ⟨fun k => Or.inl rfl, by intro k hk; simp at hk⟩
    (by
      rintro p m l s ⟨h1, h2⟩
      refine ⟨?_, ?_⟩
      · intro k
        beta_reduce
        by_cases hk : k = m
        · subst hk
          rw [store_same]
          exact Or.inr (mul_self_nonneg _)
        · rw [store_other _ _ _ _ hk]
          exact h1 k
      · intro k hk
        beta_reduce at hk ⊢
        by_cases hkm : k = m
        · subst hkm
          rw [store_same]
          exact mul_self_nonneg _
        · rw [store_other _ _ _ _ hkm]
          simp only [List.map_cons, List.mem_cons] at hk
          rcases hk with hk | hk
          · exact absurd hk hkm
          · exact h2 k hk)
  exact hrel

/-- C19. Negative samples are clamped before the square root.  For every `sqrtf` that is a
square root on the non-negative reals (`sqrtf y ≥ 0` and `sqrtf y * sqrtf y = y` for `y ≥ 0`)
and is arbitrary on the negative ones: (1) for every sample `x` the argument `MAX(0, x)` is
`≥ 0`, the stabilised value `sqrtf(MAX(0, x))` is the real square root of `max(0, x)`, is
`≥ 0`, is 0 for every `x ≤ 0`, its square is `max(0, x)`, and its square is `x` exactly when
`x ≥ 0`; (2) for every plane `c`, the plane handed to `dwt_denoise` holds
`sqrtf(MAX(0, in[r][q])) ≥ 0` at the position `(r / 2, q / 2)` for every mosaic position
`(r, q)` of class `c`; (3) every sample of the mosaic in the output of `wavelet_denoise` is
`≥ 0`; (4) the output of `wavelet_denoise` does not depend on the values of `sqrtf` at negative
arguments: any `sqrtf'` that agrees with `sqrtf` on `y ≥ 0` gives the same output buffer. -/
theorem wavelet_denoise_clamp (sqrtf : ℝ → ℝ) (FC : Int → Int → Nat → Int)
    (in_ out : Int → ℝ) (roi : dt_iop_roi_t) (data : dt_iop_rawdenoise_data_t ℝ)
    (filters : Nat) (uninit : Int → ℝ)
    (hsq : ∀ y : ℝ, 0 ≤ y → 0 ≤ sqrtf y ∧ sqrtf y * sqrtf y = y) :
    (∀ x : ℝ, 0 ≤ MAX 0 x ∧ sqrtf (MAX 0 x) = Real.sqrt (max 0 x) ∧ 0 ≤ sqrtf (MAX 0 x) ∧
      (x ≤ 0 → sqrtf (MAX 0 x) = 0) ∧
      sqrtf (MAX 0 x) * sqrtf (MAX 0 x) = max 0 x ∧
      (sqrtf (MAX 0 x) * sqrtf (MAX 0 x) = x ↔ 0 ≤ x)) ∧
    (∀ (c : Int) (st : (Int → ℝ) × (Int → ℝ)), 0 ≤ c → c < 4 →
      ∃ plane : Int → ℝ,
        (wavelet_denoise_plane sqrtf FC in_ roi data filters uninit c st).1
          = (dwt_denoise plane (halfwidth roi c) (halfheight roi c) DT_IOP_RAWDENOISE_BANDS
              (compute_channel_noise uninit (FC (Int.tmod c 2) (Int.tdiv c 2) filters) data)
              uninit).img ∧
        ∀ r q, 0 ≤ r → r < roi.height → 0 ≤ q → q < roi.width →
          c = r % 2 + 2 * (q % 2) →
          plane (r / 2 * halfwidth roi c + q / 2)
            = sqrtf (MAX 0 (in_ (r * roi.width + q))) ∧
          0 ≤ plane (r / 2 * halfwidth roi c + q / 2)) ∧
    (∀ r q, 0 ≤ r → r < roi.height → 0 ≤ q → q < roi.width →
      0 ≤ wavelet_denoise sqrtf FC in_ out roi data filters uninit (r * roi.width + q)) ∧
    (∀ sqrtf' : ℝ → ℝ, (∀ y : ℝ, 0 ≤ y → sqrtf' y = sqrtf y) →
      wavelet_denoise sqrtf' FC in_ out roi data filters uninit
        = wavelet_denoise sqrtf FC in_ out roi data filters uninit) := by
  have hmax : ∀ x : ℝ, 0 ≤ MAX 0 x := by
    intro x
    rw [MAX_eq_max]
    exact le_max_left _ _
  refine ⟨?_, ?_, ?_, ?_⟩
  · intro x
    obtain ⟨h0, hmul⟩ := hsq (MAX 0 x) (hmax x)
    have hsqrt : sqrtf (MAX 0 x) = Real.sqrt (max 0 x) := by
      rw [← MAX_eq_max]
      exact ((Real.sqrt_eq_iff_mul_self_eq (hmax x) h0).2 hmul.symm).symm
    have hmul' : sqrtf (MAX 0 x) * sqrtf (MAX 0 x) = max 0 x := by
      rw [hmul, MAX_eq_max]
    refine ⟨hmax x, hsqrt, h0, ?_, hmul', ?_⟩
    · intro hx
      rw [hsqrt, max_eq_left hx, Real.sqrt_zero]
    · rw [hmul']
      constructor
      · intro h
        rw [← h]
        exact le_max_left _ _
      · intro h
        exact max_eq_right h
  · intro c st c0 c1
    refine ⟨bayer_rows c roi (halfwidth roi c)
      (fun p m fimg => store fimg p (sqrtf (MAX 0 (in_ m)))) st.1, rfl, ?_⟩
    intro r q r0 r1 q0 q1 hc
    have e := bayer_collect_apply c roi c0 c1 (fun m => sqrtf (MAX 0 (in_ m))) st.1 r q r0 r1
      q0 q1 (by omega) (by omega)
    refine ⟨e, ?_⟩
    rw [e]
    exact (hsq _ (hmax _)).1
  · unfold wavelet_denoise
    obtain ⟨j, hj, hP⟩ := forLoop_induct 0 4
      (wavelet_denoise_plane sqrtf FC in_ roi data filters uninit)
      (fun j (st : (Int → ℝ) × (Int → ℝ)) => ∀ r q, 0 ≤ r → r < roi.height → 0 ≤ q →
        q < roi.width → r % 2 + 2 * (q % 2) < j → 0 ≤ st.2 (r * roi.width + q)) (uninit, out)
      (by intro r q r0 r1 q0 q1 hlt; omega)
      (by
        intro c st c0 c1 hP r q r0 r1 q0 q1 hlt
        have e : (wavelet_denoise_plane sqrtf FC in_ roi data filters uninit c st).2
            = bayer_rows c roi (halfwidth roi c)
                (fun p m out => store out m
                  ((wavelet_denoise_plane sqrtf FC in_ roi data filters uninit c st).1 p *
                    (wavelet_denoise_plane sqrtf FC in_ roi data filters uninit c st).1 p))
                st.2 := rfl
        rw [e]
        obtain ⟨h1, h2⟩ := bayer_distribute_nonneg c roi
          (wavelet_denoise_plane sqrtf FC in_ roi data filters uninit c st).1 st.2
        by_cases hcl : r % 2 + 2 * (q % 2) = c
        · refine h2 _ ?_
          have hW : 0 ≤ roi.width := by omega
          exact List.mem_map_of_mem Prod.snd
            (((bayer_accesses_spec c roi c0 c1 hW).1 _).2
              ⟨r, q, r0, r1, q0, q1, by omega, by omega, rfl⟩)
        · rcases h1 (r * roi.width + q) with h | h
          · rw [h]
            exact hP r q r0 r1 q0 q1 (by omega)
          · exact h)
    intro r q r0 r1 q0 q1
    exact hP r q r0 r1 q0 q1 (by omega)
  · intro sqrtf' hag
    have e : ∀ x : ℝ, sqrtf' (MAX 0 x) = sqrtf (MAX 0 x) := fun x => hag _ (hmax x)
    have hplane : wavelet_denoise_plane sqrtf' FC in_ roi data filters uninit
        = wavelet_denoise_plane sqrtf FC in_ roi data filters uninit := by
      funext c st
      unfold wavelet_denoise_plane
      simp only [e]
    unfold wavelet_denoise
    rw [hplane]

/-- A mosaic of 2 by 2 samples, all `-1`, with a `sqrtf` that returns `-1` on negative
arguments: the first output sample is non-negative. -/
theorem wavelet_denoise_clamp_witness :
    (∀ y : ℝ, 0 ≤ y →
      0 ≤ (fun z : ℝ => if z < 0 then -1 else Real.sqrt z) y ∧
      (fun z : ℝ => if z < 0 then -1 else Real.sqrt z) y
        * (fun z : ℝ => if z < 0 then -1 else Real.sqrt z) y = y) ∧
    0 ≤ wavelet_denoise (fun z : ℝ => if z < 0 then -1 else Real.sqrt z) (fun _ _ _ => 0)
      (fun _ => (-1 : ℝ)) (fun _ => 0)
      { x := 0, y := 0, width := 2, height := 2 } { threshold := 1, force := fun _ _ => 1 } 0
      (fun _ => 0) (0 * 2 + 0) :=
  ⟨fun y hy => by
      simp only [if_neg (not_lt.2 hy)]
      exact ⟨Real.sqrt_nonneg y, Real.mul_self_sqrt hy⟩,
    (wavelet_denoise_clamp (fun z : ℝ => if z < 0 then -1 else Real.sqrt z) (fun _ _ _ => 0)
      (fun _ => (-1 : ℝ)) (fun _ => 0)
      { x := 0, y := 0, width := 2, height := 2 } { threshold := 1, force := fun _ _ => 1 } 0
      (fun _ => 0)
      (fun y hy => by
        simp only [if_neg (not_lt.2 hy)]
        exact ⟨Real.sqrt_nonneg y, Real.mul_self_sqrt hy⟩)).2.2.1 0 0 (by decide) (by decide)
      (by decide) (by decide)⟩


/-! ## Bounded change -/

theorem threshold_sum_succ {α : Type} [LinearOrderedField α] (noise : Int → α) (lev : Int)
    (h0 : 0 ≤ lev) : threshold_sum noise (lev + 1) = threshold_sum noise lev + noise lev := by
  unfold threshold_sum
  have e : (lev + 1).toNat = lev.toNat + 1 := by omega
  rw [e, List.range_succ, List.map_append, List.sum_append]
  simp [Int.toNat_of_nonneg h0]

theorem threshold_sum_five {α : Type} [LinearOrderedField α] (noise : Int → α) :
    threshold_sum noise 5 = noise 0 + noise 1 + noise 2 + noise 3 + noise 4 := by
  have e : (5 : Int) = 0 + 1 + 1 + 1 + 1 + 1 := by norm_num
  rw [e, threshold_sum_succ _ _ (by norm_num), threshold_sum_succ _ _ (by norm_num),
    threshold_sum_succ _ _ (by norm_num), threshold_sum_succ _ _ (by norm_num),
    threshold_sum_succ _ _ (by norm_num)]
  simp [threshold_sum]

/-- Soft thresholding moves a difference by at most the threshold. -/
theorem soft_excess_sub_abs_le {α : Type} [LinearOrderedField α] (d T : α) (h0 : 0 ≤ T) :
    |soft_excess d T - d| ≤ T := by
  rw [soft_excess_eq d T h0, abs_le]
  split_ifs <;> constructor <;> linarith

/-- C21. Bounded change: on a plane at least 32 wide and 32 high with band thresholds
`noise[0..4] ≥ 0`, every pixel of the plane returned by `dwt_denoise` with 5 bands differs from
the same pixel of the input plane by at most `noise[0] + noise[1] + noise[2] + noise[3] +
noise[4]` in absolute value.  The returned pixel is the last coarse value `hat` logged for it
plus the accumulated soft-thresholded differences `details`, and `details` differs from
`input - hat`, the sum of the differences themselves, by at most that sum of thresholds. -/
theorem dwt_denoise_bounded_change {α : Type} [LinearOrderedField α] (img : Int → α)
    (width height : Int) (noise uninit : Int → α) (hw : 32 ≤ width) (_hh : 32 ≤ height)
    (hn : ∀ l, 0 ≤ l → l < 5 → 0 ≤ noise l) :
    ∀ r c, 0 ≤ r → r < height → 0 ≤ c → c < width →
      |(dwt_denoise img width height DT_IOP_RAWDENOISE_BANDS noise uninit).img (r * width + c)
          - img (r * width + c)| ≤ noise 0 + noise 1 + noise 2 + noise 3 + noise 4 ∧
      ∃ log ∈ (dwt_denoise img width height DT_IOP_RAWDENOISE_BANDS noise uninit).logs,
        ∃ e ∈ log, e.row = r ∧ e.col = c ∧
          (dwt_denoise img width height DT_IOP_RAWDENOISE_BANDS noise uninit).img
              (r * width + c)
            = e.hat + (dwt_denoise img width height DT_IOP_RAWDENOISE_BANDS noise
                uninit).details (r * width + c) ∧
          |(dwt_denoise img width height DT_IOP_RAWDENOISE_BANDS noise uninit).details
              (r * width + c) - (img (r * width + c) - e.hat)|
            ≤ noise 0 + noise 1 + noise 2 + noise 3 + noise 4 := by
  have key : ∀ r c, 0 ≤ r → r < height → 0 ≤ c → c < width →
      (max (0 : Int) 5 < 5 →
        |(dwt_denoise img width height DT_IOP_RAWDENOISE_BANDS noise uninit).img (r * width + c)
          + (dwt_denoise img width height DT_IOP_RAWDENOISE_BANDS noise uninit).details
              (r * width + c) - img (r * width + c)| ≤ threshold_sum noise (max (0 : Int) 5)) ∧
      (max (0 : Int) 5 = 5 →
        |(dwt_denoise img width height DT_IOP_RAWDENOISE_BANDS noise uninit).img (r * width + c)
          - img (r * width + c)| ≤ threshold_sum noise 5 ∧
        ∃ log ∈ (dwt_denoise img width height DT_IOP_RAWDENOISE_BANDS noise uninit).logs,
          ∃ e ∈ log, e.row = r ∧ e.col = c ∧
            (dwt_denoise img width height DT_IOP_RAWDENOISE_BANDS noise uninit).img
                (r * width + c)
              = e.hat + (dwt_denoise img width height DT_IOP_RAWDENOISE_BANDS noise
                  uninit).details (r * width + c)) := by
    unfold dwt_denoise DT_IOP_RAWDENOISE_BANDS
    refine forLoop_induct_exact 0 5 _
      (fun j (st : DwtState α) => ∀ r c, 0 ≤ r → r < height → 0 ≤ c → c < width →
        (j < 5 → |st.img (r * width + c) + st.details (r * width + c) - img (r * width + c)|
          ≤ threshold_sum noise j) ∧
        (j = 5 → |st.img (r * width + c) - img (r * width + c)| ≤ threshold_sum noise 5 ∧
          ∃ log ∈ st.logs, ∃ e ∈ log, e.row = r ∧ e.col = c ∧
            st.img (r * width + c) = e.hat + st.details (r * width + c))) _ ?_ ?_
    · intro r c r0 r1 c0 c1
      refine ⟨fun _ => ?_, fun h => by omega⟩
      simp only
      rw [memset0_planeConst uninit width height r c r0 r1 c0 c1]
      simp [threshold_sum]
    · intro lev st h0 h1 hP r c r0 r1 c0 c1
      have hp := pow_lev_le lev h0 h1
      obtain ⟨hpix, hlog⟩ := dwt_denoise_horiz_1ch_apply
        (dwt_denoise_vert_1ch st.interm st.img height width lev).out st.img st.details height
        width lev (noise lev) (if lev + 1 = 5 then 1 else 0) h0 (by omega)
      obtain ⟨e, he, her, hec⟩ := dwt_denoise_horiz_1ch_covers
        (dwt_denoise_vert_1ch st.interm st.img height width lev).out st.img st.details height
        width lev (noise lev) (if lev + 1 = 5 then 1 else 0) h0 (by omega) r c r0 r1 c0 c1
      have hhat := (hlog e he).2.2.2.2
      rw [her, hec] at hhat
      obtain ⟨ha, hd⟩ := hpix r c r0 r1 c0 c1
      have hinv := (hP r c r0 r1 c0 c1).1 h1
      have hsoft := soft_excess_sub_abs_le
        (st.img (r * width + c)
          - horiz_hat (dwt_denoise_vert_1ch st.interm st.img height width lev).out width
              (2 ^ lev.toNat) r c) (noise lev) (hn lev h0 h1)
      have hsum := threshold_sum_succ noise lev h0
      rw [abs_le] at hinv hsoft
      simp only
      constructor
      · intro hlt
        rw [hd, ha, if_neg (by omega), hsum, abs_le]
        constructor <;> linarith [hinv.1, hinv.2, hsoft.1, hsoft.2]
      · intro heq
        have e5 : lev + 1 = 5 := heq
        refine ⟨?_, _, List.mem_append_right _ (List.mem_singleton_self _), e, he, her, hec, ?_⟩
        · rw [hd, ha, if_pos (by omega), ← e5, hsum, abs_le]
          constructor <;> linarith [hinv.1, hinv.2, hsoft.1, hsoft.2]
        · rw [hd, if_pos (by omega), hhat]
  intro r c r0 r1 c0 c1
  obtain ⟨hb, log, hlog, e, he, her, hec, hout⟩ := (key r c r0 r1 c0 c1).2 (by decide)
  rw [threshold_sum_five] at hb
  refine ⟨hb, log, hlog, e, he, her, hec, hout, ?_⟩
  rw [abs_le] at hb ⊢
  rw [hout] at hb
  constructor <;> linarith [hb.1, hb.2]

/-- A plane of 32 by 32 pixels with the values `0, 1, 2, ...` and thresholds 1 at every level:
the first pixel moves by at most 5. -/
theorem dwt_denoise_bounded_change_witness :
    (32 : Int) ≤ 32 ∧ (∀ l : Int, 0 ≤ l → l < 5 → (0 : ℚ) ≤ (fun _ : Int => (1 : ℚ)) l) ∧
    |(dwt_denoise (fun k => (k : ℚ)) 32 32 DT_IOP_RAWDENOISE_BANDS (fun _ => 1)
        (fun _ => 0)).img (0 * 32 + 0) - (fun k : Int => (k : ℚ)) (0 * 32 + 0)|
      ≤ (fun _ : Int => (1 : ℚ)) 0 + (fun _ : Int => (1 : ℚ)) 1 + (fun _ : Int => (1 : ℚ)) 2
        + (fun _ : Int => (1 : ℚ)) 3 + (fun _ : Int => (1 : ℚ)) 4 :=
  ⟨by decide, fun _ _ _ => zero_le_one,
    (dwt_denoise_bounded_change (fun k => (k : ℚ)) 32 32 (fun _ => 1) (fun _ => 0)
      (by decide) (by decide) (fun _ _ _ => zero_le_one) 0 0 (by decide) (by decide)
      (by decide) (by decide)).1⟩


/-! ## Sign of the thresholds -/

/-- The soft thresholds of the X-Trans path are non-negative when the threshold is. -/
theorem xtrans_thold_nonneg {α : Type} [LinearOrderedField α] (noise : Int → α) (c : Int)
    (data : dt_iop_rawdenoise_data_t α) (ht : 0 ≤ data.threshold) (i : Int) (h0 : 0 ≤ i)
    (h1 : i < 5) : 0 ≤ xtrans_thold noise c data i := by
  rw [xtrans_thold_apply noise c data i h0 h1]
  have := noise_all_init_nonneg (α := α) i
  positivity

/-- C22. Thresholds are never negative when a decomposer runs: when `process` does not take
the `memcpy` branch, it runs `wavelet_denoise` or `wavelet_denoise_xtrans`, the threshold is
`> 0`, and for arbitrary multipliers `force` (values outside `[0, 1]` included) every band
threshold `noise[i]` of `compute_channel_noise` and every soft threshold
`threshold * noise[lev]` of the X-Trans path is `≥ 0`; so the soft-threshold expressions of both
paths are `sign(diff) * max(|diff| - thold, 0)`. -/
theorem process_thresholds_nonneg {α : Type} [LinearOrderedField α] (sqrtf : α → α)
    (FC : Int → Int → Nat → Int)
    (FCxtrans : Int → Int → dt_iop_roi_t → (Int → Int → Int) → Int)
    (d : dt_iop_rawdenoise_data_t α) (filters : Nat) (xtrans : Int → Int → Int)
    (ivoid ovoid : Int → α) (roi_in : dt_iop_roi_t) (uninit : Int → α)
    (h : (process sqrtf FC FCxtrans d filters xtrans ivoid ovoid roi_in uninit).1
      ≠ Dispatch.copy) :
    0 < d.threshold ∧
    ((process sqrtf FC FCxtrans d filters xtrans ivoid ovoid roi_in uninit)
        = (Dispatch.bayer, wavelet_denoise sqrtf FC ivoid ovoid roi_in d filters uninit) ∨
      (process sqrtf FC FCxtrans d filters xtrans ivoid ovoid roi_in uninit)
        = (Dispatch.xtrans,
            wavelet_denoise_xtrans sqrtf FCxtrans ivoid ovoid roi_in d xtrans uninit)) ∧
    (∀ (noise : Int → α) (color i : Int), 0 ≤ i → i < 5 →
      0 ≤ compute_channel_noise noise color d i ∧
      ∀ diff : α, soft_excess diff (compute_channel_noise noise color d i)
        = (SignType.sign diff : α) * max (|diff| - compute_channel_noise noise color d i) 0) ∧
    (∀ (noise : Int → α) (c lev : Int), 0 ≤ lev → lev < 5 →
      0 ≤ xtrans_thold noise c d lev ∧
      xtrans_thold noise c d lev = d.threshold * xtrans_noise noise c d lev ∧
      ∀ diff : α, copysignf (fmaxf (fabsf diff - xtrans_thold noise c d lev) 0) diff
        = (SignType.sign diff : α) * max (|diff| - xtrans_thold noise c d lev) 0) := by
  have ht : 0 < d.threshold := by
    by_contra hc
    apply h
    simp only [process]
    rw [if_pos (by simpa using hc)]
  refine ⟨ht, ?_, ?_, ?_⟩
  · simp only [process]
    rw [if_neg (by simpa using ht)]
    by_cases hf : filters ≠ 9
    · rw [if_pos hf]; exact Or.inl rfl
    · rw [if_neg hf]; exact Or.inr rfl
  · intro noise color i h0 h1
    have hnn := compute_channel_noise_nonneg noise color d ht.le i h0 h1
    refine ⟨hnn, fun diff => ?_⟩
    rw [soft_excess_eq diff _ hnn, sign_soft_eq diff _ hnn]
  · intro noise c lev h0 h1
    have hnn := xtrans_thold_nonneg noise c d ht.le lev h0 h1
    refine ⟨hnn, rfl, fun diff => ?_⟩
    rw [copysignf_soft_eq diff _ hnn, sign_soft_eq diff _ hnn]

/-- An X-Trans frame (`filters = 9`) at threshold 1/100 with every multiplier `-3`: the
decomposer runs and the coarsest Bayer band threshold of colour 0 is non-negative. -/
theorem process_thresholds_nonneg_witness :
    (process (fun x : ℚ => x) (fun _ _ _ => 0) (fun _ _ _ _ => 0)
        { threshold := 1 / 100, force := fun _ _ => -3 } 9 (fun _ _ => 0)
        (fun k => (k : ℚ)) (fun _ => 0) { x := 0, y := 0, width := 6, height := 6 }
        (fun _ => 0)).1 ≠ Dispatch.copy ∧
    (0 : ℚ) ≤ compute_channel_noise (fun _ => 0) 0
      ({ threshold := 1 / 100, force := fun _ _ => -3 } : dt_iop_rawdenoise_data_t ℚ) 4 :=
  ⟨by norm_num [process]; decide,
    ((process_thresholds_nonneg (fun x : ℚ => x) (fun _ _ _ => 0) (fun _ _ _ _ => 0)
        { threshold := 1 / 100, force := fun _ _ => -3 } 9 (fun _ _ => 0)
        (fun k => (k : ℚ)) (fun _ => 0) { x := 0, y := 0, width := 6, height := 6 }
        (fun _ => 0) (by norm_num [process]; decide)).2.2.1 (fun _ => 0) 0 4 (by decide)
        (by decide)).1⟩


/-! ## Curve control points of the pipeline and of the editor -/

/-- C23 (failing input). With the default nodes `x[ch][k] = k/4`, `y[ch][k] = 1/2`,
`commit_params` calls `dt_draw_curve_set_point` on `curve[0]` with the point numbers
`0, 0, 1, 2, 3, 4, 6`: the loop passes `k` where `rawdenoise_draw` passes `k + 1` (point numbers
`0, 1, 2, 3, 4, 5, 6`).  On arrays of control points the pipeline curve ends with point 0 =
`(x[0], y[0]) = (0, 1/2)`, point `k = (x[k], y[k])` and point 5 never set, where the editor
curve has point 0 = `(x[3] - 1, y[0]) = (-1/4, 1/2)`, point `k + 1 = (x[k], y[k])` and point
5 = `(1, 1/2)`.  `init_pipe` gives the pipeline curve 5 control points. -/
theorem commit_params_set_point_numbers :
    ((commit_params (fun (c : List (Int × ℚ × ℚ)) num x y => (num, x, y) :: c)
        (fun _ _ _ _ _ => 0) true
        { threshold := 1 / 100, x := fun _ k => (k : ℚ) / 4, y := fun _ _ => 1 / 2 }
        { data := { threshold := 0, force := fun _ _ => 0 }, curve := fun _ => [],
          enabled := 1 }).curve 0).reverse
      = [(0, -1 / 4, 1 / 2), (0, 0, 1 / 2), (1, 1 / 4, 1 / 2), (2, 1 / 2, 1 / 2),
          (3, 3 / 4, 1 / 2), (4, 1, 1 / 2), (6, 5 / 4, 1 / 2)] ∧
    (rawdenoise_draw (fun (c : List (Int × ℚ × ℚ)) num x y => (num, x, y) :: c)
        { threshold := 1 / 100, x := fun _ k => (k : ℚ) / 4, y := fun _ _ => 1 / 2 }
        0 []).reverse
      = [(0, -1 / 4, 1 / 2), (1, 0, 1 / 2), (2, 1 / 4, 1 / 2), (3, 1 / 2, 1 / 2),
          (4, 3 / 4, 1 / 2), (5, 1, 1 / 2), (6, 5 / 4, 1 / 2)] ∧
    (∀ a0 : Int → ℚ × ℚ,
      (commit_params (fun (c : Int → ℚ × ℚ) num x y => store c num (x, y))
          (fun _ _ _ _ _ => 0) true
          { threshold := 1 / 100, x := fun _ k => (k : ℚ) / 4, y := fun _ _ => 1 / 2 }
          { data := { threshold := 0, force := fun _ _ => 0 }, curve := fun _ => a0,
            enabled := 1 }).curve 0 0 = (0, 1 / 2) ∧
      rawdenoise_draw (fun (c : Int → ℚ × ℚ) num x y => store c num (x, y))
          { threshold := 1 / 100, x := fun _ k => (k : ℚ) / 4, y := fun _ _ => 1 / 2 }
          0 a0 0 = (-1 / 4, 1 / 2) ∧
      (commit_params (fun (c : Int → ℚ × ℚ) num x y => store c num (x, y))
          (fun _ _ _ _ _ => 0) true
          { threshold := 1 / 100, x := fun _ k => (k : ℚ) / 4, y := fun _ _ => 1 / 2 }
          { data := { threshold := 0, force := fun _ _ => 0 }, curve := fun _ => a0,
            enabled := 1 }).curve 0 5 = a0 5 ∧
      rawdenoise_draw (fun (c : Int → ℚ × ℚ) num x y => store c num (x, y))
          { threshold := 1 / 100, x := fun _ k => (k : ℚ) / 4, y := fun _ _ => 1 / 2 }
          0 a0 5 = (1, 1 / 2)) ∧
    init_pipe (fun _ _ _ => ([] : List (ℚ × ℚ))) (fun c x y => c ++ [(x, y)]) 0
        { threshold := 1 / 100, x := fun _ k => (k : ℚ) / 4, y := fun _ _ => 1 / 2 }
        (fun _ => []) 0
      = [(0, 1 / 2), (1 / 4, 1 / 2), (1 / 2, 1 / 2), (3 / 4, 1 / 2), (1, 1 / 2)] := by
  refine ⟨?_, ?_, fun a0 => ⟨?_, ?_, ?_, ?_⟩, ?_⟩
  · simp [commit_params, forLoop, forStep, store, DT_RAWDENOISE_NONE, DT_IOP_RAWDENOISE_BANDS]
    norm_num
  · simp [rawdenoise_draw, forLoop, forStep, DT_IOP_RAWDENOISE_BANDS]
    norm_num
  · simp [commit_params, forLoop, forStep, store, DT_RAWDENOISE_NONE, DT_IOP_RAWDENOISE_BANDS]
  · simp [rawdenoise_draw, forLoop, forStep, store, DT_IOP_RAWDENOISE_BANDS]
    norm_num
  · simp [commit_params, forLoop, forStep, store, DT_RAWDENOISE_NONE, DT_IOP_RAWDENOISE_BANDS]
  · simp [rawdenoise_draw, forLoop, forStep, store, DT_IOP_RAWDENOISE_BANDS]
  · simp [init_pipe, forLoop, forStep, store, DT_RAWDENOISE_NONE, DT_IOP_RAWDENOISE_BANDS]
    norm_num

end Rawdenoise
